import Mathlib

/-!
# graddesc: a shallow embedding of the computation-graph engine

Node objects live at addresses (natural numbers).  A `Network` holds the
stored node order (`nodes`, the vector of owning pointers), the trainable
list (`parameters`) and the object store (`heap`) that maps every address
to the node object found there, whether the network owns it or not.

Scalars (`double` in the source) are an arbitrary field `α` together with
an exponential function `ex`; theorems about real-number arithmetic
instantiate `α := ℝ` and `ex := Real.exp`.
-/

namespace GradDesc

/-! ## Data model (graddesc.h) -/

/-- The concrete node classes with their private fields. -/
inductive NodeKind where
  | input : NodeKind
  | parameter : NodeKind
  | linearReducer (bias : Nat) (terms : List (Nat × Nat)) : NodeKind
  | sigmoid (input : Nat) : NodeKind
  | squaredError (terms : List (Nat × Nat)) : NodeKind
  deriving DecidableEq, Repr

/-- A node object: its dynamic class plus the two `double` fields of `Node`. -/
structure Node (α : Type) where
  kind : NodeKind
  value : α
  dcost : α

/-- The network: `nodes` and `parameters` are the two vectors of
`class Network`; `heap` is the store the pointers refer to. -/
structure Network (α : Type) where
  nodes : List Nat
  parameters : List Nat
  heap : Nat → Node α

/-- The loop `for (term : terms) { callback(term.first); callback(term.second); }`. -/
def enumTerms {σ : Type} (callback : Nat → σ → σ) : List (Nat × Nat) → σ → σ
  | [], ctx => ctx
  | t :: ts, ctx => enumTerms callback ts (callback t.2 (callback t.1 ctx))

/-- The virtual `EnumDeps(callback, ctx)`, by dynamic class. -/
def NodeKind.EnumDeps {σ : Type} (k : NodeKind) (callback : Nat → σ → σ) (ctx : σ) : σ :=
  match k with
  | .input => ctx
  | .parameter => ctx
  | .linearReducer bias terms => enumTerms callback terms (callback bias ctx)
  | .sigmoid inp => callback inp ctx
  | .squaredError terms => enumTerms callback terms ctx

/-- The sequence of dependencies a node enumerates (with multiplicity, in
enumeration order): `EnumDeps` run with the callback that records its argument. -/
def NodeKind.deps (k : NodeKind) : List Nat :=
  k.EnumDeps (fun dep acc => acc ++ [dep]) []

/-- Dependencies enumerated by the node object at address `n`. -/
def Network.depsOf {α : Type} (net : Network α) (n : Nat) : List Nat :=
  (net.heap n).kind.deps

/-! ## `std::map<Node*, uint32_t>` -/

/-- Modulus of `uint32_t` arithmetic. -/
def U32 : Nat := 4294967296

/-- A `map<Node*, uint32_t>`: the keys present and the value stored at each. -/
structure CountMap where
  keys : List Nat
  val : Nat → Nat

/-- The empty map. -/
def CountMap.empty : CountMap := ⟨[], fun _ => 0⟩

/-- The lookup part of `operator[]`: an absent key is inserted with value 0. -/
def CountMap.touch (m : CountMap) (k : Nat) : CountMap :=
  if k ∈ m.keys then m else ⟨k :: m.keys, Function.update m.val k 0⟩

/-- The statement `++m[k]`. -/
def CountMap.incr (m : CountMap) (k : Nat) : CountMap :=
  let m1 := m.touch k
  ⟨m1.keys, Function.update m1.val k ((m1.val k + 1) % U32)⟩

/-- The statement `--m[k]`. -/
def CountMap.decr (m : CountMap) (k : Nat) : CountMap :=
  let m1 := m.touch k
  ⟨m1.keys, Function.update m1.val k ((m1.val k + U32 - 1) % U32)⟩

/-- The call `m.size()`. -/
def CountMap.size (m : CountMap) : Nat := m.keys.length

/-! ## Topological sort (graddesc.cpp, lines 134-175) -/

/-- The local `struct topo_context`. -/
structure topo_context where
  out_degree : CountMap
  ordered_nodes : List Nat

/-- First callback: `++ctx->out_degree[dep]`. -/
def countDep (dep : Nat) (ctx : topo_context) : topo_context :=
  { ctx with out_degree := ctx.out_degree.incr dep }

/-- Second callback: `if (--ctx->out_degree[dep] == 0) ordered_nodes.push_back(dep)`. -/
def releaseDep (dep : Nat) (ctx : topo_context) : topo_context :=
  let m := ctx.out_degree.decr dep
  if m.val dep = 0 then ⟨m, ctx.ordered_nodes ++ [dep]⟩ else ⟨m, ctx.ordered_nodes⟩

/-- First loop: every owned node counts its dependencies. -/
def countLoop {α : Type} (heap : Nat → Node α) : List Nat → topo_context → topo_context
  | [], ctx => ctx
  | n :: ns, ctx => countLoop heap ns ((heap n).kind.EnumDeps countDep ctx)

/-- Second loop: owned nodes whose counter reads 0 are emitted. -/
def seedLoop : List Nat → topo_context → topo_context
  | [], ctx => ctx
  | n :: ns, ctx =>
    let m := ctx.out_degree.touch n
    if m.val n = 0 then seedLoop ns ⟨m, ctx.ordered_nodes ++ [n]⟩
    else seedLoop ns ⟨m, ctx.ordered_nodes⟩

/-- Third loop, `for (uint32_t i = 0; i < ordered_nodes.size(); i++)`, over the
growing emitted sequence.  `fuel` bounds the number of iterations; `none`
means the loop is still running when the fuel is used up. -/
def workLoop {α : Type} (heap : Nat → Node α) : Nat → Nat → topo_context → Option topo_context
  | 0, i, ctx => if i < ctx.ordered_nodes.length then none else some ctx
  | fuel + 1, i, ctx =>
    if i < ctx.ordered_nodes.length then
      workLoop heap fuel ((i + 1) % U32)
        ((heap (ctx.ordered_nodes.getD i 0)).kind.EnumDeps releaseDep ctx)
    else some ctx

/-- The method `Network::AddNode`: `nodes.push_back(n)`. -/
def Network.AddNode {α : Type} (net : Network α) (n : Nat) : Network α :=
  { net with nodes := net.nodes ++ [n] }

/-- The method `Network::AddParameter`: `parameters.push_back(n)`. -/
def Network.AddParameter {α : Type} (net : Network α) (n : Nat) : Network α :=
  { net with parameters := net.parameters ++ [n] }

/-- Final loop `for (uint32_t i = size - 1; (int32_t)i >= 0; i--) AddNode(ordered[i])`,
started at the 32-bit index `i` (here non-negative as an `int32_t`). -/
def installFrom {α : Type} (ordered : List Nat) : Nat → Network α → Network α
  | 0, net => net.AddNode (ordered.getD 0 0)
  | i + 1, net => installFrom ordered i (net.AddNode (ordered.getD (i + 1) 0))

/-- The whole final loop: the start index is `size - 1` in `uint32_t`, and the
loop body runs only while the index is non-negative as an `int32_t`. -/
def installLoop {α : Type} (ordered : List Nat) (net : Network α) : Network α :=
  let i := (ordered.length % U32 + U32 - 1) % U32
  if i < 2147483648 then installFrom ordered i net else net

/-- What `TopoSort` reports: nothing (the new order is installed) or one of
the two diagnostics written to `stderr`. -/
inductive TopoDiag where
  | installed : TopoDiag
  | loopDetected : TopoDiag
  | outOfNetwork : TopoDiag
  deriving DecidableEq, Repr

/-- The context after the three loops of `TopoSort`. -/
def topoRun {α : Type} (fuel : Nat) (net : Network α) : Option topo_context :=
  workLoop net.heap fuel 0
    (seedLoop net.nodes (countLoop net.heap net.nodes ⟨CountMap.empty, []⟩))

/-- The final `if / else if / else` of `TopoSort`; in the last branch the node
vector is released and cleared, then refilled by the final loop. -/
def topoFinish {α : Type} (net : Network α) (ctx : topo_context) : TopoDiag × Network α :=
  if ctx.ordered_nodes.length < net.nodes.length then
    (.loopDetected, net)
  else if ctx.out_degree.size > net.nodes.length then
    (.outOfNetwork, net)
  else
    (.installed, installLoop ctx.ordered_nodes { net with nodes := [] })

/-- The method `Network::TopoSort`. -/
def Network.TopoSort {α : Type} (net : Network α) (fuel : Nat) :
    Option (TopoDiag × Network α) :=
  (topoRun fuel net).map (topoFinish net)

/-! ## Forward and backward pass (graddesc.cpp, lines 15-126) -/

/-- The assignment `n->value = v`. -/
def setValue {α : Type} (heap : Nat → Node α) (n : Nat) (v : α) : Nat → Node α :=
  Function.update heap n { heap n with value := v }

/-- The assignment `n->dcost = v`. -/
def setDcost {α : Type} (heap : Nat → Node α) (n : Nat) (v : α) : Nat → Node α :=
  Function.update heap n { heap n with dcost := v }

/-- The static `Node::PushPartial(n, d)`: `n->dcost += d`. -/
def pushTo {α : Type} [Field α] (heap : Nat → Node α) (n : Nat) (d : α) : Nat → Node α :=
  setDcost heap n ((heap n).dcost + d)

/-- Term loop of `LinearReducer::Eval`: `value += first->value * second->value`. -/
def evalLinearTerms {α : Type} [Field α] (self : Nat) :
    List (Nat × Nat) → (Nat → Node α) → (Nat → Node α)
  | [], heap => heap
  | t :: ts, heap =>
    evalLinearTerms self ts
      (setValue heap self ((heap self).value + (heap t.1).value * (heap t.2).value))

/-- Term loop of `SquaredError::Eval`: `value += pow(first->value - second->value, 2)`. -/
def evalSquaredTerms {α : Type} [Field α] (self : Nat) :
    List (Nat × Nat) → (Nat → Node α) → (Nat → Node α)
  | [], heap => heap
  | t :: ts, heap =>
    evalSquaredTerms self ts
      (setValue heap self ((heap self).value + ((heap t.1).value - (heap t.2).value) ^ 2))

/-- The virtual `Eval()` of the node at address `self`; `ex` is `exp`. -/
def Eval {α : Type} [Field α] (ex : α → α) (heap : Nat → Node α) (self : Nat) : Nat → Node α :=
  match (heap self).kind with
  | .input => heap
  | .parameter => heap
  | .linearReducer bias terms => evalLinearTerms self terms (setValue heap self (heap bias).value)
  | .sigmoid inp => setValue heap self (1 / (1 + ex (-(heap inp).value)))
  | .squaredError terms => evalSquaredTerms self terms (setValue heap self 0)

/-- Term loop of `LinearReducer::PushPartial`. -/
def pushLinearTerms {α : Type} [Field α] (self : Nat) :
    List (Nat × Nat) → (Nat → Node α) → (Nat → Node α)
  | [], heap => heap
  | t :: ts, heap =>
    let h1 := pushTo heap t.1 ((heap self).dcost * (heap t.2).value)
    pushLinearTerms self ts (pushTo h1 t.2 ((h1 self).dcost * (h1 t.1).value))

/-- Term loop of `SquaredError::PushPartial`. -/
def pushSquaredTerms {α : Type} [Field α] (self : Nat) :
    List (Nat × Nat) → (Nat → Node α) → (Nat → Node α)
  | [], heap => heap
  | t :: ts, heap =>
    let a := (heap t.1).value
    let b := (heap t.2).value
    let h1 := pushTo heap t.1 ((heap self).dcost * 2 * (a - b))
    pushSquaredTerms self ts (pushTo h1 t.2 ((h1 self).dcost * 2 * (b - a)))

/-- The virtual `PushPartial()` of the node at address `self`; `ex` is `exp`. -/
def PushPartial {α : Type} [Field α] (ex : α → α) (heap : Nat → Node α) (self : Nat) :
    Nat → Node α :=
  match (heap self).kind with
  | .input => heap
  | .parameter => heap
  | .linearReducer bias terms => pushLinearTerms self terms (pushTo heap bias (heap self).dcost)
  | .sigmoid inp =>
    let iv := (heap inp).value
    let eiv := ex iv
    pushTo heap inp ((heap self).dcost * (eiv / (1 + eiv) ^ 2))
  | .squaredError terms => pushSquaredTerms self terms heap

/-- The loop of `Network::ComputeValues` over the stored nodes, front to back:
`nodes[i]->dcost = 0; nodes[i]->Eval();`. -/
def computeValuesLoop {α : Type} [Field α] (ex : α → α) :
    List Nat → (Nat → Node α) → (Nat → Node α)
  | [], heap => heap
  | n :: ns, heap => computeValuesLoop ex ns (Eval ex (setDcost heap n 0) n)

/-- The method `Network::ComputeValues`. -/
def Network.ComputeValues {α : Type} [Field α] (ex : α → α) (net : Network α) : Network α :=
  { net with heap := computeValuesLoop ex net.nodes net.heap }

/-- The loop of `Network::ComputePartials` over the nodes in processing order. -/
def computePartialsLoop {α : Type} [Field α] (ex : α → α) :
    List Nat → (Nat → Node α) → (Nat → Node α)
  | [], heap => heap
  | n :: ns, heap => computePartialsLoop ex ns (PushPartial ex heap n)

/-- The method `Network::ComputePartials(cost)`: seed `cost->dcost = 1`, then
`PushPartial()` on every stored node from the last index down to 0. -/
def Network.ComputePartials {α : Type} [Field α] (ex : α → α) (net : Network α) (cost : Nat) :
    Network α :=
  { net with heap := computePartialsLoop ex net.nodes.reverse (setDcost net.heap cost 1) }

/-- The method `InputNode::SetValue` (and the initial value of a parameter):
the node at `n` holds the value `v`. -/
def Network.withValue {α : Type} (net : Network α) (n : Nat) (v : α) : Network α :=
  { net with heap := setValue net.heap n v }

/-! ## Auxiliary notions used in the statements -/

/-- The value formula of the specification for the node at `n`, read off the
values held in `heap`: inputs and parameters keep their value, a
`LinearReducer` is `bias.value + Σ a.value * b.value`, a `Sigmoid` is
`1 / (1 + exp (-x.value))`, a `SquaredError` is `Σ (a.value - b.value)^2`. -/
def valueFormula {α : Type} [Field α] (ex : α → α) (heap : Nat → Node α) (n : Nat) : α :=
  match (heap n).kind with
  | .input => (heap n).value
  | .parameter => (heap n).value
  | .linearReducer bias terms =>
    (heap bias).value + (terms.map (fun t => (heap t.1).value * (heap t.2).value)).sum
  | .sigmoid inp => 1 / (1 + ex (-(heap inp).value))
  | .squaredError terms =>
    (terms.map (fun t => ((heap t.1).value - (heap t.2).value) ^ 2)).sum

/-- Inputs and parameters: the node classes whose `Eval` and `PushPartial` do
nothing. -/
def NodeKind.isLeaf : NodeKind → Bool
  | .input => true
  | .parameter => true
  | _ => false

/-- Invariant of the loop of `ComputeValues`: `heap0` is the store before the
pass, `pre` the nodes already evaluated. -/
structure ForwardInv {α : Type} [Field α] (ex : α → α) (heap0 heap : Nat → Node α)
    (pre : List Nat) : Prop where
  kind : ∀ m, (heap m).kind = (heap0 m).kind
  done : ∀ n ∈ pre, (heap n).dcost = 0 ∧ (heap n).value = valueFormula ex heap n
  rest : ∀ m, m ∉ pre → heap m = heap0 m
  leaf : ∀ m, (heap0 m).kind.isLeaf = true → (heap m).value = (heap0 m).value

/-- What the node at `n` pushes to `d` according to the table of the
specification, summed over the dependency slots of `n` that hold `d`: the
accumulator of `n` for a `LinearReducer` bias, accumulator times the partner's
value for a `LinearReducer` term slot, accumulator times
`exp x / (1 + exp x)^2` for a `Sigmoid` input, and accumulator times
`2 * (own - other)` for a `SquaredError` term slot. -/
def contribution {α : Type} [Field α] (ex : α → α) (heap : Nat → Node α) (n d : Nat) : α :=
  match (heap n).kind with
  | .input => 0
  | .parameter => 0
  | .linearReducer bias terms =>
    (if bias = d then (heap n).dcost else 0) +
    (terms.map (fun t =>
      (if t.1 = d then (heap n).dcost * (heap t.2).value else 0) +
      (if t.2 = d then (heap n).dcost * (heap t.1).value else 0))).sum
  | .sigmoid x =>
    if x = d then (heap n).dcost * (ex (heap x).value / (1 + ex (heap x).value) ^ 2) else 0
  | .squaredError terms =>
    (terms.map (fun t =>
      (if t.1 = d then (heap n).dcost * 2 * ((heap t.1).value - (heap t.2).value) else 0) +
      (if t.2 = d then (heap n).dcost * 2 * ((heap t.2).value - (heap t.1).value) else 0))).sum

/-- Invariant of the loop of `ComputePartials`: `heap0` is the store after the
seed, `S` the nodes whose `PushPartial` has run. -/
structure BackwardInv {α : Type} [Field α] (ex : α → α) (heap0 heap : Nat → Node α)
    (S : List Nat) : Prop where
  kind : ∀ m, (heap m).kind = (heap0 m).kind
  value : ∀ m, (heap m).value = (heap0 m).value
  acc : ∀ d, (heap d).dcost =
    (heap0 d).dcost + (S.map (fun n => contribution ex heap n d)).sum

/-- The forward-mode (tangent) rule of the node at `n`: the derivative of its
value formula along tangents `t` of its dependencies, at the values held in
`heap`.  Inputs and parameters carry their own tangent. -/
def tangentFormula {α : Type} [Field α] (ex : α → α) (heap : Nat → Node α) (t : Nat → α)
    (n : Nat) : α :=
  match (heap n).kind with
  | .input => t n
  | .parameter => t n
  | .linearReducer bias terms =>
    t bias + (terms.map (fun tm =>
      t tm.1 * (heap tm.2).value + (heap tm.1).value * t tm.2)).sum
  | .sigmoid x => t x * (ex (heap x).value / (1 + ex (heap x).value) ^ 2)
  | .squaredError terms =>
    (terms.map (fun tm =>
      2 * ((heap tm.1).value - (heap tm.2).value) * (t tm.1 - t tm.2))).sum

/-- A rational function standing in for `exp` when the passes are run on
example graphs. -/
def exQ (x : ℚ) : ℚ := 1 + x

/-- The stored list, cut at any node, has all dependencies of that node in
the part before it. -/
def Network.DepsBefore {α : Type} (net : Network α) : Prop :=
  ∀ pre n post, net.nodes = pre ++ n :: post → ∀ d ∈ net.depsOf n, d ∈ pre

/-- The two nodes of every term, in enumeration order. -/
def pairList : List (Nat × Nat) → List Nat
  | [] => []
  | t :: ts => t.1 :: t.2 :: pairList ts

/-- All dependency occurrences enumerated by the nodes of a list, in order. -/
def allDeps {α : Type} (heap : Nat → Node α) : List Nat → List Nat
  | [] => []
  | n :: ns => (heap n).kind.deps ++ allDeps heap ns

/-- Well-formedness of a `map`: distinct keys, and absent keys read as 0. -/
def CountMap.WF (m : CountMap) : Prop :=
  m.keys.Nodup ∧ (∀ k, k ∉ m.keys → m.val k = 0) ∧ ∀ k, m.val k < U32

/-- Invariant of the third loop of `TopoSort`.  `init` are the counters
after the second loop, `D` the dependencies released so far, `P` the emitted
nodes whose processing has started. -/
structure ReleaseInv {α : Type} (heap : Nat → Node α) (nodes : List Nat) (init : Nat → Nat)
    (P D : List Nat) (ctx : topo_context) : Prop where
  wf : ctx.out_degree.WF
  vals : ∀ d, (ctx.out_degree.val d + D.count d) % U32 = init d
  mem : ∀ d, d ∈ ctx.ordered_nodes ↔
    (d ∈ nodes ∧ init d = 0) ∨ (1 ≤ init d ∧ init d ≤ D.count d)
  nodup : ctx.ordered_nodes.Nodup
  before : ∀ A d B, ctx.ordered_nodes = A ++ d :: B → 1 ≤ init d →
    init d ≤ (allDeps heap A).count d
  pre : P <+: ctx.ordered_nodes

/-- The counter of `d` after the first two loops of `TopoSort`: the number of
dependency occurrences of `d` among the owned nodes, in `uint32_t`. -/
def initCount {α : Type} (net : Network α) (d : Nat) : Nat :=
  (allDeps net.heap net.nodes).count d % U32

/-- Construction invariant of the node vector: every node object registers
itself exactly once (`Node::Node` calls `AddNode(this)`), so the stored
addresses are pairwise distinct. -/
def Network.WF {α : Type} (net : Network α) : Prop := net.nodes.Nodup

/-- The graph fits the 32-bit counters and indices of `TopoSort`: at most
`2^31` nodes and fewer than `2^32` dependency occurrences. -/
def Network.Fits32 {α : Type} (net : Network α) : Prop :=
  net.nodes.length ≤ 2147483648 ∧ (allDeps net.heap net.nodes).length < U32

/-- Every dependency enumerated by an owned node is itself owned. -/
def Network.AllOwned {α : Type} (net : Network α) : Prop :=
  ∀ n ∈ net.nodes, ∀ d ∈ net.depsOf n, d ∈ net.nodes

/-- The dependency relation among the owned nodes: `n` enumerates `d`. -/
def Network.DependsOn {α : Type} (net : Network α) (n d : Nat) : Prop :=
  n ∈ net.nodes ∧ d ∈ net.nodes ∧ d ∈ net.depsOf n

/-- No owned node reaches itself along one or more dependency edges. -/
def Network.Acyclic {α : Type} (net : Network α) : Prop :=
  ∀ n, ¬ Relation.TransGen net.DependsOn n n

/-- The stored order places every dependency strictly before its dependents. -/
def Network.OrderValid {α : Type} (net : Network α) : Prop :=
  ∀ n ∈ net.nodes, ∀ d ∈ net.depsOf n, net.nodes.indexOf d < net.nodes.indexOf n

instance Network.decidableWF {α : Type} (net : Network α) : Decidable net.WF := by
  unfold Network.WF; infer_instance

instance Network.decidableFits32 {α : Type} (net : Network α) : Decidable net.Fits32 := by
  unfold Network.Fits32; infer_instance

instance Network.decidableAllOwned {α : Type} (net : Network α) : Decidable net.AllOwned := by
  unfold Network.AllOwned; infer_instance

instance Network.decidableOrderValid {α : Type} (net : Network α) :
    Decidable net.OrderValid := by
  unfold Network.OrderValid; infer_instance

/-- The nodes `TopoSort` can ever emit or count: the owned nodes and the nodes
they enumerate. -/
def Network.touched {α : Type} (net : Network α) : List Nat :=
  (net.nodes ++ allDeps net.heap net.nodes).dedup

/-- The touched nodes and the dependencies they enumerate fit 32-bit counters. -/
def Network.FitsTouched32 {α : Type} (net : Network α) : Prop :=
  net.touched.length < U32 ∧ (allDeps net.heap net.touched).length < U32

instance Network.decidableFitsTouched32 {α : Type} (net : Network α) :
    Decidable net.FitsTouched32 := by
  unfold Network.FitsTouched32; infer_instance

/-! ## Example graphs -/

/-- Store of `twoLayerNet`: input `x` (0), parameters `b1` (1) and `b2` (2), a
`LinearReducer` `L1` (3) with bias `b1`, a `LinearReducer` `L2` (4) with bias
`b2`, and then `L1.AddTerm(L2, x)`. -/
def twoLayerHeap : Nat → Node ℚ
  | 0 => ⟨.input, 1, 0⟩
  | 1 => ⟨.parameter, 0, 0⟩
  | 2 => ⟨.parameter, 3, 0⟩
  | 3 => ⟨.linearReducer 1 [(4, 0)], 0, 0⟩
  | 4 => ⟨.linearReducer 2 [], 0, 0⟩
  | _ => ⟨.input, 0, 0⟩

/-- A valid graph whose construction order is not a topological order. -/
def twoLayerNet : Network ℚ := ⟨[0, 1, 2, 3, 4], [1, 2], twoLayerHeap⟩

/-- The order `TopoSort` installs for `twoLayerNet`. -/
def twoLayerSorted : Network ℚ := ⟨[2, 0, 4, 1, 3], [1, 2], twoLayerHeap⟩

/-- Store of `mutualNet`: two `SquaredError` nodes that name each other
through `AddTerm`. -/
def mutualHeap : Nat → Node ℚ
  | 0 => ⟨.squaredError [(1, 1)], 0, 0⟩
  | 1 => ⟨.squaredError [(0, 0)], 0, 0⟩
  | _ => ⟨.input, 0, 0⟩

/-- A graph with a dependency cycle and no foreign dependency. -/
def mutualNet : Network ℚ := ⟨[0, 1], [], mutualHeap⟩

/-- Store of `cycleForeignNet`: a `Sigmoid` (0) of the foreign node 3, two
`SquaredError` nodes (1, 2) that name each other, and the foreign
`SquaredError` node 3 (owned by another network) with the terms
`(1, 2), (1, 2)`. -/
def cycleForeignHeap : Nat → Node ℚ
  | 0 => ⟨.sigmoid 3, 0, 0⟩
  | 1 => ⟨.squaredError [(2, 2)], 0, 0⟩
  | 2 => ⟨.squaredError [(1, 1)], 0, 0⟩
  | 3 => ⟨.squaredError [(1, 2), (1, 2)], 0, 0⟩
  | _ => ⟨.input, 0, 0⟩

/-- A graph with a dependency cycle among its owned nodes and a foreign
dependency. -/
def cycleForeignNet : Network ℚ := ⟨[0, 1, 2], [], cycleForeignHeap⟩

/-- Store of `selfForeignNet`: a `SquaredError` (0) with the term `(0, 1)`,
naming itself and the foreign input node 1. -/
def selfForeignHeap : Nat → Node ℚ
  | 0 => ⟨.squaredError [(0, 1)], 0, 0⟩
  | _ => ⟨.input, 0, 0⟩

/-- A graph with a foreign dependency whose only owned node names itself. -/
def selfForeignNet : Network ℚ := ⟨[0], [], selfForeignHeap⟩

/-- Store of `foreignNet`: a `Sigmoid` (0) of the foreign input node 1. -/
def foreignHeap : Nat → Node ℚ
  | 0 => ⟨.sigmoid 1, 0, 0⟩
  | _ => ⟨.input, 0, 0⟩

/-- An acyclic graph with a foreign dependency. -/
def foreignNet : Network ℚ := ⟨[0], [], foreignHeap⟩

/-- Store of `sigmoidNet`: input `x = 1` (0), parameters `w = 1/2` (1) and
`b = 0` (2), the `LinearReducer` with bias `b` and the single term `(x, w)`
(3), and `y`, the `Sigmoid` of that reducer (4). -/
def sigmoidHeap (α : Type) [Field α] : Nat → Node α
  | 0 => ⟨.input, 1, 0⟩
  | 1 => ⟨.parameter, 1 / 2, 0⟩
  | 2 => ⟨.parameter, 0, 0⟩
  | 3 => ⟨.linearReducer 2 [(0, 1)], 0, 0⟩
  | 4 => ⟨.sigmoid 3, 0, 0⟩
  | _ => ⟨.input, 0, 0⟩

/-- The graph `y = sigmoid (w * x + b)` in the order `TopoSort` installs. -/
def sigmoidNet (α : Type) [Field α] : Network α := ⟨[1, 0, 2, 3, 4], [1, 2], sigmoidHeap α⟩

/-- The graph `y = sigmoid (w * x + b)` in construction order: `x`, `w`, `b`,
the reducer, the sigmoid. -/
def sigmoidBuilt (α : Type) [Field α] : Network α := ⟨[0, 1, 2, 3, 4], [1, 2], sigmoidHeap α⟩

/-! ## Parameter update and accessors (graddesc.cpp, lines 128-132; graddesc.h) -/

/-- The loop of `Network::UpdateParameters`:
`param->value -= learning_rate * param->dcost` for every entry of `parameters`. -/
def updateLoop {α : Type} [Field α] (lr : α) : List Nat → (Nat → Node α) → (Nat → Node α)
  | [], heap => heap
  | p :: ps, heap =>
    updateLoop lr ps (setValue heap p ((heap p).value - lr * (heap p).dcost))

/-- The method `Network::UpdateParameters`. -/
def Network.UpdateParameters {α : Type} [Field α] (net : Network α) (lr : α) : Network α :=
  { net with heap := updateLoop lr net.parameters net.heap }

/-- The accessor `uint32_t NumParameters()`: `parameters.size()` as a `uint32_t`. -/
def Network.NumParameters {α : Type} (net : Network α) : Nat :=
  net.parameters.length % U32

/-- The accessor `GetParameter(index)`: `parameters[index]`, defined for an
index inside the vector. -/
def Network.GetParameter {α : Type} (net : Network α) (index : Nat) : Option Nat :=
  net.parameters.get? index

/-! ## Construction (graddesc.cpp, lines 8-33, 58-59, 76-81) -/

/-- The base constructor `Node::Node(net)` for a new object of class `k` at the
address `self`: `value(0), dcost(0)`, then `net->AddNode(this)`. -/
def Network.construct {α : Type} [Field α] (net : Network α) (self : Nat) (k : NodeKind) :
    Network α :=
  ({ net with heap := Function.update net.heap self ⟨k, 0, 0⟩ } : Network α).AddNode self

/-- The constructor `InputNode::InputNode(net, val)`. -/
def Network.newInputNode {α : Type} [Field α] (net : Network α) (self : Nat) (val : α) :
    Network α :=
  (net.construct self .input).withValue self val

/-- The constructor `ParameterNode::ParameterNode(net, val)`. -/
def Network.newParameterNode {α : Type} [Field α] (net : Network α) (self : Nat) (val : α) :
    Network α :=
  ((net.construct self .parameter).withValue self val).AddParameter self

/-- The constructor `LinearReducer::LinearReducer(net, bias)`. -/
def Network.newLinearReducer {α : Type} [Field α] (net : Network α) (self bias : Nat) :
    Network α :=
  net.construct self (.linearReducer bias [])

/-- The constructor `SigmoidNode::SigmoidNode(net, input)`. -/
def Network.newSigmoidNode {α : Type} [Field α] (net : Network α) (self inp : Nat) :
    Network α :=
  net.construct self (.sigmoid inp)

/-- The constructor `SquaredError::SquaredError(net)`. -/
def Network.newSquaredError {α : Type} [Field α] (net : Network α) (self : Nat) : Network α :=
  net.construct self (.squaredError [])

/-- A write to the private fields of the object at `n` (its bias and terms),
leaving `value` and `dcost` as they are. -/
def setKind {α : Type} (heap : Nat → Node α) (n : Nat) (k : NodeKind) : Nat → Node α :=
  Function.update heap n ⟨k, (heap n).value, (heap n).dcost⟩

/-- The method `LinearReducer::AddTerm(a, b)` on the object at `self`:
`terms.push_back(make_pair(a, b))`.  The call is only typed for a
`LinearReducer`; on another object nothing happens. -/
def Network.linearAddTerm {α : Type} (net : Network α) (self a b : Nat) : Network α :=
  match (net.heap self).kind with
  | .linearReducer bias terms =>
    { net with heap := setKind net.heap self (.linearReducer bias (terms ++ [(a, b)])) }
  | _ => net

/-- The method `SquaredError::AddTerm(a, b)` on the object at `self`. -/
def Network.squaredAddTerm {α : Type} (net : Network α) (self a b : Nat) : Network α :=
  match (net.heap self).kind with
  | .squaredError terms =>
    { net with heap := setKind net.heap self (.squaredError (terms ++ [(a, b)])) }
  | _ => net

/-- The method `InputNode::SetValue(val)` on the object at `self`; only typed
for an `InputNode`. -/
def Network.inputSetValue {α : Type} (net : Network α) (self : Nat) (val : α) : Network α :=
  match (net.heap self).kind with
  | .input => net.withValue self val
  | _ => net

/-- The public operations of the library that change state: the five
constructors, `SetValue`, the two `AddTerm`, and the four methods of
`Network`. -/
inductive Op (α : Type) where
  | newInput (self : Nat) (val : α) : Op α
  | newParameter (self : Nat) (val : α) : Op α
  | newLinearReducer (self bias : Nat) : Op α
  | newSigmoid (self inp : Nat) : Op α
  | newSquaredError (self : Nat) : Op α
  | setValue (self : Nat) (val : α) : Op α
  | linearAddTerm (self a b : Nat) : Op α
  | squaredAddTerm (self a b : Nat) : Op α
  | topoSort (fuel : Nat) : Op α
  | computeValues : Op α
  | computePartials (cost : Nat) : Op α
  | updateParameters (lr : α) : Op α

/-- The network after one public operation (`none`: the sort did not finish
within its fuel). -/
def Network.perform {α : Type} [Field α] (ex : α → α) (net : Network α) :
    Op α → Option (Network α)
  | .newInput self val => some (net.newInputNode self val)
  | .newParameter self val => some (net.newParameterNode self val)
  | .newLinearReducer self bias => some (net.newLinearReducer self bias)
  | .newSigmoid self inp => some (net.newSigmoidNode self inp)
  | .newSquaredError self => some (net.newSquaredError self)
  | .setValue self val => some (net.inputSetValue self val)
  | .linearAddTerm self a b => some (net.linearAddTerm self a b)
  | .squaredAddTerm self a b => some (net.squaredAddTerm self a b)
  | .topoSort fuel => (net.TopoSort fuel).map Prod.snd
  | .computeValues => some (net.ComputeValues ex)
  | .computePartials cost => some (net.ComputePartials ex cost)
  | .updateParameters lr => some (net.UpdateParameters lr)

/-- The network after a sequence of public operations. -/
def Network.run {α : Type} [Field α] (ex : α → α) : Network α → List (Op α) → Option (Network α)
  | net, [] => some net
  | net, op :: ops =>
    match net.perform ex op with
    | none => none
    | some net1 => Network.run ex net1 ops

/-- The address of the object an operation constructs, if it is a constructor. -/
def Op.constructed {α : Type} : Op α → Option Nat
  | .newInput self _ => some self
  | .newParameter self _ => some self
  | .newLinearReducer self _ => some self
  | .newSigmoid self _ => some self
  | .newSquaredError self => some self
  | _ => none

/-- The address of the `ParameterNode` an operation constructs, if any. -/
def Op.constructedParameter {α : Type} : Op α → Option Nat
  | .newParameter self _ => some self
  | _ => none

/-- The object `AddTerm` is called on, if the operation is an `AddTerm`. -/
def Op.addTermTarget {α : Type} : Op α → Option Nat
  | .linearAddTerm self _ _ => some self
  | .squaredAddTerm self _ _ => some self
  | _ => none

/-- A freshly created `Network`: no nodes, no parameters; `heap` is the rest of
the memory. -/
def Network.fresh {α : Type} (heap : Nat → Node α) : Network α := ⟨[], [], heap⟩

/-- Memory in which no object of interest has been built yet. -/
def blankHeap : Nat → Node ℚ := fun _ => ⟨.input, 0, 0⟩

/-- The construction of the graph `y = sigmoid (w * x + b)`: `x` (0), `w` (1),
`b` (2), the reducer with bias `b` (3), its term `(x, w)`, and the sigmoid (4). -/
def buildOps : List (Op ℚ) :=
  [.newInput 0 1, .newParameter 1 (1 / 2), .newParameter 2 0, .newLinearReducer 3 2,
    .linearAddTerm 3 0 1, .newSigmoid 4 3]

/-- The network right after the constructor of the reducer has returned. -/
def reducerBuilt : Network ℚ :=
  ((((Network.fresh blankHeap).newInputNode 0 1).newParameterNode 1 (1 / 2)).newParameterNode
    2 0).newLinearReducer 3 2

/-- The network built by `buildOps`. -/
def sigmoidConstructed : Network ℚ :=
  ((reducerBuilt.linearAddTerm 3 0 1).newSigmoidNode 4 3)

/-! ## The worklist loop with a check on every decrement -/

/-- Outcome of the instrumented worklist loop. -/
inductive LoopResult where
  | done (ctx : topo_context) : LoopResult
  | running : LoopResult
  | underflow : LoopResult

/-- The second callback of `TopoSort`, instrumented: `none` records that a
counter holding 0 was decremented (an unsigned wrap-around). -/
def releaseDepChecked (dep : Nat) : Option topo_context → Option topo_context
  | none => none
  | some ctx =>
    if (ctx.out_degree.touch dep).val dep = 0 then none else some (releaseDep dep ctx)

/-- The third loop of `TopoSort` with the instrumented callback. -/
def workLoopChecked {α : Type} (heap : Nat → Node α) : Nat → Nat → topo_context → LoopResult
  | 0, i, ctx => if i < ctx.ordered_nodes.length then .running else .done ctx
  | fuel + 1, i, ctx =>
    if i < ctx.ordered_nodes.length then
      match (heap (ctx.ordered_nodes.getD i 0)).kind.EnumDeps releaseDepChecked (some ctx) with
      | none => .underflow
      | some ctx1 => workLoopChecked heap fuel ((i + 1) % U32) ctx1
    else .done ctx

/-- Store of `fanInNet`: input `x` (0, value 2), parameters `b` (1, value 1)
and `w` (2, value 3), a `LinearReducer` `A` (3) with bias `b` and the single
term `(x, x)`, a `LinearReducer` `B` (4) with bias `b` and the term `(w, x)`,
an input `t` (5, value 1), and a `SquaredError` (6) with the terms `(A, t)`
and `(B, x)`. -/
def fanInHeap : Nat → Node ℚ
  | 0 => ⟨.input, 2, 0⟩
  | 1 => ⟨.parameter, 1, 0⟩
  | 2 => ⟨.parameter, 3, 0⟩
  | 3 => ⟨.linearReducer 1 [(0, 0)], 0, 0⟩
  | 4 => ⟨.linearReducer 1 [(2, 0)], 0, 0⟩
  | 5 => ⟨.input, 1, 0⟩
  | 6 => ⟨.squaredError [(3, 5), (4, 0)], 0, 0⟩
  | _ => ⟨.input, 0, 0⟩

/-- A sorted graph in which `x` is a dependency of three nodes, twice inside
the term list of `A`, and `b` is the bias of two nodes. -/
def fanInNet : Network ℚ := ⟨[0, 1, 2, 3, 4, 5, 6], [1, 2], fanInHeap⟩

/-! ## Dependency enumeration -/

theorem enumTerms_eq_foldl {σ : Type} (cb : Nat → σ → σ) (ts : List (Nat × Nat)) (ctx : σ) :
    enumTerms cb ts ctx = (pairList ts).foldl (fun c d => cb d c) ctx := by
  induction ts generalizing ctx with
  | nil => rfl
  | cons t ts ih => simp [enumTerms, pairList, ih]

theorem enumTerms_record (ts : List (Nat × Nat)) (acc : List Nat) :
    enumTerms (fun dep a => a ++ [dep]) ts acc = acc ++ pairList ts := by
  induction ts generalizing acc with
  | nil => simp [enumTerms, pairList]
  | cons t ts ih => simp [enumTerms, pairList, ih]

@[simp] theorem deps_input : NodeKind.input.deps = [] := rfl

@[simp] theorem deps_parameter : NodeKind.parameter.deps = [] := rfl

@[simp] theorem deps_linearReducer (b : Nat) (ts : List (Nat × Nat)) :
    (NodeKind.linearReducer b ts).deps = b :: pairList ts := by
  simp [NodeKind.deps, NodeKind.EnumDeps, enumTerms_record]

@[simp] theorem deps_sigmoid (x : Nat) : (NodeKind.sigmoid x).deps = [x] := rfl

@[simp] theorem deps_squaredError (ts : List (Nat × Nat)) :
    (NodeKind.squaredError ts).deps = pairList ts := by
  simp [NodeKind.deps, NodeKind.EnumDeps, enumTerms_record]

theorem EnumDeps_eq_foldl {σ : Type} (k : NodeKind) (cb : Nat → σ → σ) (ctx : σ) :
    k.EnumDeps cb ctx = k.deps.foldl (fun c d => cb d c) ctx := by
  cases k <;> simp [NodeKind.EnumDeps, enumTerms_eq_foldl]

theorem allDeps_append {α : Type} (heap : Nat → Node α) (l₁ l₂ : List Nat) :
    allDeps heap (l₁ ++ l₂) = allDeps heap l₁ ++ allDeps heap l₂ := by
  induction l₁ with
  | nil => rfl
  | cons n ns ih => simp [allDeps, ih]

theorem mem_allDeps {α : Type} (heap : Nat → Node α) (l : List Nat) (d : Nat) :
    d ∈ allDeps heap l ↔ ∃ n ∈ l, d ∈ (heap n).kind.deps := by
  induction l with
  | nil => simp [allDeps]
  | cons n ns ih => simp [allDeps, ih]

theorem allDeps_sublist {α : Type} (heap : Nat → Node α) {l₁ l₂ : List Nat}
    (h : l₁.Sublist l₂) : (allDeps heap l₁).Sublist (allDeps heap l₂) := by
  induction h with
  | slnil => exact List.Sublist.refl _
  | cons a _ ih => exact ih.trans (List.sublist_append_right _ _)
  | cons₂ a _ ih => exact List.Sublist.append (List.Sublist.refl _) ih

theorem allDeps_perm {α : Type} (heap : Nat → Node α) {l₁ l₂ : List Nat}
    (h : l₁.Perm l₂) : (allDeps heap l₁).Perm (allDeps heap l₂) := by
  induction h with
  | nil => exact List.Perm.refl _
  | cons a _ ih => exact List.Perm.append_left _ ih
  | swap a b l =>
    simp only [allDeps]
    rw [← List.append_assoc, ← List.append_assoc]
    exact List.Perm.append_right _ List.perm_append_comm
  | trans _ _ ih₁ ih₂ => exact ih₁.trans ih₂

theorem allDeps_subperm {α : Type} (heap : Nat → Node α) {l₁ l₂ : List Nat}
    (h : l₁.Subperm l₂) : (allDeps heap l₁).Subperm (allDeps heap l₂) := by
  obtain ⟨l, hp, hs⟩ := h
  exact ⟨allDeps heap l, allDeps_perm heap hp, allDeps_sublist heap hs⟩

theorem allDeps_isPrefixOf {α : Type} (heap : Nat → Node α) {l₁ l₂ : List Nat}
    (h : l₁ <+: l₂) : allDeps heap l₁ <+: allDeps heap l₂ := by
  obtain ⟨t, rfl⟩ := h
  rw [allDeps_append]
  exact List.prefix_append _ _

/-! ## The counter map -/

theorem CountMap.empty_WF : CountMap.empty.WF := by
  refine ⟨List.nodup_nil, fun _ _ => rfl, fun _ => ?_⟩
  simp [CountMap.empty, U32]

theorem CountMap.touch_val (m : CountMap) (hm : m.WF) (k : Nat) : (m.touch k).val = m.val := by
  unfold CountMap.touch
  split
  · rfl
  · next hk =>
    funext d
    by_cases hd : d = k
    · subst hd; simp [hm.2.1 d hk]
    · simp [Function.update, hd]

theorem CountMap.mem_touch_keys (m : CountMap) (k d : Nat) :
    d ∈ (m.touch k).keys ↔ d = k ∨ d ∈ m.keys := by
  unfold CountMap.touch
  split
  · next hk =>
    constructor
    · exact fun h => Or.inr h
    · rintro (rfl | h)
      · exact hk
      · exact h
  · simp

theorem CountMap.touch_WF (m : CountMap) (hm : m.WF) (k : Nat) : (m.touch k).WF := by
  refine ⟨?_, ?_, ?_⟩
  · unfold CountMap.touch
    split
    · exact hm.1
    · next hk => exact List.nodup_cons.mpr ⟨hk, hm.1⟩
  · intro d hd
    rw [CountMap.touch_val m hm]
    apply hm.2.1
    intro h
    exact hd ((CountMap.mem_touch_keys m k d).mpr (Or.inr h))
  · intro d
    rw [CountMap.touch_val m hm]
    exact hm.2.2 d

theorem CountMap.length_touch_keys (m : CountMap) (k : Nat) :
    m.keys.length ≤ (m.touch k).keys.length := by
  unfold CountMap.touch
  split <;> simp

theorem CountMap.incr_val (m : CountMap) (hm : m.WF) (k d : Nat) :
    (m.incr k).val d = if d = k then (m.val k + 1) % U32 else m.val d := by
  simp only [CountMap.incr, CountMap.touch_val m hm, Function.update]
  split <;> simp_all

theorem CountMap.decr_val (m : CountMap) (hm : m.WF) (k d : Nat) :
    (m.decr k).val d = if d = k then (m.val k + U32 - 1) % U32 else m.val d := by
  simp only [CountMap.decr, CountMap.touch_val m hm, Function.update]
  split <;> simp_all

theorem CountMap.mem_incr_keys (m : CountMap) (k d : Nat) :
    d ∈ (m.incr k).keys ↔ d = k ∨ d ∈ m.keys :=
  CountMap.mem_touch_keys m k d

theorem CountMap.mem_decr_keys (m : CountMap) (k d : Nat) :
    d ∈ (m.decr k).keys ↔ d = k ∨ d ∈ m.keys :=
  CountMap.mem_touch_keys m k d

theorem CountMap.incr_WF (m : CountMap) (hm : m.WF) (k : Nat) : (m.incr k).WF := by
  have ht := CountMap.touch_WF m hm k
  refine ⟨ht.1, ?_, ?_⟩
  · intro d hd
    have hdk : d ≠ k := by
      rintro rfl
      exact hd ((CountMap.mem_incr_keys m d d).mpr (Or.inl rfl))
    rw [CountMap.incr_val m hm, if_neg hdk]
    apply hm.2.1
    intro h
    exact hd ((CountMap.mem_incr_keys m k d).mpr (Or.inr h))
  · intro d
    rw [CountMap.incr_val m hm]
    split
    · exact Nat.mod_lt _ (by decide)
    · exact hm.2.2 d

theorem CountMap.decr_WF (m : CountMap) (hm : m.WF) (k : Nat) : (m.decr k).WF := by
  have ht := CountMap.touch_WF m hm k
  refine ⟨ht.1, ?_, ?_⟩
  · intro d hd
    have hdk : d ≠ k := by
      rintro rfl
      exact hd ((CountMap.mem_decr_keys m d d).mpr (Or.inl rfl))
    rw [CountMap.decr_val m hm, if_neg hdk]
    apply hm.2.1
    intro h
    exact hd ((CountMap.mem_decr_keys m k d).mpr (Or.inr h))
  · intro d
    rw [CountMap.decr_val m hm]
    split
    · exact Nat.mod_lt _ (by decide)
    · exact hm.2.2 d

/-! ## First and second loop of `TopoSort` -/

theorem countLoop_eq_foldl {α : Type} (heap : Nat → Node α) (ns : List Nat) (ctx : topo_context) :
    countLoop heap ns ctx = (allDeps heap ns).foldl (fun c d => countDep d c) ctx := by
  induction ns generalizing ctx with
  | nil => rfl
  | cons n ns ih => simp [countLoop, allDeps, EnumDeps_eq_foldl, List.foldl_append, ih]

theorem foldl_countDep (D : List Nat) (ctx : topo_context) (hm : ctx.out_degree.WF) :
    (D.foldl (fun c d => countDep d c) ctx).out_degree.WF ∧
    (D.foldl (fun c d => countDep d c) ctx).ordered_nodes = ctx.ordered_nodes ∧
    (∀ k, k ∈ (D.foldl (fun c d => countDep d c) ctx).out_degree.keys ↔
      k ∈ ctx.out_degree.keys ∨ k ∈ D) ∧
    ∀ d, (D.foldl (fun c d => countDep d c) ctx).out_degree.val d =
      (ctx.out_degree.val d + D.count d) % U32 := by
  induction D generalizing ctx with
  | nil =>
    refine ⟨hm, rfl, by simp, fun d => ?_⟩
    simp [Nat.mod_eq_of_lt (hm.2.2 d)]
  | cons x D ih =>
    have hm1 : (countDep x ctx).out_degree.WF := CountMap.incr_WF _ hm x
    obtain ⟨h1, h2, h3, h4⟩ := ih (countDep x ctx) hm1
    refine ⟨h1, h2, fun k => ?_, fun d => ?_⟩
    · rw [List.foldl_cons, h3]
      simp only [countDep, CountMap.mem_incr_keys, List.mem_cons]
      tauto
    · rw [List.foldl_cons, h4]
      simp only [countDep, CountMap.incr_val _ hm, List.count_cons]
      by_cases hd : d = x
      · subst hd
        simp only [U32, if_true, beq_self_eq_true]
        omega
      · have hx : (x == d) = false := by simpa using fun h => hd h.symm
        simp [hd, hx]

theorem seedLoop_spec (ns : List Nat) (ctx : topo_context) (hm : ctx.out_degree.WF) :
    (seedLoop ns ctx).out_degree.WF ∧
    (seedLoop ns ctx).out_degree.val = ctx.out_degree.val ∧
    (∀ k, k ∈ (seedLoop ns ctx).out_degree.keys ↔ k ∈ ctx.out_degree.keys ∨ k ∈ ns) ∧
    (seedLoop ns ctx).ordered_nodes =
      ctx.ordered_nodes ++ ns.filter (fun n => decide (ctx.out_degree.val n = 0)) := by
  induction ns generalizing ctx with
  | nil => exact ⟨hm, rfl, by simp [seedLoop], by simp [seedLoop]⟩
  | cons n ns ih =>
    have hw := CountMap.touch_WF _ hm n
    have hv := CountMap.touch_val _ hm n
    simp only [seedLoop, hv]
    by_cases h0 : ctx.out_degree.val n = 0
    · simp only [h0, if_true]
      obtain ⟨h1, h2, h3, h4⟩ := ih ⟨ctx.out_degree.touch n, ctx.ordered_nodes ++ [n]⟩ hw
      refine ⟨h1, ?_, fun k => ?_, ?_⟩
      · rw [h2, hv]
      · rw [h3]
        simp only [CountMap.mem_touch_keys, List.mem_cons]
        tauto
      · rw [h4]
        simp [hv, h0]
    · simp only [h0, if_false]
      obtain ⟨h1, h2, h3, h4⟩ := ih ⟨ctx.out_degree.touch n, ctx.ordered_nodes⟩ hw
      refine ⟨h1, ?_, fun k => ?_, ?_⟩
      · rw [h2, hv]
      · rw [h3]
        simp only [CountMap.mem_touch_keys, List.mem_cons]
        tauto
      · rw [h4]
        simp [hv, h0]

/-! ## Third loop of `TopoSort` -/

theorem releaseDep_inv {α : Type} (heap : Nat → Node α) (nodes : List Nat) (init : Nat → Nat)
    (P D : List Nat) (ctx : topo_context) (d : Nat)
    (hI : ReleaseInv heap nodes init P D ctx)
    (hsub : D ++ [d] <+: allDeps heap P) (hlen : (allDeps heap P).length < U32) :
    ReleaseInv heap nodes init P (D ++ [d]) (releaseDep d ctx) ∧
    ctx.ordered_nodes <+: (releaseDep d ctx).ordered_nodes := by
  have hcnt : ∀ x, (D ++ [d]).count x = D.count x + if x = d then 1 else 0 := by
    intro x
    rw [List.count_append, List.count_singleton]
    by_cases hx : x = d
    · subst hx; simp
    · have : (d == x) = false := by simpa using fun h => hx h.symm
      simp [hx, this]
  have hle : (D ++ [d]).count d ≤ (allDeps heap P).length :=
    (List.count_le_length _ _).trans hsub.length_le
  have hv := hI.vals d
  have hvlt := hI.wf.2.2 d
  have hcd := hcnt d
  simp only [if_true] at hcd
  have hdv : (ctx.out_degree.decr d).val d = (ctx.out_degree.val d + U32 - 1) % U32 := by
    rw [CountMap.decr_val _ hI.wf]; simp
  have hpush : (ctx.out_degree.decr d).val d = 0 ↔ D.count d + 1 = init d := by
    rw [hdv]
    simp only [U32] at hv hvlt hlen ⊢
    omega
  have hvals : ∀ x, ((ctx.out_degree.decr d).val x + (D ++ [d]).count x) % U32 = init x := by
    intro x
    rw [CountMap.decr_val _ hI.wf, hcnt]
    by_cases hx : x = d
    · subst hx
      have := hI.vals x
      simp only [U32, if_true] at this hvlt ⊢
      omega
    · simpa [hx] using hI.vals x
  have hmem_ne : ∀ x, x ≠ d →
      ((x ∈ nodes ∧ init x = 0) ∨ (1 ≤ init x ∧ init x ≤ (D ++ [d]).count x) ↔
        (x ∈ nodes ∧ init x = 0) ∨ (1 ≤ init x ∧ init x ≤ D.count x)) := by
    intro x hx
    rw [hcnt, if_neg hx, Nat.add_zero]
  by_cases hp : (ctx.out_degree.decr d).val d = 0
  · have hinit := hpush.mp hp
    have hnot : d ∉ ctx.ordered_nodes := by
      rw [hI.mem]
      omega
    have hord : (releaseDep d ctx).ordered_nodes = ctx.ordered_nodes ++ [d] := by
      simp [releaseDep, hp]
    have hout : (releaseDep d ctx).out_degree = ctx.out_degree.decr d := by
      simp [releaseDep, hp]
    refine ⟨⟨?_, ?_, ?_, ?_, ?_, ?_⟩, ?_⟩
    · rw [hout]; exact CountMap.decr_WF _ hI.wf d
    · rw [hout]; exact hvals
    · intro x
      rw [hord, List.mem_append, List.mem_singleton]
      by_cases hx : x = d
      · subst hx
        constructor
        · intro _
          right
          omega
        · intro _
          exact Or.inr rfl
      · rw [hmem_ne x hx, hI.mem]
        simp [hx]
    · rw [hord]
      exact List.Nodup.append hI.nodup (List.nodup_singleton d)
        (List.disjoint_singleton.mpr hnot)
    · intro A x B hAB hx
      rw [hord] at hAB
      rcases List.eq_nil_or_concat B with rfl | ⟨B', b, rfl⟩
      · have h2 : ctx.ordered_nodes ++ [d] = A ++ [x] := hAB
        have hA := List.append_inj_left' h2 rfl
        have hxd := List.append_inj_right' h2 rfl
        have hxd' : x = d := by simpa using hxd.symm
        subst hxd'
        subst hA
        calc init x = (D ++ [x]).count x := by omega
          _ ≤ (allDeps heap P).count x := hsub.sublist.count_le x
          _ ≤ (allDeps heap ctx.ordered_nodes).count x :=
            (allDeps_isPrefixOf heap hI.pre).sublist.count_le x
      · have h2 : ctx.ordered_nodes ++ [d] = (A ++ x :: B') ++ [b] := by
          rw [hAB]; simp
        have hA := List.append_inj_left' h2 rfl
        exact hI.before A x B' hA hx
    · rw [hord]
      exact hI.pre.trans (List.prefix_append _ _)
    · rw [hord]
      exact List.prefix_append _ _
  · have hord : (releaseDep d ctx).ordered_nodes = ctx.ordered_nodes := by
      simp [releaseDep, hp]
    have hout : (releaseDep d ctx).out_degree = ctx.out_degree.decr d := by
      simp [releaseDep, hp]
    have hne : D.count d + 1 ≠ init d := fun h => hp (hpush.mpr h)
    refine ⟨⟨?_, ?_, ?_, ?_, ?_, ?_⟩, ?_⟩
    · rw [hout]; exact CountMap.decr_WF _ hI.wf d
    · rw [hout]; exact hvals
    · intro x
      rw [hord, hI.mem]
      by_cases hx : x = d
      · subst hx
        rw [hcd]
        constructor
        · rintro (h | h)
          · exact Or.inl h
          · exact Or.inr ⟨h.1, by omega⟩
        · rintro (h | h)
          · exact Or.inl h
          · exact Or.inr ⟨h.1, by omega⟩
      · rw [hmem_ne x hx]
    · rw [hord]; exact hI.nodup
    · rw [hord]; exact hI.before
    · rw [hord]; exact hI.pre
    · rw [hord]

theorem foldl_releaseDep_inv {α : Type} (heap : Nat → Node α) (nodes : List Nat)
    (init : Nat → Nat) (P : List Nat) (hlen : (allDeps heap P).length < U32)
    (ds D : List Nat) (ctx : topo_context)
    (hI : ReleaseInv heap nodes init P D ctx) (hsub : D ++ ds <+: allDeps heap P) :
    ReleaseInv heap nodes init P (D ++ ds) (ds.foldl (fun c d => releaseDep d c) ctx) ∧
    ctx.ordered_nodes <+: (ds.foldl (fun c d => releaseDep d c) ctx).ordered_nodes := by
  induction ds generalizing D ctx with
  | nil => simpa using hI
  | cons d ds ih =>
    have e : D ++ d :: ds = (D ++ [d]) ++ ds := by simp
    have hs1 : D ++ [d] <+: allDeps heap P :=
      (List.prefix_append (D ++ [d]) ds).trans (e ▸ hsub)
    obtain ⟨h1, h2⟩ := releaseDep_inv heap nodes init P D ctx d hI hs1 hlen
    obtain ⟨h3, h4⟩ := ih (D ++ [d]) (releaseDep d ctx) h1 (e ▸ hsub)
    rw [List.foldl_cons, e]
    exact ⟨h3, h2.trans h4⟩

theorem take_succ_getD (l : List Nat) (i : Nat) (h : i < l.length) :
    l.take (i + 1) = l.take i ++ [l.getD i 0] := by
  induction l generalizing i with
  | nil => simp at h
  | cons a l ih =>
    cases i with
    | zero => simp
    | succ i =>
      have h' : i < l.length := by simpa using h
      simp [ih i h']

theorem getD_mem (l : List Nat) (i : Nat) (h : i < l.length) : l.getD i 0 ∈ l := by
  induction l generalizing i with
  | nil => simp at h
  | cons a l ih =>
    cases i with
    | zero => simp
    | succ i =>
      have h' : i < l.length := by simpa using h
      simpa using Or.inr (ih i h')

/-- State invariant of the third loop between two iterations. -/
theorem workLoop_step {α : Type} (heap : Nat → Node α) (nodes : List Nat) (init : Nat → Nat)
    (V : List Nat) (hV : ∀ d, d ∈ nodes ∨ 1 ≤ init d → d ∈ V)
    (hVdeps : (allDeps heap V).length < U32)
    (i : Nat) (ctx : topo_context)
    (hI : ReleaseInv heap nodes init (ctx.ordered_nodes.take i)
      (allDeps heap (ctx.ordered_nodes.take i)) ctx)
    (hi : i < ctx.ordered_nodes.length) :
    ReleaseInv heap nodes init
      (((heap (ctx.ordered_nodes.getD i 0)).kind.EnumDeps releaseDep ctx).ordered_nodes.take (i + 1))
      (allDeps heap
        (((heap (ctx.ordered_nodes.getD i 0)).kind.EnumDeps releaseDep ctx).ordered_nodes.take (i + 1)))
      ((heap (ctx.ordered_nodes.getD i 0)).kind.EnumDeps releaseDep ctx) := by
  have htake := take_succ_getD ctx.ordered_nodes i hi
  have hpre : ctx.ordered_nodes.take (i + 1) <+: ctx.ordered_nodes := List.take_prefix _ _
  have hI' : ReleaseInv heap nodes init (ctx.ordered_nodes.take (i + 1))
      (allDeps heap (ctx.ordered_nodes.take i)) ctx :=
    ⟨hI.wf, hI.vals, hI.mem, hI.nodup, hI.before, hpre⟩
  have hsubV : ctx.ordered_nodes.take (i + 1) ⊆ V := by
    intro d hd
    have hd' : d ∈ ctx.ordered_nodes := hpre.subset hd
    rcases (hI.mem d).mp hd' with h | h
    · exact hV d (Or.inl h.1)
    · exact hV d (Or.inr h.1)
  have hnd : (ctx.ordered_nodes.take (i + 1)).Nodup := hI.nodup.sublist hpre.sublist
  have hlen : (allDeps heap (ctx.ordered_nodes.take (i + 1))).length < U32 :=
    lt_of_le_of_lt (allDeps_subperm heap (List.subperm_of_subset hnd hsubV)).length_le hVdeps
  have hD : allDeps heap (ctx.ordered_nodes.take i) ++ (heap (ctx.ordered_nodes.getD i 0)).kind.deps
      = allDeps heap (ctx.ordered_nodes.take (i + 1)) := by
    rw [htake, allDeps_append]
    simp [allDeps]
  obtain ⟨h1, h2⟩ := foldl_releaseDep_inv heap nodes init _ hlen
    (heap (ctx.ordered_nodes.getD i 0)).kind.deps _ ctx hI' (by rw [hD])
  rw [EnumDeps_eq_foldl]
  have hlen1 : (ctx.ordered_nodes.take (i + 1)).length = i + 1 := by
    rw [List.length_take]; omega
  have heq : ctx.ordered_nodes.take (i + 1) =
      (((heap (ctx.ordered_nodes.getD i 0)).kind.deps.foldl (fun c d => releaseDep d c) ctx).ordered_nodes).take
        (i + 1) := by
    have := List.prefix_iff_eq_take.mp h1.pre
    rw [hlen1] at this
    exact this
  rw [← heq, ← hD]
  exact h1

theorem ReleaseInv.length_le {α : Type} {heap : Nat → Node α} {nodes : List Nat}
    {init : Nat → Nat} {P D : List Nat} {ctx : topo_context}
    (hI : ReleaseInv heap nodes init P D ctx)
    (V : List Nat) (hV : ∀ d, d ∈ nodes ∨ 1 ≤ init d → d ∈ V) :
    ctx.ordered_nodes.length ≤ V.length := by
  apply (List.subperm_of_subset hI.nodup _).length_le
  intro d hd
  rcases (hI.mem d).mp hd with h | h
  · exact hV d (Or.inl h.1)
  · exact hV d (Or.inr h.1)

theorem workLoop_inv {α : Type} (heap : Nat → Node α) (nodes : List Nat) (init : Nat → Nat)
    (V : List Nat) (hV : ∀ d, d ∈ nodes ∨ 1 ≤ init d → d ∈ V)
    (hVdeps : (allDeps heap V).length < U32) (hVlen : V.length < U32)
    (fuel i : Nat) (ctx ctx' : topo_context)
    (hI : ReleaseInv heap nodes init (ctx.ordered_nodes.take i)
      (allDeps heap (ctx.ordered_nodes.take i)) ctx)
    (hrun : workLoop heap fuel i ctx = some ctx') :
    ReleaseInv heap nodes init ctx'.ordered_nodes (allDeps heap ctx'.ordered_nodes) ctx' := by
  induction fuel generalizing i ctx with
  | zero =>
    simp only [workLoop] at hrun
    split at hrun
    · exact absurd hrun (by simp)
    · next hi =>
      cases hrun
      rw [List.take_of_length_le (Nat.le_of_not_lt hi)] at hI
      exact hI
  | succ fuel ih =>
    simp only [workLoop] at hrun
    split at hrun
    · next hi =>
      have hle := hI.length_le V hV
      have hmod : (i + 1) % U32 = i + 1 := Nat.mod_eq_of_lt (by omega)
      rw [hmod] at hrun
      exact ih (i + 1) _ (workLoop_step heap nodes init V hV hVdeps i ctx hI hi) hrun
    · next hi =>
      cases hrun
      rw [List.take_of_length_le (Nat.le_of_not_lt hi)] at hI
      exact hI

theorem workLoop_isSome {α : Type} (heap : Nat → Node α) (nodes : List Nat) (init : Nat → Nat)
    (V : List Nat) (hV : ∀ d, d ∈ nodes ∨ 1 ≤ init d → d ∈ V)
    (hVdeps : (allDeps heap V).length < U32) (hVlen : V.length < U32)
    (fuel i : Nat) (ctx : topo_context)
    (hI : ReleaseInv heap nodes init (ctx.ordered_nodes.take i)
      (allDeps heap (ctx.ordered_nodes.take i)) ctx)
    (hfuel : V.length ≤ fuel + i) :
    ∃ ctx', workLoop heap fuel i ctx = some ctx' := by
  induction fuel generalizing i ctx with
  | zero =>
    have hle := hI.length_le V hV
    simp only [workLoop]
    rw [if_neg (by omega)]
    exact ⟨ctx, rfl⟩
  | succ fuel ih =>
    simp only [workLoop]
    split
    · next hi =>
      have hle := hI.length_le V hV
      have hmod : (i + 1) % U32 = i + 1 := Nat.mod_eq_of_lt (by omega)
      rw [hmod]
      exact ih (i + 1) _ (workLoop_step heap nodes init V hV hVdeps i ctx hI hi) (by omega)
    · exact ⟨ctx, rfl⟩

/-! ## Final loop of `TopoSort` -/

theorem installFrom_frame {α : Type} (ordered : List Nat) (i : Nat) (net : Network α) :
    (installFrom ordered i net).heap = net.heap ∧
    (installFrom ordered i net).parameters = net.parameters := by
  induction i generalizing net with
  | zero => exact ⟨rfl, rfl⟩
  | succ i ih =>
    rw [installFrom]
    exact ih (net.AddNode (ordered.getD (i + 1) 0))

theorem installLoop_pos {α : Type} (ordered : List Nat) (net : Network α)
    (h : (ordered.length % U32 + U32 - 1) % U32 < 2147483648) :
    installLoop ordered net =
      installFrom ordered ((ordered.length % U32 + U32 - 1) % U32) net := by
  unfold installLoop
  exact if_pos h

theorem installLoop_neg {α : Type} (ordered : List Nat) (net : Network α)
    (h : ¬ (ordered.length % U32 + U32 - 1) % U32 < 2147483648) :
    installLoop ordered net = net := by
  unfold installLoop
  exact if_neg h

theorem installLoop_frame {α : Type} (ordered : List Nat) (net : Network α) :
    (installLoop ordered net).heap = net.heap ∧
    (installLoop ordered net).parameters = net.parameters := by
  by_cases hlt : (ordered.length % U32 + U32 - 1) % U32 < 2147483648
  · rw [installLoop_pos ordered net hlt]
    exact installFrom_frame ordered _ net
  · rw [installLoop_neg ordered net hlt]
    exact ⟨rfl, rfl⟩

theorem installFrom_nodes {α : Type} (ordered : List Nat) (i : Nat) (net : Network α)
    (h : i < ordered.length) :
    (installFrom ordered i net).nodes = net.nodes ++ ((ordered.take (i + 1)).reverse) := by
  induction i generalizing net with
  | zero =>
    rw [take_succ_getD ordered 0 h]
    simp [installFrom, Network.AddNode]
  | succ i ih =>
    rw [take_succ_getD ordered (i + 1) h, installFrom, ih _ (by omega)]
    simp [Network.AddNode]

theorem installLoop_nodes {α : Type} (ordered : List Nat) (net : Network α)
    (h : ordered.length ≤ 2147483648) :
    (installLoop ordered net).nodes = net.nodes ++ ordered.reverse := by
  by_cases h0 : ordered.length = 0
  · have hnil : ordered = [] := List.length_eq_zero.mp h0
    have hneg : ¬ (ordered.length % U32 + U32 - 1) % U32 < 2147483648 := by
      simp only [U32]; omega
    rw [installLoop_neg ordered net hneg, hnil]
    simp
  · have hi : (ordered.length % U32 + U32 - 1) % U32 = ordered.length - 1 := by
      simp only [U32]; omega
    have hpos : (ordered.length % U32 + U32 - 1) % U32 < 2147483648 := by
      rw [hi]; omega
    rw [installLoop_pos ordered net hpos, hi, installFrom_nodes ordered _ net (by omega)]
    have : ordered.length - 1 + 1 = ordered.length := by omega
    rw [this, List.take_length]

/-! ## State after the first two loops -/

theorem seed_state {α : Type} (net : Network α) :
    (seedLoop net.nodes (countLoop net.heap net.nodes ⟨CountMap.empty, []⟩)).out_degree.WF ∧
    (∀ d, (seedLoop net.nodes (countLoop net.heap net.nodes ⟨CountMap.empty, []⟩)).out_degree.val d
      = (allDeps net.heap net.nodes).count d % U32) ∧
    (∀ k, k ∈ (seedLoop net.nodes
        (countLoop net.heap net.nodes ⟨CountMap.empty, []⟩)).out_degree.keys ↔
      k ∈ allDeps net.heap net.nodes ∨ k ∈ net.nodes) ∧
    (seedLoop net.nodes (countLoop net.heap net.nodes ⟨CountMap.empty, []⟩)).ordered_nodes =
      net.nodes.filter (fun n => decide ((allDeps net.heap net.nodes).count n % U32 = 0)) := by
  have h1 := foldl_countDep (allDeps net.heap net.nodes) ⟨CountMap.empty, []⟩ CountMap.empty_WF
  rw [← countLoop_eq_foldl] at h1
  obtain ⟨a1, a2, a3, a4⟩ := h1
  obtain ⟨b1, b2, b3, b4⟩ := seedLoop_spec net.nodes _ a1
  have hval : ∀ d, (countLoop net.heap net.nodes ⟨CountMap.empty, []⟩).out_degree.val d
      = (allDeps net.heap net.nodes).count d % U32 := by
    intro d
    rw [a4]
    simp [CountMap.empty]
  refine ⟨b1, ?_, ?_, ?_⟩
  · intro d
    rw [b2, hval]
  · intro k
    rw [b3, a3]
    simp [CountMap.empty]
  · rw [b4, a2]
    simp only [List.nil_append]
    congr 1
    funext n
    rw [hval]

theorem seed_inv {α : Type} (net : Network α) (hwf : net.WF) :
    ReleaseInv net.heap net.nodes (initCount net) [] []
      (seedLoop net.nodes (countLoop net.heap net.nodes ⟨CountMap.empty, []⟩)) := by
  obtain ⟨h1, h2, _, h4⟩ := seed_state net
  have hmem : ∀ d, d ∈ (seedLoop net.nodes
      (countLoop net.heap net.nodes ⟨CountMap.empty, []⟩)).ordered_nodes ↔
      d ∈ net.nodes ∧ initCount net d = 0 := by
    intro d
    rw [h4]
    simp [initCount]
  refine ⟨h1, ?_, ?_, ?_, ?_, List.nil_prefix⟩
  · intro d
    rw [h2]
    simp [initCount]
  · intro d
    rw [hmem]
    constructor
    · exact fun h => Or.inl h
    · rintro (h | h)
      · exact h
      · simp only [List.count_nil] at h
        omega
  · rw [h4]
    exact hwf.filter _
  · intro A d B hAB hd
    have : d ∈ (seedLoop net.nodes
        (countLoop net.heap net.nodes ⟨CountMap.empty, []⟩)).ordered_nodes := by
      rw [hAB]; simp
    have := ((hmem d).mp this).2
    omega

theorem initCount_pos_mem {α : Type} (net : Network α) (d : Nat) (h : 1 ≤ initCount net d) :
    d ∈ allDeps net.heap net.nodes := by
  by_contra hd
  have : (allDeps net.heap net.nodes).count d = 0 := List.count_eq_zero_of_not_mem hd
  simp [initCount, this] at h

theorem topoRun_inv {α : Type} (net : Network α) (hwf : net.WF) (V : List Nat)
    (hVn : net.nodes ⊆ V) (hVd : allDeps net.heap net.nodes ⊆ V)
    (hVdeps : (allDeps net.heap V).length < U32) (hVlen : V.length < U32)
    (fuel : Nat) (ctx : topo_context) (hrun : topoRun fuel net = some ctx) :
    ReleaseInv net.heap net.nodes (initCount net) ctx.ordered_nodes
      (allDeps net.heap ctx.ordered_nodes) ctx := by
  refine workLoop_inv net.heap net.nodes (initCount net) V ?_ hVdeps hVlen fuel 0 _ ctx ?_ hrun
  · rintro d (h | h)
    · exact hVn h
    · exact hVd (initCount_pos_mem net d h)
  · simpa [allDeps] using seed_inv net hwf

theorem topoRun_isSome {α : Type} (net : Network α) (hwf : net.WF) (V : List Nat)
    (hVn : net.nodes ⊆ V) (hVd : allDeps net.heap net.nodes ⊆ V)
    (hVdeps : (allDeps net.heap V).length < U32) (hVlen : V.length < U32)
    (fuel : Nat) (hfuel : V.length ≤ fuel) :
    ∃ ctx, topoRun fuel net = some ctx := by
  refine workLoop_isSome net.heap net.nodes (initCount net) V ?_ hVdeps hVlen fuel 0 _ ?_
    (by omega)
  · rintro d (h | h)
    · exact hVn h
    · exact hVd (initCount_pos_mem net d h)
  · simpa [allDeps] using seed_inv net hwf

/-! ## Keys of the counter map only grow -/

theorem releaseDep_keys (d : Nat) (ctx : topo_context) (h : ctx.out_degree.keys.Nodup) :
    (releaseDep d ctx).out_degree.keys.Nodup ∧
    ctx.out_degree.keys ⊆ (releaseDep d ctx).out_degree.keys := by
  have hk : (releaseDep d ctx).out_degree.keys = (ctx.out_degree.touch d).keys := by
    unfold releaseDep
    simp only [CountMap.decr]
    split <;> rfl
  rw [hk]
  constructor
  · unfold CountMap.touch
    split
    · exact h
    · next hd => exact List.nodup_cons.mpr ⟨hd, h⟩
  · intro k hkk
    exact (CountMap.mem_touch_keys _ d k).mpr (Or.inr hkk)

theorem foldl_releaseDep_keys (ds : List Nat) (ctx : topo_context)
    (h : ctx.out_degree.keys.Nodup) :
    (ds.foldl (fun c d => releaseDep d c) ctx).out_degree.keys.Nodup ∧
    ctx.out_degree.keys ⊆ (ds.foldl (fun c d => releaseDep d c) ctx).out_degree.keys := by
  induction ds generalizing ctx with
  | nil => exact ⟨h, List.Subset.refl _⟩
  | cons d ds ih =>
    obtain ⟨h1, h2⟩ := releaseDep_keys d ctx h
    obtain ⟨h3, h4⟩ := ih (releaseDep d ctx) h1
    exact ⟨h3, h2.trans h4⟩

theorem workLoop_keys {α : Type} (heap : Nat → Node α) (fuel i : Nat) (ctx ctx' : topo_context)
    (h : ctx.out_degree.keys.Nodup) (hrun : workLoop heap fuel i ctx = some ctx') :
    ctx'.out_degree.keys.Nodup ∧ ctx.out_degree.keys ⊆ ctx'.out_degree.keys := by
  induction fuel generalizing i ctx with
  | zero =>
    simp only [workLoop] at hrun
    split at hrun
    · exact absurd hrun (by simp)
    · cases hrun; exact ⟨h, List.Subset.refl _⟩
  | succ fuel ih =>
    simp only [workLoop] at hrun
    split at hrun
    · rw [EnumDeps_eq_foldl] at hrun
      obtain ⟨h1, h2⟩ := foldl_releaseDep_keys (heap (ctx.ordered_nodes.getD i 0)).kind.deps ctx h
      obtain ⟨h3, h4⟩ := ih _ _ h1 hrun
      exact ⟨h3, h2.trans h4⟩
    · cases hrun; exact ⟨h, List.Subset.refl _⟩

theorem topoRun_keys {α : Type} (net : Network α) (fuel : Nat) (ctx : topo_context)
    (hrun : topoRun fuel net = some ctx) :
    ctx.out_degree.keys.Nodup ∧ net.nodes ⊆ ctx.out_degree.keys ∧
    allDeps net.heap net.nodes ⊆ ctx.out_degree.keys := by
  obtain ⟨h1, _, h3, _⟩ := seed_state net
  obtain ⟨k1, k2⟩ := workLoop_keys net.heap fuel 0 _ ctx h1.1 hrun
  refine ⟨k1, ?_, ?_⟩
  · intro k hk
    exact k2 ((h3 k).mpr (Or.inr hk))
  · intro k hk
    exact k2 ((h3 k).mpr (Or.inl hk))

/-! ## Graphs whose dependencies are all owned -/

theorem allOwned_iff_subset {α : Type} (net : Network α) :
    net.AllOwned ↔ allDeps net.heap net.nodes ⊆ net.nodes := by
  constructor
  · intro h d hd
    obtain ⟨n, hn, hdn⟩ := (mem_allDeps net.heap net.nodes d).mp hd
    exact h n hn d hdn
  · intro h n hn d hd
    exact h ((mem_allDeps net.heap net.nodes d).mpr ⟨n, hn, hd⟩)

theorem allOwned_of_size_le {α : Type} (net : Network α) (hwf : net.WF) (fuel : Nat)
    (ctx : topo_context) (hrun : topoRun fuel net = some ctx)
    (hsize : ctx.out_degree.size ≤ net.nodes.length) : net.AllOwned := by
  obtain ⟨k1, k2, k3⟩ := topoRun_keys net fuel ctx hrun
  have hsp : net.nodes.Subperm ctx.out_degree.keys := List.subperm_of_subset hwf k2
  have hperm : net.nodes.Perm ctx.out_degree.keys := hsp.perm_of_length_le hsize
  rw [allOwned_iff_subset]
  intro d hd
  exact hperm.symm.subset (k3 hd)

theorem size_gt_of_not_allOwned {α : Type} (net : Network α) (hwf : net.WF) (fuel : Nat)
    (ctx : topo_context) (hrun : topoRun fuel net = some ctx) (h : ¬ net.AllOwned) :
    ctx.out_degree.size > net.nodes.length := by
  by_contra hle
  exact h (allOwned_of_size_le net hwf fuel ctx hrun (Nat.le_of_not_lt hle))

theorem initCount_eq {α : Type} (net : Network α) (hfit : net.Fits32) (d : Nat) :
    initCount net d = (allDeps net.heap net.nodes).count d := by
  unfold initCount
  apply Nat.mod_eq_of_lt
  exact lt_of_le_of_lt (List.count_le_length _ _) hfit.2

theorem topoRun_inv_owned {α : Type} (net : Network α) (hwf : net.WF) (hfit : net.Fits32)
    (hown : net.AllOwned) (fuel : Nat) (ctx : topo_context)
    (hrun : topoRun fuel net = some ctx) :
    ReleaseInv net.heap net.nodes (initCount net) ctx.ordered_nodes
      (allDeps net.heap ctx.ordered_nodes) ctx :=
  topoRun_inv net hwf net.nodes (List.Subset.refl _) ((allOwned_iff_subset net).mp hown)
    hfit.2 (lt_of_le_of_lt hfit.1 (by decide)) fuel ctx hrun

theorem topoRun_isSome_owned {α : Type} (net : Network α) (hwf : net.WF) (hfit : net.Fits32)
    (hown : net.AllOwned) (fuel : Nat) (hfuel : net.nodes.length ≤ fuel) :
    ∃ ctx, topoRun fuel net = some ctx :=
  topoRun_isSome net hwf net.nodes (List.Subset.refl _) ((allOwned_iff_subset net).mp hown)
    hfit.2 (lt_of_le_of_lt hfit.1 (by decide)) fuel hfuel

theorem ordered_subset_nodes {α : Type} (net : Network α) (hown : net.AllOwned)
    {P D : List Nat} {ctx : topo_context}
    (hI : ReleaseInv net.heap net.nodes (initCount net) P D ctx) :
    ctx.ordered_nodes ⊆ net.nodes := by
  intro d hd
  rcases (hI.mem d).mp hd with h | h
  · exact h.1
  · exact (allOwned_iff_subset net).mp hown (initCount_pos_mem net d h.1)

/-- In the emitted sequence every owned dependent of `d` stands before `d`. -/
theorem dependent_before {α : Type} (net : Network α) (hfit : net.Fits32)
    (hown : net.AllOwned) {P D : List Nat} {ctx : topo_context}
    (hI : ReleaseInv net.heap net.nodes (initCount net) P D ctx)
    (A B : List Nat) (d n : Nat) (hAB : ctx.ordered_nodes = A ++ d :: B)
    (hn : n ∈ net.nodes) (hd : d ∈ net.depsOf n) : n ∈ A := by
  by_contra hnA
  have hdall : d ∈ allDeps net.heap net.nodes :=
    (mem_allDeps net.heap net.nodes d).mpr ⟨n, hn, hd⟩
  have hpos : 1 ≤ initCount net d := by
    rw [initCount_eq net hfit]
    exact List.count_pos_iff.mpr hdall
  have hb := hI.before A d B hAB hpos
  have hAsub : A ⊆ net.nodes := by
    intro x hx
    apply ordered_subset_nodes net hown hI
    rw [hAB]; simp [hx]
  have hAnd : A.Nodup := by
    have := hI.nodup
    rw [hAB] at this
    exact (List.nodup_append.mp this).1
  have hnd : (n :: A).Nodup := List.nodup_cons.mpr ⟨hnA, hAnd⟩
  have hsub : (n :: A) ⊆ net.nodes := by
    intro x hx
    rcases List.mem_cons.mp hx with rfl | hx
    · exact hn
    · exact hAsub hx
  have hcount := (allDeps_subperm net.heap (List.subperm_of_subset hnd hsub)).count_le d
  rw [initCount_eq net hfit] at hb
  simp only [allDeps, List.count_append] at hcount
  have : 0 < (net.heap n).kind.deps.count d := List.count_pos_iff.mpr hd
  omega

theorem indexOf_lt_of_split (L X Y : List Nat) (d n : Nat) (hL : L = X ++ d :: Y)
    (hnd : L.Nodup) (hn : n ∈ Y) : L.indexOf d < L.indexOf n := by
  subst hL
  have h1 := List.nodup_append.mp hnd
  have hdX : d ∉ X := fun h => h1.2.2 h (List.mem_cons_self d Y)
  have hnX : n ∉ X := fun h => h1.2.2 h (List.mem_cons_of_mem d hn)
  have hnd' : d ≠ n := by
    rintro rfl
    exact (List.nodup_cons.mp h1.2.1).1 hn
  rw [List.indexOf_append_of_not_mem hdX, List.indexOf_append_of_not_mem hnX,
    List.indexOf_cons_self, List.indexOf_cons_ne _ hnd']
  omega

theorem acyclic_of_rank {α : Type} (net : Network α) (rank : Nat → Nat)
    (h : ∀ n ∈ net.nodes, ∀ d ∈ net.depsOf n, d ∈ net.nodes → rank d < rank n) :
    net.Acyclic := by
  have key : ∀ a b, Relation.TransGen net.DependsOn a b → rank b < rank a := by
    intro a b hab
    induction hab with
    | single hs => exact h _ hs.1 _ hs.2.2 hs.2.1
    | tail _ hs ih => exact lt_trans (h _ hs.1 _ hs.2.2 hs.2.1) ih
  intro n hn
  exact lt_irrefl _ (key n n hn)

/-- Kahn's argument: when the worklist has drained and the owned nodes have no
cycle, every owned node has been emitted. -/
theorem nodes_subset_ordered {α : Type} (net : Network α) (hwf : net.WF)
    (hcnt : ∀ d, initCount net d = (allDeps net.heap net.nodes).count d)
    (hacyc : net.Acyclic) {ctx : topo_context}
    (hI : ReleaseInv net.heap net.nodes (initCount net) ctx.ordered_nodes
      (allDeps net.heap ctx.ordered_nodes) ctx) :
    net.nodes ⊆ ctx.ordered_nodes := by
  by_contra hne
  haveI : IsStrictOrder Nat (Relation.TransGen net.DependsOn) :=
    { irrefl := hacyc, trans := fun _ _ _ => Relation.TransGen.trans }
  have hwfo : {x | x ∈ net.nodes}.WellFoundedOn (Relation.TransGen net.DependsOn) :=
    (List.finite_toSet net.nodes).wellFoundedOn
  have hwfd := Set.wellFoundedOn_iff.mp hwfo
  have hex : ({x | x ∈ net.nodes ∧ x ∉ ctx.ordered_nodes} : Set Nat).Nonempty := by
    by_contra hempty
    apply hne
    intro x hx
    by_contra hxo
    exact hempty ⟨x, hx, hxo⟩
  obtain ⟨m, ⟨hm1, hm2⟩, hmin⟩ := hwfd.has_min _ hex
  have hnodep : ∀ x ∈ net.nodes, x ∉ ctx.ordered_nodes → m ∉ net.depsOf x := by
    intro x hx hxo hmx
    exact hmin x ⟨hx, hxo⟩ ⟨Relation.TransGen.single ⟨hx, hm1, hmx⟩, hx, hm1⟩
  have hperm : (net.nodes.filter (fun x => decide (x ∈ ctx.ordered_nodes)) ++
      net.nodes.filter (fun x => !decide (x ∈ ctx.ordered_nodes))).Perm net.nodes :=
    List.filter_append_perm _ _
  have hcount := (allDeps_perm net.heap hperm).count_eq m
  rw [allDeps_append, List.count_append] at hcount
  have hzero : (allDeps net.heap
      (net.nodes.filter (fun x => !decide (x ∈ ctx.ordered_nodes)))).count m = 0 := by
    apply List.count_eq_zero_of_not_mem
    intro hmem
    obtain ⟨x, hx, hmx⟩ := (mem_allDeps _ _ _).mp hmem
    simp only [List.mem_filter, Bool.not_eq_true', decide_eq_false_iff_not] at hx
    exact hnodep x hx.1 hx.2 hmx
  have hle : (allDeps net.heap
      (net.nodes.filter (fun x => decide (x ∈ ctx.ordered_nodes)))).count m ≤
      (allDeps net.heap ctx.ordered_nodes).count m := by
    apply (allDeps_subperm net.heap (List.subperm_of_subset (hwf.filter _) _)).count_le
    intro x hx
    simpa using (List.mem_filter.mp hx).2
  have hinit := hcnt m
  apply hm2
  rw [hI.mem]
  by_cases h0 : initCount net m = 0
  · exact Or.inl ⟨hm1, h0⟩
  · right
    omega

/-! ## Keys stay inside a dependency-closed set -/

theorem foldl_releaseDep_subset (V ds : List Nat) (ctx : topo_context) (hds : ds ⊆ V)
    (hk : ctx.out_degree.keys ⊆ V) :
    (ds.foldl (fun c d => releaseDep d c) ctx).out_degree.keys ⊆ V := by
  induction ds generalizing ctx with
  | nil => exact hk
  | cons d ds ih =>
    rw [List.foldl_cons]
    apply ih
    · exact fun x hx => hds (List.mem_cons_of_mem d hx)
    · intro k hkk
      have hkeys : (releaseDep d ctx).out_degree.keys = (ctx.out_degree.touch d).keys := by
        unfold releaseDep
        simp only [CountMap.decr]
        split <;> rfl
      rw [hkeys] at hkk
      rcases (CountMap.mem_touch_keys _ d k).mp hkk with rfl | h
      · exact hds (List.mem_cons_self _ _)
      · exact hk h

theorem foldl_releaseDep_ordered_subset (V ds : List Nat) (ctx : topo_context) (hds : ds ⊆ V)
    (ho : ctx.ordered_nodes ⊆ V) :
    (ds.foldl (fun c d => releaseDep d c) ctx).ordered_nodes ⊆ V := by
  induction ds generalizing ctx with
  | nil => exact ho
  | cons d ds ih =>
    rw [List.foldl_cons]
    apply ih
    · exact fun x hx => hds (List.mem_cons_of_mem d hx)
    · intro k hkk
      unfold releaseDep at hkk
      simp only at hkk
      split at hkk
      · rcases List.mem_append.mp hkk with h | h
        · exact ho h
        · rw [List.mem_singleton.mp h]
          exact hds (List.mem_cons_self _ _)
      · exact ho hkk

theorem workLoop_keys_subset {α : Type} (heap : Nat → Node α) (V : List Nat)
    (hclosed : ∀ n ∈ V, (heap n).kind.deps ⊆ V)
    (fuel i : Nat) (ctx ctx' : topo_context)
    (hk : ctx.out_degree.keys ⊆ V) (ho : ctx.ordered_nodes ⊆ V)
    (hrun : workLoop heap fuel i ctx = some ctx') :
    ctx'.out_degree.keys ⊆ V := by
  induction fuel generalizing i ctx with
  | zero =>
    simp only [workLoop] at hrun
    split at hrun
    · exact absurd hrun (by simp)
    · cases hrun; exact hk
  | succ fuel ih =>
    simp only [workLoop] at hrun
    split at hrun
    · next hi =>
      rw [EnumDeps_eq_foldl] at hrun
      have hds := hclosed _ (ho (getD_mem ctx.ordered_nodes i hi))
      exact ih _ _ (foldl_releaseDep_subset V _ ctx hds hk)
        (foldl_releaseDep_ordered_subset V _ ctx hds ho) hrun
    · cases hrun; exact hk

theorem size_le_of_allOwned {α : Type} (net : Network α) (hown : net.AllOwned)
    (fuel : Nat) (ctx : topo_context) (hrun : topoRun fuel net = some ctx) :
    ctx.out_degree.size ≤ net.nodes.length := by
  obtain ⟨k1, _, _⟩ := topoRun_keys net fuel ctx hrun
  obtain ⟨_, _, h3, h4⟩ := seed_state net
  have hsub : ctx.out_degree.keys ⊆ net.nodes := by
    refine workLoop_keys_subset net.heap net.nodes (fun n hn => hown n hn) fuel 0 _ ctx ?_ ?_ hrun
    · intro k hk
      rcases (h3 k).mp hk with h | h
      · exact (allOwned_iff_subset net).mp hown h
      · exact h
    · rw [h4]
      exact fun x hx => (List.mem_filter.mp hx).1
  exact (List.subperm_of_subset k1 hsub).length_le

/-! ## More fuel does not change the outcome -/

theorem workLoop_fuel_mono {α : Type} (heap : Nat → Node α) (fuel k i : Nat)
    (ctx ctx' : topo_context) (hrun : workLoop heap fuel i ctx = some ctx') :
    workLoop heap (fuel + k) i ctx = some ctx' := by
  induction fuel generalizing i ctx with
  | zero =>
    simp only [workLoop] at hrun
    split at hrun
    · exact absurd hrun (by simp)
    · next hi =>
      cases hrun
      cases k with
      | zero => simp [workLoop, hi]
      | succ k => simp [workLoop, hi]
  | succ fuel ih =>
    have e : fuel + 1 + k = (fuel + k) + 1 := by omega
    rw [e]
    simp only [workLoop] at hrun ⊢
    split
    · next hi =>
      rw [if_pos hi] at hrun
      exact ih _ _ hrun
    · next hi =>
      rw [if_neg hi] at hrun
      exact hrun

theorem TopoSort_fuel_mono {α : Type} (net : Network α) (fuel k : Nat)
    (r : TopoDiag × Network α) (h : net.TopoSort fuel = some r) :
    net.TopoSort (fuel + k) = some r := by
  unfold Network.TopoSort at h ⊢
  cases hrun : topoRun fuel net with
  | none => simp [hrun] at h
  | some ctx =>
    have := workLoop_fuel_mono net.heap fuel k 0 _ ctx hrun
    unfold topoRun
    rw [this]
    simpa [hrun] using h

theorem TopoSort_eq_some {α : Type} (net : Network α) (fuel : Nat)
    (r : TopoDiag × Network α) :
    net.TopoSort fuel = some r ↔ ∃ ctx, topoRun fuel net = some ctx ∧ topoFinish net ctx = r := by
  unfold Network.TopoSort
  simp [Option.map_eq_some']

/-! ## Outcome of a run on a graph that passes both checks -/

theorem installed_facts {α : Type} (net : Network α) (hwf : net.WF) (hfit : net.Fits32)
    (fuel : Nat) (ctx : topo_context) (hrun : topoRun fuel net = some ctx)
    (hlen : net.nodes.length ≤ ctx.ordered_nodes.length)
    (hsize : ctx.out_degree.size ≤ net.nodes.length) :
    net.AllOwned ∧ ctx.ordered_nodes.Perm net.nodes ∧
    (installLoop ctx.ordered_nodes { net with nodes := [] }).nodes =
      ctx.ordered_nodes.reverse ∧
    ∀ n ∈ net.nodes, ∀ d ∈ net.depsOf n,
      ctx.ordered_nodes.reverse.indexOf d < ctx.ordered_nodes.reverse.indexOf n := by
  have hown := allOwned_of_size_le net hwf fuel ctx hrun hsize
  have hI := topoRun_inv_owned net hwf hfit hown fuel ctx hrun
  have hperm : ctx.ordered_nodes.Perm net.nodes :=
    (List.subperm_of_subset hI.nodup (ordered_subset_nodes net hown hI)).perm_of_length_le hlen
  refine ⟨hown, hperm, ?_, ?_⟩
  · rw [installLoop_nodes _ _ (by rw [hperm.length_eq]; exact hfit.1)]
    exact List.nil_append _
  · intro n hn d hd
    have hdo : d ∈ ctx.ordered_nodes := hperm.symm.subset (hown n hn d hd)
    obtain ⟨A, B, hAB⟩ := List.append_of_mem hdo
    have hnA := dependent_before net hfit hown hI A B d n hAB hn hd
    apply indexOf_lt_of_split _ B.reverse A.reverse d n
    · rw [hAB]; simp
    · exact List.nodup_reverse.mpr hI.nodup
    · exact List.mem_reverse.mpr hnA

theorem topoFinish_installed {α : Type} (net net' : Network α) (ctx : topo_context)
    (h : topoFinish net ctx = (TopoDiag.installed, net')) :
    net.nodes.length ≤ ctx.ordered_nodes.length ∧ ctx.out_degree.size ≤ net.nodes.length ∧
    net' = installLoop ctx.ordered_nodes { net with nodes := [] } := by
  unfold topoFinish at h
  split at h
  · simp at h
  · split at h
    · simp at h
    · next h1 h2 =>
      refine ⟨Nat.le_of_not_lt h1, Nat.le_of_not_lt h2, ?_⟩
      exact (Prod.mk.inj h).2.symm

theorem topoFinish_failed {α : Type} (net net' : Network α) (ctx : topo_context)
    (diag : TopoDiag) (h : topoFinish net ctx = (diag, net')) (hd : diag ≠ TopoDiag.installed) :
    net' = net := by
  unfold topoFinish at h
  split at h
  · exact (Prod.mk.inj h).2.symm
  · split at h
    · exact (Prod.mk.inj h).2.symm
    · exact absurd (Prod.mk.inj h).1.symm hd

theorem topoFinish_installed_fields {α : Type} (net net' : Network α) (ctx : topo_context)
    (h : topoFinish net ctx = (TopoDiag.installed, net')) :
    net'.nodes = (installLoop ctx.ordered_nodes { net with nodes := [] }).nodes ∧
    net'.heap = net.heap ∧ net'.parameters = net.parameters := by
  obtain ⟨_, _, hnet⟩ := topoFinish_installed net net' ctx h
  obtain ⟨h1, h2⟩ := installLoop_frame ctx.ordered_nodes { net with nodes := [] }
  rw [hnet]
  exact ⟨by with_reducible rfl, h1.trans (by with_reducible rfl),
    h2.trans (by with_reducible rfl)⟩

theorem installed_spec {α : Type} (net net' : Network α) (hwf : net.WF) (hfit : net.Fits32)
    (fuel : Nat) (h : net.TopoSort fuel = some (TopoDiag.installed, net')) :
    net.AllOwned ∧ net'.heap = net.heap ∧ net'.parameters = net.parameters ∧
    net'.nodes.Perm net.nodes ∧ net'.OrderValid := by
  obtain ⟨ctx, hrun, hfin⟩ := (TopoSort_eq_some net fuel _).mp h
  obtain ⟨hlen, hsize, _⟩ := topoFinish_installed net net' ctx hfin
  obtain ⟨hnodes0, hheap, hpar⟩ := topoFinish_installed_fields net net' ctx hfin
  obtain ⟨hown, hperm, hinst, hord⟩ := installed_facts net hwf hfit fuel ctx hrun hlen hsize
  have hnodes : net'.nodes = ctx.ordered_nodes.reverse := hnodes0.trans hinst
  refine ⟨hown, hheap, hpar, ?_, ?_⟩
  · rw [hnodes]
    exact (List.reverse_perm _).trans hperm
  · intro n hn d hd
    rw [hnodes] at hn ⊢
    have hd' : d ∈ net.depsOf n := by
      unfold Network.depsOf at hd ⊢
      rw [← hheap]; exact hd
    exact hord n (hperm.subset (List.mem_reverse.mp hn)) d hd'

theorem acyclic_of_installed {α : Type} (net net' : Network α) (hwf : net.WF)
    (hfit : net.Fits32) (fuel : Nat)
    (h : net.TopoSort fuel = some (TopoDiag.installed, net')) : net.Acyclic := by
  obtain ⟨_, hheap, _, hperm, hord⟩ := installed_spec net net' hwf hfit fuel h
  apply acyclic_of_rank net (fun x => net'.nodes.indexOf x)
  intro n hn d hd _
  have hd' : d ∈ net'.depsOf n := by
    unfold Network.depsOf at hd ⊢
    rw [hheap]; exact hd
  exact hord n (hperm.symm.subset hn) d hd'

theorem installs_of_valid {α : Type} (net : Network α) (hwf : net.WF) (hfit : net.Fits32)
    (hown : net.AllOwned) (hacyc : net.Acyclic) (fuel : Nat)
    (hfuel : net.nodes.length ≤ fuel) :
    ∃ net', net.TopoSort fuel = some (TopoDiag.installed, net') := by
  obtain ⟨ctx, hrun⟩ := topoRun_isSome_owned net hwf hfit hown fuel hfuel
  have hI := topoRun_inv_owned net hwf hfit hown fuel ctx hrun
  have hsub := nodes_subset_ordered net hwf (initCount_eq net hfit) hacyc hI
  have hlen : net.nodes.length ≤ ctx.ordered_nodes.length :=
    (List.subperm_of_subset hwf hsub).length_le
  have hsize := size_le_of_allOwned net hown fuel ctx hrun
  refine ⟨installLoop ctx.ordered_nodes { net with nodes := [] }, ?_⟩
  rw [TopoSort_eq_some]
  refine ⟨ctx, hrun, ?_⟩
  unfold topoFinish
  rw [if_neg (by omega), if_neg (by omega)]

theorem loop_of_cycle {α : Type} (net : Network α) (hwf : net.WF) (hfit : net.Fits32)
    (hown : net.AllOwned) (hcyc : ¬ net.Acyclic) (fuel : Nat)
    (hfuel : net.nodes.length ≤ fuel) :
    net.TopoSort fuel = some (TopoDiag.loopDetected, net) := by
  obtain ⟨ctx, hrun⟩ := topoRun_isSome_owned net hwf hfit hown fuel hfuel
  rw [TopoSort_eq_some]
  refine ⟨ctx, hrun, ?_⟩
  by_cases hlen : ctx.ordered_nodes.length < net.nodes.length
  · unfold topoFinish
    rw [if_pos hlen]
  · exfalso
    apply hcyc
    have hsize := size_le_of_allOwned net hown fuel ctx hrun
    apply acyclic_of_installed net (installLoop ctx.ordered_nodes { net with nodes := [] })
      hwf hfit fuel
    rw [TopoSort_eq_some]
    refine ⟨ctx, hrun, ?_⟩
    unfold topoFinish
    rw [if_neg hlen, if_neg (by omega)]

theorem touched_facts {α : Type} (net : Network α) :
    net.nodes ⊆ net.touched ∧ allDeps net.heap net.nodes ⊆ net.touched := by
  constructor
  · intro x hx
    exact List.mem_dedup.mpr (List.mem_append_left _ hx)
  · intro x hx
    exact List.mem_dedup.mpr (List.mem_append_right _ hx)

theorem mutualNet_cyclic : ¬ mutualNet.Acyclic := by
  intro h
  apply h 0
  have h01 : mutualNet.DependsOn 0 1 := ⟨by decide, by decide, by decide⟩
  have h10 : mutualNet.DependsOn 1 0 := ⟨by decide, by decide, by decide⟩
  exact Relation.TransGen.tail (Relation.TransGen.single h01) h10

theorem cycleForeignNet_cyclic : ¬ cycleForeignNet.Acyclic := by
  intro h
  apply h 1
  have h12 : cycleForeignNet.DependsOn 1 2 := ⟨by decide, by decide, by decide⟩
  have h21 : cycleForeignNet.DependsOn 2 1 := ⟨by decide, by decide, by decide⟩
  exact Relation.TransGen.tail (Relation.TransGen.single h12) h21

theorem foreignNet_acyclic : foreignNet.Acyclic := by
  apply acyclic_of_rank foreignNet (fun _ => 0)
  decide

/-! ## The claims about `TopoSort` -/

/-- C1 (order validity): whenever `TopoSort` installs a new order on a graph
that fits its 32-bit counters, every dependency `d` that a stored node `n`
enumerates stands at a strictly smaller position than `n` in the stored list
after the sort. -/
theorem TopoSort_order_valid {α : Type} (net net' : Network α) (hwf : net.WF)
    (hfit : net.Fits32) (fuel : Nat)
    (h : net.TopoSort fuel = some (TopoDiag.installed, net')) :
    ∀ n ∈ net'.nodes, ∀ d ∈ net'.depsOf n, net'.nodes.indexOf d < net'.nodes.indexOf n :=
  (installed_spec net net' hwf hfit fuel h).2.2.2.2

theorem TopoSort_order_valid_witness :
    twoLayerNet.WF ∧ twoLayerNet.Fits32 ∧
    twoLayerNet.TopoSort 5 = some (TopoDiag.installed, twoLayerSorted) ∧
    ∀ n ∈ twoLayerSorted.nodes, ∀ d ∈ twoLayerSorted.depsOf n,
      twoLayerSorted.nodes.indexOf d < twoLayerSorted.nodes.indexOf n :=
  ⟨by decide, by decide, rfl,
    TopoSort_order_valid twoLayerNet twoLayerSorted (by decide) (by decide) 5 rfl⟩

/-- C2 (atomicity of failure): if `TopoSort` takes either failure branch (loop
detected or out-of-network connections), the stored node list after the call
is the stored node list before the call. -/
theorem TopoSort_failure_atomic {α : Type} (net net' : Network α) (fuel : Nat)
    (diag : TopoDiag) (h : net.TopoSort fuel = some (diag, net'))
    (hd : diag = TopoDiag.loopDetected ∨ diag = TopoDiag.outOfNetwork) :
    net'.nodes = net.nodes := by
  obtain ⟨ctx, _, hfin⟩ := (TopoSort_eq_some net fuel _).mp h
  have hne : diag ≠ TopoDiag.installed := by
    rcases hd with rfl | rfl <;> simp
  rw [topoFinish_failed net net' ctx diag hfin hne]

theorem TopoSort_failure_atomic_witness :
    mutualNet.TopoSort 2 = some (TopoDiag.loopDetected, mutualNet) ∧
    mutualNet.nodes = mutualNet.nodes :=
  ⟨rfl, TopoSort_failure_atomic mutualNet mutualNet 2 TopoDiag.loopDetected rfl (Or.inl rfl)⟩

/-- C3 (sort succeeds exactly on valid graphs): on a graph that fits the 32-bit
counters, `TopoSort` (run to completion) installs a new order if and only if
every dependency enumerated by an owned node is owned and the dependency
relation among the owned nodes has no cycle. -/
theorem TopoSort_installs_iff {α : Type} (net : Network α) (hwf : net.WF)
    (hfit : net.Fits32) (fuel : Nat) (hfuel : net.nodes.length ≤ fuel) :
    (∃ net', net.TopoSort fuel = some (TopoDiag.installed, net')) ↔
      net.AllOwned ∧ net.Acyclic := by
  constructor
  · rintro ⟨net', h⟩
    exact ⟨(installed_spec net net' hwf hfit fuel h).1,
      acyclic_of_installed net net' hwf hfit fuel h⟩
  · rintro ⟨hown, hacyc⟩
    exact installs_of_valid net hwf hfit hown hacyc fuel hfuel

theorem TopoSort_installs_iff_witness :
    twoLayerNet.WF ∧ twoLayerNet.Fits32 ∧ twoLayerNet.nodes.length ≤ 5 ∧
    ((∃ net', twoLayerNet.TopoSort 5 = some (TopoDiag.installed, net')) ↔
      twoLayerNet.AllOwned ∧ twoLayerNet.Acyclic) :=
  ⟨by decide, by decide, by decide,
    TopoSort_installs_iff twoLayerNet (by decide) (by decide) 5 (by decide)⟩

/-- C4, as stated, fails: `cycleForeignNet` has a dependency cycle among its owned
nodes (1 and 2 name each other), yet `TopoSort` reports the out-of-network
diagnostic and never the cycle diagnostic, because the foreign node 3 releases
both nodes of the cycle. -/
theorem TopoSort_cycle_counterexample :
    cycleForeignNet.WF ∧ cycleForeignNet.Fits32 ∧ ¬ cycleForeignNet.Acyclic ∧
    cycleForeignNet.TopoSort 4 = some (TopoDiag.outOfNetwork, cycleForeignNet) ∧
    ∀ fuel net', cycleForeignNet.TopoSort fuel ≠ some (TopoDiag.loopDetected, net') := by
  refine ⟨by decide, by decide, cycleForeignNet_cyclic, rfl, ?_⟩
  intro fuel net' h
  have h1 := TopoSort_fuel_mono cycleForeignNet fuel 4 _ h
  have h2 : cycleForeignNet.TopoSort 4 = some (TopoDiag.outOfNetwork, cycleForeignNet) := rfl
  have h3 := TopoSort_fuel_mono cycleForeignNet 4 fuel _ h2
  rw [Nat.add_comm] at h3
  rw [h3] at h1
  have := (Prod.mk.inj (Option.some.inj h1)).1
  exact absurd this (by decide)

/-- C4 (cycle detection, amended): on a graph that fits the 32-bit counters and
whose owned nodes contain a dependency cycle, `TopoSort` never installs a new
order and leaves the stored order as it was; run to completion it reports one
of its two diagnostics, and when every enumerated dependency is owned the
diagnostic is the cycle diagnostic. -/
theorem TopoSort_cycle {α : Type} (net : Network α) (hwf : net.WF) (hfit : net.Fits32)
    (hcyc : ¬ net.Acyclic) :
    (∀ fuel diag net', net.TopoSort fuel = some (diag, net') →
      diag ≠ TopoDiag.installed ∧ net'.nodes = net.nodes) ∧
    (net.FitsTouched32 → ∀ fuel, net.touched.length ≤ fuel →
      net.TopoSort fuel = some (TopoDiag.loopDetected, net) ∨
      net.TopoSort fuel = some (TopoDiag.outOfNetwork, net)) ∧
    (net.AllOwned → ∀ fuel, net.nodes.length ≤ fuel →
      net.TopoSort fuel = some (TopoDiag.loopDetected, net)) := by
  have hfail : ∀ fuel diag net', net.TopoSort fuel = some (diag, net') →
      diag ≠ TopoDiag.installed ∧ net' = net := by
    intro fuel diag net' h
    have hne : diag ≠ TopoDiag.installed := by
      rintro rfl
      exact hcyc (acyclic_of_installed net net' hwf hfit fuel h)
    obtain ⟨ctx, _, hfin⟩ := (TopoSort_eq_some net fuel _).mp h
    exact ⟨hne, topoFinish_failed net net' ctx diag hfin hne⟩
  refine ⟨?_, ?_, ?_⟩
  · intro fuel diag net' h
    obtain ⟨h1, h2⟩ := hfail fuel diag net' h
    exact ⟨h1, by rw [h2]⟩
  · intro hft fuel hfuel
    obtain ⟨hVn, hVd⟩ := touched_facts net
    obtain ⟨ctx, hrun⟩ := topoRun_isSome net hwf net.touched hVn hVd hft.2 hft.1 fuel hfuel
    have hsort : net.TopoSort fuel = some (topoFinish net ctx) :=
      (TopoSort_eq_some net fuel _).mpr ⟨ctx, hrun, rfl⟩
    obtain ⟨h1, h2⟩ := hfail fuel (topoFinish net ctx).1 (topoFinish net ctx).2 hsort
    have hpair : topoFinish net ctx = ((topoFinish net ctx).1, net) :=
      Prod.ext rfl h2
    rw [hsort, hpair]
    cases hd : (topoFinish net ctx).1 with
    | installed => exact absurd hd h1
    | loopDetected => exact Or.inl rfl
    | outOfNetwork => exact Or.inr rfl
  · intro hown fuel hfuel
    exact loop_of_cycle net hwf hfit hown hcyc fuel hfuel

theorem TopoSort_cycle_witness :
    mutualNet.WF ∧ mutualNet.Fits32 ∧ ¬ mutualNet.Acyclic ∧
    ((∀ fuel diag net', mutualNet.TopoSort fuel = some (diag, net') →
      diag ≠ TopoDiag.installed ∧ net'.nodes = mutualNet.nodes) ∧
    (mutualNet.FitsTouched32 → ∀ fuel, mutualNet.touched.length ≤ fuel →
      mutualNet.TopoSort fuel = some (TopoDiag.loopDetected, mutualNet) ∨
      mutualNet.TopoSort fuel = some (TopoDiag.outOfNetwork, mutualNet)) ∧
    (mutualNet.AllOwned → ∀ fuel, mutualNet.nodes.length ≤ fuel →
      mutualNet.TopoSort fuel = some (TopoDiag.loopDetected, mutualNet))) :=
  ⟨by decide, by decide, mutualNet_cyclic,
    TopoSort_cycle mutualNet (by decide) (by decide) mutualNet_cyclic⟩

/-- C5, as stated, fails: the only owned node of `selfForeignNet` enumerates
the foreign node 1 (and itself), yet `TopoSort` reports the cycle diagnostic
and never the out-of-network diagnostic, because the emitted-count test comes
first. -/
theorem TopoSort_foreign_counterexample :
    selfForeignNet.WF ∧ ¬ selfForeignNet.AllOwned ∧
    selfForeignNet.TopoSort 1 = some (TopoDiag.loopDetected, selfForeignNet) ∧
    ∀ fuel net', selfForeignNet.TopoSort fuel ≠ some (TopoDiag.outOfNetwork, net') := by
  refine ⟨by decide, by decide, rfl, ?_⟩
  intro fuel net' h
  have h1 := TopoSort_fuel_mono selfForeignNet fuel 1 _ h
  have h2 : selfForeignNet.TopoSort 1 = some (TopoDiag.loopDetected, selfForeignNet) := rfl
  have h3 := TopoSort_fuel_mono selfForeignNet 1 fuel _ h2
  rw [Nat.add_comm] at h3
  rw [h3] at h1
  have := (Prod.mk.inj (Option.some.inj h1)).1
  exact absurd this (by decide)

/-- C5 (dangling-reference detection, amended): on a graph in which some owned
node enumerates a dependency the graph does not own (and whose touched nodes
fit the 32-bit counters), `TopoSort` installs no new order and reports one of
its two diagnostics, leaving the graph as it was; it reports the
out-of-network diagnostic whenever the dependency relation among the owned
nodes has no cycle. -/
theorem TopoSort_foreign {α : Type} (net : Network α) (hwf : net.WF)
    (hfit : net.FitsTouched32) (hforeign : ¬ net.AllOwned) (fuel : Nat)
    (hfuel : net.touched.length ≤ fuel) :
    (net.TopoSort fuel = some (TopoDiag.loopDetected, net) ∨
      net.TopoSort fuel = some (TopoDiag.outOfNetwork, net)) ∧
    (net.Acyclic → net.TopoSort fuel = some (TopoDiag.outOfNetwork, net)) := by
  obtain ⟨hVn, hVd⟩ := touched_facts net
  obtain ⟨ctx, hrun⟩ := topoRun_isSome net hwf net.touched hVn hVd hfit.2 hfit.1 fuel hfuel
  have hsize := size_gt_of_not_allOwned net hwf fuel ctx hrun hforeign
  have hfin : topoFinish net ctx =
      if ctx.ordered_nodes.length < net.nodes.length then (TopoDiag.loopDetected, net)
      else (TopoDiag.outOfNetwork, net) := by
    unfold topoFinish
    by_cases hl : ctx.ordered_nodes.length < net.nodes.length
    · rw [if_pos hl, if_pos hl]
    · rw [if_neg hl, if_neg hl, if_pos hsize]
  have hsort : net.TopoSort fuel = some (topoFinish net ctx) := by
    rw [TopoSort_eq_some]
    exact ⟨ctx, hrun, rfl⟩
  rw [hsort, hfin]
  constructor
  · split
    · exact Or.inl rfl
    · exact Or.inr rfl
  · intro hacyc
    have hI := topoRun_inv net hwf net.touched hVn hVd hfit.2 hfit.1 fuel ctx hrun
    have hlenD : (allDeps net.heap net.nodes).length < U32 :=
      lt_of_le_of_lt (allDeps_subperm net.heap (List.subperm_of_subset hwf hVn)).length_le hfit.2
    have hcnt : ∀ d, initCount net d = (allDeps net.heap net.nodes).count d := by
      intro d
      unfold initCount
      exact Nat.mod_eq_of_lt (lt_of_le_of_lt (List.count_le_length _ _) hlenD)
    have hsub := nodes_subset_ordered net hwf hcnt hacyc hI
    have hlen : net.nodes.length ≤ ctx.ordered_nodes.length :=
      (List.subperm_of_subset hwf hsub).length_le
    rw [if_neg (by omega)]

theorem TopoSort_foreign_witness :
    foreignNet.WF ∧ foreignNet.FitsTouched32 ∧ ¬ foreignNet.AllOwned ∧
    foreignNet.touched.length ≤ 2 ∧
    ((foreignNet.TopoSort 2 = some (TopoDiag.loopDetected, foreignNet) ∨
      foreignNet.TopoSort 2 = some (TopoDiag.outOfNetwork, foreignNet)) ∧
    (foreignNet.Acyclic → foreignNet.TopoSort 2 = some (TopoDiag.outOfNetwork, foreignNet))) :=
  ⟨by decide, by decide, by decide, by decide,
    TopoSort_foreign foreignNet (by decide) (by decide) (by decide) 2 (by decide)⟩

/-- C6 (sort is a pure reordering): whenever `TopoSort` installs a new order on
a graph that fits its 32-bit counters, the stored node list after the call is a
permutation of the list before the call with every node exactly once, and the
value, the accumulator and the dependency list of every node, as well as the
trainable list, are unchanged. -/
theorem TopoSort_pure_reordering {α : Type} (net net' : Network α) (hwf : net.WF)
    (hfit : net.Fits32) (fuel : Nat)
    (h : net.TopoSort fuel = some (TopoDiag.installed, net')) :
    net'.nodes.Perm net.nodes ∧ net'.nodes.Nodup ∧ net'.parameters = net.parameters ∧
    ∀ n, (net'.heap n).value = (net.heap n).value ∧ (net'.heap n).dcost = (net.heap n).dcost ∧
      net'.depsOf n = net.depsOf n := by
  obtain ⟨_, hheap, hpar, hperm, _⟩ := installed_spec net net' hwf hfit fuel h
  refine ⟨hperm, hperm.symm.nodup_iff.mp hwf, hpar, fun n => ?_⟩
  unfold Network.depsOf
  rw [hheap]
  exact ⟨rfl, rfl, rfl⟩

theorem TopoSort_pure_reordering_witness :
    twoLayerNet.WF ∧ twoLayerNet.Fits32 ∧
    twoLayerNet.TopoSort 7 = some (TopoDiag.installed, twoLayerSorted) ∧
    (twoLayerSorted.nodes.Perm twoLayerNet.nodes ∧ twoLayerSorted.nodes.Nodup ∧
      twoLayerSorted.parameters = twoLayerNet.parameters ∧
      ∀ n, (twoLayerSorted.heap n).value = (twoLayerNet.heap n).value ∧
        (twoLayerSorted.heap n).dcost = (twoLayerNet.heap n).dcost ∧
        twoLayerSorted.depsOf n = twoLayerNet.depsOf n) :=
  ⟨by decide, by decide, rfl,
    TopoSort_pure_reordering twoLayerNet twoLayerSorted (by decide) (by decide) 7 rfl⟩

/-! ## Reading and writing node fields -/

@[simp] theorem setValue_kind {α : Type} (heap : Nat → Node α) (n m : Nat) (v : α) :
    (setValue heap n v m).kind = (heap m).kind := by
  unfold setValue
  by_cases h : m = n
  · subst h; simp
  · simp [Function.update, h]

@[simp] theorem setValue_dcost {α : Type} (heap : Nat → Node α) (n m : Nat) (v : α) :
    (setValue heap n v m).dcost = (heap m).dcost := by
  unfold setValue
  by_cases h : m = n
  · subst h; simp
  · simp [Function.update, h]

@[simp] theorem setValue_value_self {α : Type} (heap : Nat → Node α) (n : Nat) (v : α) :
    (setValue heap n v n).value = v := by
  simp [setValue]

theorem setValue_value_ne {α : Type} (heap : Nat → Node α) {n m : Nat} (v : α) (h : m ≠ n) :
    (setValue heap n v m).value = (heap m).value := by
  simp [setValue, Function.update, h]

theorem setValue_ne {α : Type} (heap : Nat → Node α) {n m : Nat} (v : α) (h : m ≠ n) :
    setValue heap n v m = heap m := by
  simp [setValue, Function.update, h]

@[simp] theorem setDcost_kind {α : Type} (heap : Nat → Node α) (n m : Nat) (v : α) :
    (setDcost heap n v m).kind = (heap m).kind := by
  unfold setDcost
  by_cases h : m = n
  · subst h; simp
  · simp [Function.update, h]

@[simp] theorem setDcost_value {α : Type} (heap : Nat → Node α) (n m : Nat) (v : α) :
    (setDcost heap n v m).value = (heap m).value := by
  unfold setDcost
  by_cases h : m = n
  · subst h; simp
  · simp [Function.update, h]

@[simp] theorem setDcost_dcost_self {α : Type} (heap : Nat → Node α) (n : Nat) (v : α) :
    (setDcost heap n v n).dcost = v := by
  simp [setDcost]

theorem setDcost_dcost_ne {α : Type} (heap : Nat → Node α) {n m : Nat} (v : α) (h : m ≠ n) :
    (setDcost heap n v m).dcost = (heap m).dcost := by
  simp [setDcost, Function.update, h]

theorem setDcost_ne {α : Type} (heap : Nat → Node α) {n m : Nat} (v : α) (h : m ≠ n) :
    setDcost heap n v m = heap m := by
  simp [setDcost, Function.update, h]

@[simp] theorem setValue_setValue {α : Type} (heap : Nat → Node α) (n : Nat) (v w : α) :
    setValue (setValue heap n v) n w = setValue heap n w := by
  funext m
  by_cases h : m = n
  · subst h; simp [setValue]
  · simp [setValue, Function.update, h]

theorem setValue_self {α : Type} (heap : Nat → Node α) (n : Nat) :
    setValue heap n (heap n).value = heap := by
  funext m
  by_cases h : m = n
  · subst h; simp [setValue]
  · simp [setValue, Function.update, h]

theorem setDcost_self {α : Type} (heap : Nat → Node α) (n : Nat) :
    setDcost heap n (heap n).dcost = heap := by
  funext m
  by_cases h : m = n
  · subst h; simp [setDcost]
  · simp [setDcost, Function.update, h]

theorem mem_pairList (ts : List (Nat × Nat)) (d : Nat) :
    d ∈ pairList ts ↔ ∃ t ∈ ts, d = t.1 ∨ d = t.2 := by
  induction ts with
  | nil => simp [pairList]
  | cons t ts ih =>
    simp only [pairList, List.mem_cons, ih]
    constructor
    · rintro (h | h | ⟨t', ht', h⟩)
      · exact ⟨t, Or.inl rfl, Or.inl h⟩
      · exact ⟨t, Or.inl rfl, Or.inr h⟩
      · exact ⟨t', Or.inr ht', h⟩
    · rintro ⟨t', rfl | ht', h⟩
      · rcases h with h | h
        · exact Or.inl h
        · exact Or.inr (Or.inl h)
      · exact Or.inr (Or.inr ⟨t', ht', h⟩)

/-! ## `Eval` computes the value formula -/

theorem evalLinearTerms_eq {α : Type} [Field α] (self : Nat) (ts : List (Nat × Nat))
    (heap : Nat → Node α) (hs : self ∉ pairList ts) :
    evalLinearTerms self ts heap = setValue heap self
      ((heap self).value + (ts.map (fun t => (heap t.1).value * (heap t.2).value)).sum) := by
  induction ts generalizing heap with
  | nil => simp [evalLinearTerms, setValue_self]
  | cons t ts ih =>
    have h1 : self ≠ t.1 := fun h => hs (by simp [pairList, h])
    have h2 : self ≠ t.2 := fun h => hs (by simp [pairList, ← h])
    have hs' : self ∉ pairList ts := fun h => hs (by simp [pairList, h])
    rw [evalLinearTerms, ih _ hs']
    have hmap : ts.map (fun t' =>
        (setValue heap self ((heap self).value + (heap t.1).value * (heap t.2).value) t'.1).value *
        (setValue heap self ((heap self).value + (heap t.1).value * (heap t.2).value) t'.2).value)
        = ts.map (fun t' => (heap t'.1).value * (heap t'.2).value) := by
      apply List.map_congr_left
      intro t' ht'
      have e1 : t'.1 ≠ self := fun h => hs' ((mem_pairList ts self).mpr ⟨t', ht', Or.inl h.symm⟩)
      have e2 : t'.2 ≠ self := fun h => hs' ((mem_pairList ts self).mpr ⟨t', ht', Or.inr h.symm⟩)
      rw [setValue_value_ne _ _ e1, setValue_value_ne _ _ e2]
    rw [hmap]
    simp [add_assoc]

theorem evalSquaredTerms_eq {α : Type} [Field α] (self : Nat) (ts : List (Nat × Nat))
    (heap : Nat → Node α) (hs : self ∉ pairList ts) :
    evalSquaredTerms self ts heap = setValue heap self
      ((heap self).value + (ts.map (fun t => ((heap t.1).value - (heap t.2).value) ^ 2)).sum) := by
  induction ts generalizing heap with
  | nil => simp [evalSquaredTerms, setValue_self]
  | cons t ts ih =>
    have hs' : self ∉ pairList ts := fun h => hs (by simp [pairList, h])
    rw [evalSquaredTerms, ih _ hs']
    have hmap : ts.map (fun t' =>
        ((setValue heap self ((heap self).value + ((heap t.1).value - (heap t.2).value) ^ 2)
            t'.1).value -
          (setValue heap self ((heap self).value + ((heap t.1).value - (heap t.2).value) ^ 2)
            t'.2).value) ^ 2)
        = ts.map (fun t' => ((heap t'.1).value - (heap t'.2).value) ^ 2) := by
      apply List.map_congr_left
      intro t' ht'
      have e1 : t'.1 ≠ self := fun h => hs' ((mem_pairList ts self).mpr ⟨t', ht', Or.inl h.symm⟩)
      have e2 : t'.2 ≠ self := fun h => hs' ((mem_pairList ts self).mpr ⟨t', ht', Or.inr h.symm⟩)
      rw [setValue_value_ne _ _ e1, setValue_value_ne _ _ e2]
    rw [hmap]
    simp [add_assoc]

theorem Eval_eq {α : Type} [Field α] (ex : α → α) (heap : Nat → Node α) (self : Nat)
    (hs : self ∉ (heap self).kind.deps) :
    Eval ex heap self = setValue heap self (valueFormula ex heap self) := by
  unfold Eval valueFormula
  cases hk : (heap self).kind with
  | input => simp [setValue_self]
  | parameter => simp [setValue_self]
  | linearReducer bias terms =>
    rw [hk] at hs
    simp only [deps_linearReducer, List.mem_cons, not_or] at hs
    simp only
    rw [evalLinearTerms_eq self terms _ hs.2]
    have hb : bias ≠ self := fun h => hs.1 h.symm
    have hmap : terms.map (fun t' =>
        (setValue heap self (heap bias).value t'.1).value *
        (setValue heap self (heap bias).value t'.2).value)
        = terms.map (fun t' => (heap t'.1).value * (heap t'.2).value) := by
      apply List.map_congr_left
      intro t' ht'
      have e1 : t'.1 ≠ self :=
        fun h => hs.2 ((mem_pairList terms self).mpr ⟨t', ht', Or.inl h.symm⟩)
      have e2 : t'.2 ≠ self :=
        fun h => hs.2 ((mem_pairList terms self).mpr ⟨t', ht', Or.inr h.symm⟩)
      rw [setValue_value_ne _ _ e1, setValue_value_ne _ _ e2]
    rw [hmap]
    simp
  | sigmoid inp => simp
  | squaredError terms =>
    rw [hk] at hs
    simp only [deps_squaredError] at hs
    simp only
    rw [evalSquaredTerms_eq self terms _ hs]
    have hmap : terms.map (fun t' =>
        ((setValue heap self 0 t'.1).value - (setValue heap self 0 t'.2).value) ^ 2)
        = terms.map (fun t' => ((heap t'.1).value - (heap t'.2).value) ^ 2) := by
      apply List.map_congr_left
      intro t' ht'
      have e1 : t'.1 ≠ self :=
        fun h => hs ((mem_pairList terms self).mpr ⟨t', ht', Or.inl h.symm⟩)
      have e2 : t'.2 ≠ self :=
        fun h => hs ((mem_pairList terms self).mpr ⟨t', ht', Or.inr h.symm⟩)
      rw [setValue_value_ne _ _ e1, setValue_value_ne _ _ e2]
    rw [hmap]
    simp

theorem valueFormula_congr {α : Type} [Field α] (ex : α → α) (h1 h2 : Nat → Node α) (n : Nat)
    (hk : (h1 n).kind = (h2 n).kind)
    (hself : (h1 n).kind.isLeaf = true → (h1 n).value = (h2 n).value)
    (hd : ∀ d ∈ (h1 n).kind.deps, (h1 d).value = (h2 d).value) :
    valueFormula ex h1 n = valueFormula ex h2 n := by
  unfold valueFormula
  rw [← hk]
  cases hkind : (h1 n).kind with
  | input => exact hself (by rw [hkind]; rfl)
  | parameter => exact hself (by rw [hkind]; rfl)
  | linearReducer bias terms =>
    rw [hkind] at hd
    simp only [deps_linearReducer, List.mem_cons] at hd
    simp only
    rw [hd bias (Or.inl rfl)]
    congr 2
    apply List.map_congr_left
    intro t ht
    rw [hd t.1 (Or.inr ((mem_pairList terms _).mpr ⟨t, ht, Or.inl rfl⟩)),
      hd t.2 (Or.inr ((mem_pairList terms _).mpr ⟨t, ht, Or.inr rfl⟩))]
  | sigmoid inp =>
    rw [hkind] at hd
    simp only [deps_sigmoid, List.mem_singleton] at hd
    simp only
    rw [hd inp rfl]
  | squaredError terms =>
    rw [hkind] at hd
    simp only [deps_squaredError] at hd
    simp only
    congr 1
    apply List.map_congr_left
    intro t ht
    rw [hd t.1 ((mem_pairList terms _).mpr ⟨t, ht, Or.inl rfl⟩),
      hd t.2 ((mem_pairList terms _).mpr ⟨t, ht, Or.inr rfl⟩)]

theorem valueFormula_leaf {α : Type} [Field α] (ex : α → α) (heap : Nat → Node α) (n : Nat)
    (h : (heap n).kind.isLeaf = true) : valueFormula ex heap n = (heap n).value := by
  unfold valueFormula
  cases hk : (heap n).kind <;> simp_all [NodeKind.isLeaf]

/-! ## The loop of `ComputeValues` -/

theorem forwardInv_step {α : Type} [Field α] (ex : α → α) (heap0 heap : Nat → Node α)
    (pre : List Nat) (n : Nat) (hI : ForwardInv ex heap0 heap pre) (hn : n ∉ pre)
    (hdn : ∀ d ∈ (heap0 n).kind.deps, d ∈ pre)
    (hclosed : ∀ m ∈ pre, ∀ d ∈ (heap0 m).kind.deps, d ∈ pre) :
    ForwardInv ex heap0 (Eval ex (setDcost heap n 0) n) (pre ++ [n]) := by
  have hkn : ((setDcost heap n 0) n).kind = (heap0 n).kind := by
    rw [setDcost_kind, hI.kind]
  have hself : n ∉ ((setDcost heap n 0) n).kind.deps := by
    rw [hkn]
    exact fun h => hn (hdn n h)
  rw [Eval_eq ex _ n hself]
  have hvf : valueFormula ex (setDcost heap n 0) n = valueFormula ex heap n := by
    apply valueFormula_congr
    · simp
    · intro _; simp
    · intro d _; simp
  rw [hvf]
  have hkind : ∀ m, (setValue (setDcost heap n 0) n (valueFormula ex heap n) m).kind
      = (heap0 m).kind := by
    intro m
    rw [setValue_kind, setDcost_kind, hI.kind]
  have hval : ∀ m, m ≠ n →
      (setValue (setDcost heap n 0) n (valueFormula ex heap n) m).value = (heap m).value := by
    intro m hm
    rw [setValue_value_ne _ _ hm, setDcost_value]
  have hleafn : (heap0 n).kind.isLeaf = true →
      valueFormula ex heap n = (heap n).value := by
    intro hl
    apply valueFormula_leaf
    rw [hI.kind]; exact hl
  have hformula : ∀ m, (∀ d ∈ (heap0 m).kind.deps, d ∈ pre) →
      valueFormula ex (setValue (setDcost heap n 0) n (valueFormula ex heap n)) m
        = valueFormula ex heap m := by
    intro m hm
    apply valueFormula_congr
    · rw [hkind, hI.kind]
    · intro hl
      rw [hkind] at hl
      by_cases hmn : m = n
      · subst hmn
        rw [setValue_value_self]
        exact hleafn hl
      · exact hval m hmn
    · intro d hd
      rw [hkind] at hd
      have hdp := hm d hd
      exact hval d (fun h => hn (h ▸ hdp))
  refine ⟨hkind, ?_, ?_, ?_⟩
  · intro m hm
    rcases List.mem_append.mp hm with hm | hm
    · have hmn : m ≠ n := fun h => hn (h ▸ hm)
      obtain ⟨d1, d2⟩ := hI.done m hm
      refine ⟨?_, ?_⟩
      · rw [setValue_dcost, setDcost_dcost_ne _ _ hmn, d1]
      · rw [hval m hmn, hformula m (hclosed m hm), d2]
    · rw [List.mem_singleton.mp hm]
      refine ⟨by simp, ?_⟩
      rw [setValue_value_self, hformula n hdn]
  · intro m hm
    have hmn : m ≠ n := fun h => hm (by simp [h])
    have hmp : m ∉ pre := fun h => hm (List.mem_append_left _ h)
    rw [setValue_ne _ _ hmn, setDcost_ne _ _ hmn, hI.rest m hmp]
  · intro m hl
    by_cases hmn : m = n
    · subst hmn
      rw [setValue_value_self, hleafn hl, hI.leaf m hl]
    · rw [hval m hmn, hI.leaf m hl]

theorem prefix_closed_of_before (deps : Nat → List Nat) (pre rest : List Nat)
    (hdb : ∀ a n b, pre ++ rest = a ++ n :: b → ∀ d ∈ deps n, d ∈ a) :
    ∀ m ∈ pre, ∀ d ∈ deps m, d ∈ pre := by
  intro m hm d hd
  obtain ⟨a, b, hab⟩ := List.append_of_mem hm
  have := hdb a m (b ++ rest) (by rw [hab]; simp) d hd
  rw [hab]
  exact List.mem_append_left _ this

theorem computeValuesLoop_inv {α : Type} [Field α] (ex : α → α) (heap0 : Nat → Node α)
    (rest pre : List Nat) (heap : Nat → Node α) (hI : ForwardInv ex heap0 heap pre)
    (hnd : (pre ++ rest).Nodup)
    (hdb : ∀ a n b, pre ++ rest = a ++ n :: b → ∀ d ∈ (heap0 n).kind.deps, d ∈ a) :
    ForwardInv ex heap0 (computeValuesLoop ex rest heap) (pre ++ rest) := by
  induction rest generalizing pre heap with
  | nil => simpa [computeValuesLoop] using hI
  | cons n rest ih =>
    have e : pre ++ n :: rest = (pre ++ [n]) ++ rest := by simp
    have hn : n ∉ pre := by
      intro h
      have := List.nodup_append.mp hnd
      exact this.2.2 h (List.mem_cons_self n rest)
    have hdn := hdb pre n rest rfl
    have hclosed := prefix_closed_of_before (fun m => (heap0 m).kind.deps) pre (n :: rest) hdb
    rw [computeValuesLoop, e]
    apply ih
    · exact forwardInv_step ex heap0 heap pre n hI hn hdn hclosed
    · rw [← e]; exact hnd
    · rw [← e]; exact hdb

theorem depsBefore_of_orderValid {α : Type} (net : Network α) (hwf : net.WF)
    (hov : net.OrderValid) : net.DepsBefore := by
  intro pre n post hsplit d hd
  have hnd : (pre ++ n :: post).Nodup := hsplit ▸ hwf
  have hn : n ∈ net.nodes := by rw [hsplit]; simp
  have hlt := hov n hn d hd
  rw [hsplit] at hlt
  have hnpre : n ∉ pre := fun h => (List.nodup_append.mp hnd).2.2 h (List.mem_cons_self n post)
  rw [List.indexOf_append_of_not_mem hnpre, List.indexOf_cons_self] at hlt
  by_contra hdpre
  rw [List.indexOf_append_of_not_mem hdpre] at hlt
  omega

theorem ComputeValues_inv {α : Type} [Field α] (ex : α → α) (net : Network α) (hwf : net.WF)
    (hov : net.OrderValid) :
    ForwardInv ex net.heap (net.ComputeValues ex).heap net.nodes := by
  have hdb := depsBefore_of_orderValid net hwf hov
  have h0 : ForwardInv ex net.heap net.heap [] :=
    ⟨fun _ => rfl, by simp, fun _ _ => rfl, fun _ _ => rfl⟩
  have := computeValuesLoop_inv ex net.heap net.nodes [] net.heap h0 (by simpa using hwf)
    (by simpa using hdb)
  simpa [Network.ComputeValues] using this

theorem not_self_dep {α : Type} (net : Network α) (hwf : net.WF) (hov : net.OrderValid)
    (n : Nat) (hn : n ∈ net.nodes) : n ∉ net.depsOf n := by
  intro h
  obtain ⟨a, b, hab⟩ := List.append_of_mem hn
  have hd := depsBefore_of_orderValid net hwf hov a n b hab n h
  have hnd : (a ++ n :: b).Nodup := hab ▸ hwf
  exact (List.nodup_append.mp hnd).2.2 hd (List.mem_cons_self n b)

theorem computeValuesLoop_fixed {α : Type} [Field α] (ex : α → α) (L : List Nat)
    (heap : Nat → Node α)
    (h : ∀ n ∈ L, (heap n).dcost = 0 ∧ (heap n).value = valueFormula ex heap n ∧
      n ∉ (heap n).kind.deps) :
    computeValuesLoop ex L heap = heap := by
  induction L with
  | nil => rfl
  | cons n L ih =>
    obtain ⟨h1, h2, h3⟩ := h n (List.mem_cons_self n L)
    have e1 : setDcost heap n 0 = heap := by
      rw [← h1]; exact setDcost_self heap n
    rw [computeValuesLoop, e1, Eval_eq ex heap n h3, ← h2, setValue_self]
    exact ih (fun m hm => h m (List.mem_cons_of_mem n hm))

theorem ComputeValues_fixed {α : Type} [Field α] (ex : α → α) (net : Network α)
    (hwf : net.WF) (hov : net.OrderValid) :
    ((net.ComputeValues ex).ComputeValues ex).heap = (net.ComputeValues ex).heap := by
  have hI := ComputeValues_inv ex net hwf hov
  show computeValuesLoop ex net.nodes (net.ComputeValues ex).heap = (net.ComputeValues ex).heap
  apply computeValuesLoop_fixed
  intro n hn
  obtain ⟨h1, h2⟩ := hI.done n hn
  refine ⟨h1, h2, ?_⟩
  rw [hI.kind]
  exact not_self_dep net hwf hov n hn

/-! ## The claims about `ComputeValues` -/

/-- C7 (forward-pass correctness): on a graph whose stored order places every
dependency before its dependents, after `ComputeValues` every stored node has
accumulator 0 and its class unchanged, every input and parameter keeps its
value, and the value of every other node is given by its formula over the
values its dependencies hold after the pass (in any field of scalars, in
particular the reals with the real exponential). -/
theorem ComputeValues_correct {α : Type} [Field α] (ex : α → α) (net : Network α)
    (hwf : net.WF) (hov : net.OrderValid) :
    ∀ n ∈ net.nodes,
      ((net.ComputeValues ex).heap n).dcost = 0 ∧
      ((net.ComputeValues ex).heap n).kind = (net.heap n).kind ∧
      match (net.heap n).kind with
      | .input => ((net.ComputeValues ex).heap n).value = (net.heap n).value
      | .parameter => ((net.ComputeValues ex).heap n).value = (net.heap n).value
      | .linearReducer bias terms =>
        ((net.ComputeValues ex).heap n).value =
          ((net.ComputeValues ex).heap bias).value +
          (terms.map (fun t => ((net.ComputeValues ex).heap t.1).value *
            ((net.ComputeValues ex).heap t.2).value)).sum
      | .sigmoid x =>
        ((net.ComputeValues ex).heap n).value =
          1 / (1 + ex (-((net.ComputeValues ex).heap x).value))
      | .squaredError terms =>
        ((net.ComputeValues ex).heap n).value =
          (terms.map (fun t => (((net.ComputeValues ex).heap t.1).value -
            ((net.ComputeValues ex).heap t.2).value) ^ 2)).sum := by
  intro n hn
  have hI := ComputeValues_inv ex net hwf hov
  obtain ⟨h1, h2⟩ := hI.done n hn
  refine ⟨h1, hI.kind n, ?_⟩
  have hk := hI.kind n
  have hleaf := hI.leaf n
  unfold valueFormula at h2
  rw [hk] at h2
  cases hkind : (net.heap n).kind with
  | input => exact hleaf (by rw [hkind]; rfl)
  | parameter => exact hleaf (by rw [hkind]; rfl)
  | linearReducer bias terms => rw [hkind] at h2; exact h2
  | sigmoid x => rw [hkind] at h2; exact h2
  | squaredError terms => rw [hkind] at h2; exact h2

theorem ComputeValues_correct_witness :
    twoLayerSorted.WF ∧ twoLayerSorted.OrderValid ∧
    ((twoLayerSorted.ComputeValues exQ).heap 3).dcost = 0 ∧
    ((twoLayerSorted.ComputeValues exQ).heap 3).kind = (twoLayerSorted.heap 3).kind ∧
    ((twoLayerSorted.ComputeValues exQ).heap 3).value =
      ((twoLayerSorted.ComputeValues exQ).heap 1).value +
      ([((4 : Nat), (0 : Nat))].map
        (fun t => ((twoLayerSorted.ComputeValues exQ).heap t.1).value *
          ((twoLayerSorted.ComputeValues exQ).heap t.2).value)).sum :=
  ⟨by decide, by decide,
    ComputeValues_correct exQ twoLayerSorted (by decide) (by decide) 3 (by decide)⟩

/-- C8 (idempotent evaluation): on a graph whose stored order places every
dependency before its dependents, a second `ComputeValues` right after the
first leaves every node object as the first call left it (same value, same
accumulator), and the accumulator of every stored node is 0. -/
theorem ComputeValues_idempotent {α : Type} [Field α] (ex : α → α) (net : Network α)
    (hwf : net.WF) (hov : net.OrderValid) :
    (∀ n, (((net.ComputeValues ex).ComputeValues ex).heap n).value =
        ((net.ComputeValues ex).heap n).value ∧
      (((net.ComputeValues ex).ComputeValues ex).heap n).dcost =
        ((net.ComputeValues ex).heap n).dcost) ∧
    ∀ n ∈ net.nodes, (((net.ComputeValues ex).ComputeValues ex).heap n).dcost = 0 := by
  have hfix := ComputeValues_fixed ex net hwf hov
  refine ⟨fun n => by rw [hfix]; exact ⟨rfl, rfl⟩, fun n hn => ?_⟩
  rw [hfix]
  exact ((ComputeValues_inv ex net hwf hov).done n hn).1

theorem ComputeValues_idempotent_witness :
    twoLayerSorted.WF ∧ twoLayerSorted.OrderValid ∧
    ((∀ n, (((twoLayerSorted.ComputeValues exQ).ComputeValues exQ).heap n).value =
        ((twoLayerSorted.ComputeValues exQ).heap n).value ∧
      (((twoLayerSorted.ComputeValues exQ).ComputeValues exQ).heap n).dcost =
        ((twoLayerSorted.ComputeValues exQ).heap n).dcost) ∧
    ∀ n ∈ twoLayerSorted.nodes,
      (((twoLayerSorted.ComputeValues exQ).ComputeValues exQ).heap n).dcost = 0) :=
  ⟨by decide, by decide,
    ComputeValues_idempotent exQ twoLayerSorted (by decide) (by decide)⟩

/-! ## `PushPartial` adds the contributions of the table -/

@[simp] theorem pushTo_kind {α : Type} [Field α] (heap : Nat → Node α) (n m : Nat) (x : α) :
    (pushTo heap n x m).kind = (heap m).kind := by
  simp [pushTo]

@[simp] theorem pushTo_value {α : Type} [Field α] (heap : Nat → Node α) (n m : Nat) (x : α) :
    (pushTo heap n x m).value = (heap m).value := by
  simp [pushTo]

theorem pushTo_dcost {α : Type} [Field α] (heap : Nat → Node α) (n d : Nat) (x : α) :
    (pushTo heap n x d).dcost = (heap d).dcost + if n = d then x else 0 := by
  unfold pushTo
  by_cases h : n = d
  · subst h; simp
  · rw [setDcost_dcost_ne _ _ (fun e => h e.symm), if_neg h, add_zero]

theorem pushLinearTerms_frame {α : Type} [Field α] (self : Nat) (ts : List (Nat × Nat))
    (heap : Nat → Node α) (m : Nat) :
    (pushLinearTerms self ts heap m).kind = (heap m).kind ∧
    (pushLinearTerms self ts heap m).value = (heap m).value := by
  induction ts generalizing heap with
  | nil => exact ⟨rfl, rfl⟩
  | cons t ts ih =>
    rw [pushLinearTerms]
    exact ⟨(ih _).1.trans (by simp), (ih _).2.trans (by simp)⟩

theorem pushSquaredTerms_frame {α : Type} [Field α] (self : Nat) (ts : List (Nat × Nat))
    (heap : Nat → Node α) (m : Nat) :
    (pushSquaredTerms self ts heap m).kind = (heap m).kind ∧
    (pushSquaredTerms self ts heap m).value = (heap m).value := by
  induction ts generalizing heap with
  | nil => exact ⟨rfl, rfl⟩
  | cons t ts ih =>
    rw [pushSquaredTerms]
    exact ⟨(ih _).1.trans (by simp), (ih _).2.trans (by simp)⟩

theorem PushPartial_frame {α : Type} [Field α] (ex : α → α) (heap : Nat → Node α)
    (self m : Nat) :
    (PushPartial ex heap self m).kind = (heap m).kind ∧
    (PushPartial ex heap self m).value = (heap m).value := by
  unfold PushPartial
  cases (heap self).kind with
  | input => exact ⟨rfl, rfl⟩
  | parameter => exact ⟨rfl, rfl⟩
  | linearReducer bias terms =>
    simp only
    obtain ⟨h1, h2⟩ := pushLinearTerms_frame self terms (pushTo heap bias (heap self).dcost) m
    simp only [h1, h2, pushTo_kind, pushTo_value, and_self]
  | sigmoid inp => simp
  | squaredError terms => exact pushSquaredTerms_frame self terms heap m

theorem pushLinearTerms_dcost {α : Type} [Field α] (self : Nat) (ts : List (Nat × Nat))
    (heap : Nat → Node α) (hs : self ∉ pairList ts) (d : Nat) :
    (pushLinearTerms self ts heap d).dcost = (heap d).dcost +
      (ts.map (fun t =>
        (if t.1 = d then (heap self).dcost * (heap t.2).value else 0) +
        (if t.2 = d then (heap self).dcost * (heap t.1).value else 0))).sum := by
  induction ts generalizing heap with
  | nil => simp [pushLinearTerms]
  | cons t ts ih =>
    have h1 : t.1 ≠ self := fun h => hs (by simp [pairList, ← h])
    have h2 : t.2 ≠ self := fun h => hs (by simp [pairList, ← h])
    have hs' : self ∉ pairList ts := fun h => hs (by simp [pairList, h])
    rw [pushLinearTerms, ih _ hs']
    simp only [pushTo_dcost, pushTo_value, if_neg h1, if_neg h2, add_zero, List.map_cons,
      List.sum_cons]
    ring

theorem pushSquaredTerms_dcost {α : Type} [Field α] (self : Nat) (ts : List (Nat × Nat))
    (heap : Nat → Node α) (hs : self ∉ pairList ts) (d : Nat) :
    (pushSquaredTerms self ts heap d).dcost = (heap d).dcost +
      (ts.map (fun t =>
        (if t.1 = d then (heap self).dcost * 2 * ((heap t.1).value - (heap t.2).value) else 0) +
        (if t.2 = d then (heap self).dcost * 2 * ((heap t.2).value - (heap t.1).value)
          else 0))).sum := by
  induction ts generalizing heap with
  | nil => simp [pushSquaredTerms]
  | cons t ts ih =>
    have h1 : t.1 ≠ self := fun h => hs (by simp [pairList, ← h])
    have h2 : t.2 ≠ self := fun h => hs (by simp [pairList, ← h])
    have hs' : self ∉ pairList ts := fun h => hs (by simp [pairList, h])
    rw [pushSquaredTerms, ih _ hs']
    simp only [pushTo_dcost, pushTo_value, if_neg h1, if_neg h2, add_zero, List.map_cons,
      List.sum_cons]
    ring

theorem PushPartial_dcost {α : Type} [Field α] (ex : α → α) (heap : Nat → Node α)
    (self : Nat) (hs : self ∉ (heap self).kind.deps) (d : Nat) :
    (PushPartial ex heap self d).dcost = (heap d).dcost + contribution ex heap self d := by
  unfold PushPartial contribution
  cases hk : (heap self).kind with
  | input => simp
  | parameter => simp
  | linearReducer bias terms =>
    rw [hk] at hs
    simp only [deps_linearReducer, List.mem_cons, not_or] at hs
    have hb : bias ≠ self := fun h => hs.1 h.symm
    simp only
    rw [pushLinearTerms_dcost self terms _ hs.2]
    simp only [pushTo_dcost, pushTo_value, if_neg hb, add_zero]
    ring
  | sigmoid inp =>
    simp only [pushTo_dcost]
  | squaredError terms =>
    rw [hk] at hs
    simp only [deps_squaredError] at hs
    simp only
    rw [pushSquaredTerms_dcost self terms _ hs]

theorem list_sum_eq_zero {α : Type} [Field α] (l : List α) (h : ∀ x ∈ l, x = 0) :
    l.sum = 0 := by
  induction l with
  | nil => rfl
  | cons a l ih =>
    rw [List.sum_cons, h a (List.mem_cons_self a l),
      ih (fun x hx => h x (List.mem_cons_of_mem a hx)), add_zero]

theorem contribution_eq_zero {α : Type} [Field α] (ex : α → α) (heap : Nat → Node α)
    (n d : Nat) (h : d ∉ (heap n).kind.deps) : contribution ex heap n d = 0 := by
  unfold contribution
  cases hk : (heap n).kind with
  | input => rfl
  | parameter => rfl
  | linearReducer bias terms =>
    rw [hk] at h
    simp only [deps_linearReducer, List.mem_cons, not_or] at h
    simp only
    rw [if_neg (fun e => h.1 e.symm), zero_add]
    apply list_sum_eq_zero
    intro x hx
    obtain ⟨t, ht, rfl⟩ := List.mem_map.mp hx
    have e1 : t.1 ≠ d := fun e => h.2 ((mem_pairList terms d).mpr ⟨t, ht, Or.inl e.symm⟩)
    have e2 : t.2 ≠ d := fun e => h.2 ((mem_pairList terms d).mpr ⟨t, ht, Or.inr e.symm⟩)
    simp [e1, e2]
  | sigmoid x =>
    rw [hk] at h
    simp only [deps_sigmoid, List.mem_singleton] at h
    simp only
    rw [if_neg (fun e => h e.symm)]
  | squaredError terms =>
    rw [hk] at h
    simp only [deps_squaredError] at h
    simp only
    apply list_sum_eq_zero
    intro x hx
    obtain ⟨t, ht, rfl⟩ := List.mem_map.mp hx
    have e1 : t.1 ≠ d := fun e => h ((mem_pairList terms d).mpr ⟨t, ht, Or.inl e.symm⟩)
    have e2 : t.2 ≠ d := fun e => h ((mem_pairList terms d).mpr ⟨t, ht, Or.inr e.symm⟩)
    simp [e1, e2]

theorem contribution_congr {α : Type} [Field α] (ex : α → α) (h1 h2 : Nat → Node α)
    (n d : Nat) (hk : (h1 n).kind = (h2 n).kind) (hd : (h1 n).dcost = (h2 n).dcost)
    (hv : ∀ m, (h1 m).value = (h2 m).value) :
    contribution ex h1 n d = contribution ex h2 n d := by
  unfold contribution
  rw [hk, hd]
  simp only [hv]

/-! ## The loop of `ComputePartials` -/

theorem backwardInv_step {α : Type} [Field α] (ex : α → α) (heap0 heap : Nat → Node α)
    (S : List Nat) (n : Nat) (hI : BackwardInv ex heap0 heap S)
    (hdis : ∀ m, m = n ∨ m ∈ S → m ∉ (heap0 n).kind.deps) :
    BackwardInv ex heap0 (PushPartial ex heap n) (n :: S) := by
  have hkn : (heap n).kind = (heap0 n).kind := hI.kind n
  have hself : n ∉ (heap n).kind.deps := by
    rw [hkn]; exact hdis n (Or.inl rfl)
  have hcontr : ∀ m, m = n ∨ m ∈ S → ∀ d,
      contribution ex (PushPartial ex heap n) m d = contribution ex heap m d := by
    intro m hm d
    apply contribution_congr
    · exact (PushPartial_frame ex heap n m).1
    · rw [PushPartial_dcost ex heap n hself, contribution_eq_zero, add_zero]
      rw [hkn]; exact hdis m hm
    · intro k
      exact (PushPartial_frame ex heap n k).2
  refine ⟨fun m => ?_, fun m => ?_, fun d => ?_⟩
  · rw [(PushPartial_frame ex heap n m).1, hI.kind]
  · rw [(PushPartial_frame ex heap n m).2, hI.value]
  · rw [PushPartial_dcost ex heap n hself, hI.acc d, List.map_cons, List.sum_cons,
      hcontr n (Or.inl rfl) d]
    have hmap : S.map (fun m => contribution ex (PushPartial ex heap n) m d)
        = S.map (fun m => contribution ex heap m d) := by
      apply List.map_congr_left
      intro m hm
      exact hcontr m (Or.inr hm) d
    rw [hmap]
    ring

theorem computePartialsLoop_inv {α : Type} [Field α] (ex : α → α) (heap0 : Nat → Node α)
    (rev S : List Nat) (heap : Nat → Node α) (hI : BackwardInv ex heap0 heap S)
    (hnd : (rev.reverse ++ S).Nodup)
    (hdb : ∀ a n b, rev.reverse ++ S = a ++ n :: b → ∀ d ∈ (heap0 n).kind.deps, d ∈ a) :
    BackwardInv ex heap0 (computePartialsLoop ex rev heap) (rev.reverse ++ S) := by
  induction rev generalizing S heap with
  | nil => simpa [computePartialsLoop] using hI
  | cons n rev ih =>
    have e : (n :: rev).reverse ++ S = rev.reverse ++ n :: S := by simp
    rw [e] at hnd hdb ⊢
    rw [computePartialsLoop]
    apply ih (n :: S) _ _ hnd hdb
    apply backwardInv_step ex heap0 heap S n hI
    intro m hm hmd
    have hpre := hdb rev.reverse n S rfl m hmd
    have hmem : m ∈ n :: S := by
      rcases hm with rfl | hm
      · exact List.mem_cons_self _ _
      · exact List.mem_cons_of_mem _ hm
    exact (List.nodup_append.mp hnd).2.2 hpre hmem

theorem ComputePartials_inv {α : Type} [Field α] (ex : α → α) (net : Network α) (cost : Nat)
    (hwf : net.WF) (hov : net.OrderValid) :
    BackwardInv ex (setDcost net.heap cost 1) (net.ComputePartials ex cost).heap net.nodes := by
  have hdb := depsBefore_of_orderValid net hwf hov
  have h0 : BackwardInv ex (setDcost net.heap cost 1) (setDcost net.heap cost 1) [] :=
    ⟨fun _ => rfl, fun _ => rfl, by simp⟩
  have := computePartialsLoop_inv ex (setDcost net.heap cost 1) net.nodes.reverse []
    (setDcost net.heap cost 1) h0 (by simpa using hwf)
    (by
      intro a n b hab d hd
      rw [setDcost_kind] at hd
      exact hdb a n b (by simpa using hab) d hd)
  simpa [Network.ComputePartials] using this

theorem ComputeValues_orderValid {α : Type} [Field α] (ex : α → α) (net : Network α)
    (hwf : net.WF) (hov : net.OrderValid) :
    (net.ComputeValues ex).WF ∧ (net.ComputeValues ex).OrderValid := by
  refine ⟨hwf, ?_⟩
  intro n hn d hd
  have hk := (ComputeValues_inv ex net hwf hov).kind n
  apply hov n hn d
  unfold Network.depsOf at hd ⊢
  rw [← hk]; exact hd

/-! ## Reverse mode against forward mode -/

theorem sum_ite_mul {α : Type} [Field α] (L : List Nat) (hnd : L.Nodup) (a : Nat) (ha : a ∈ L)
    (c : α) (t : Nat → α) :
    (L.map (fun D => (if a = D then c else 0) * t D)).sum = c * t a := by
  induction L with
  | nil => simp at ha
  | cons x L ih =>
    have hx := List.nodup_cons.mp hnd
    rw [List.map_cons, List.sum_cons]
    by_cases hax : a = x
    · subst hax
      have hz : (L.map (fun D => (if a = D then c else 0) * t D)).sum = 0 := by
        apply list_sum_eq_zero
        intro y hy
        obtain ⟨D, hD, rfl⟩ := List.mem_map.mp hy
        have : a ≠ D := fun e => hx.1 (e ▸ hD)
        simp [this]
      rw [hz]; simp
    · have ha' : a ∈ L := by
        rcases List.mem_cons.mp ha with h | h
        · exact absurd h hax
        · exact h
      rw [ih hx.2 ha', if_neg hax]
      simp

theorem dot_pair {α : Type} [Field α] (L : List Nat) (hnd : L.Nodup) (a b : Nat)
    (ha : a ∈ L) (hb : b ∈ L) (x y : α) (t : Nat → α) :
    (L.map (fun D => ((if a = D then x else 0) + (if b = D then y else 0)) * t D)).sum
      = x * t a + y * t b := by
  rw [← sum_ite_mul L hnd a ha x t, ← sum_ite_mul L hnd b hb y t, ← List.sum_map_add]
  congr 1
  apply List.map_congr_left
  intro D _
  ring

theorem dot_terms {α : Type} [Field α] (L : List Nat) (hnd : L.Nodup) (t : Nat → α)
    (terms : List (Nat × Nat)) (hsub : ∀ d ∈ pairList terms, d ∈ L)
    (x y : Nat × Nat → α) :
    (L.map (fun D => (terms.map (fun tm =>
        (if tm.1 = D then x tm else 0) + (if tm.2 = D then y tm else 0))).sum * t D)).sum
      = (terms.map (fun tm => x tm * t tm.1 + y tm * t tm.2)).sum := by
  induction terms with
  | nil => simp
  | cons tm terms ih =>
    have h1 : tm.1 ∈ L := hsub _ (by simp [pairList])
    have h2 : tm.2 ∈ L := hsub _ (by simp [pairList])
    have hsub' : ∀ d ∈ pairList terms, d ∈ L := fun d hd => hsub d (by simp [pairList, hd])
    simp only [List.map_cons, List.sum_cons]
    rw [← ih hsub', ← dot_pair L hnd tm.1 tm.2 h1 h2 (x tm) (y tm) t, ← List.sum_map_add]
    congr 1
    apply List.map_congr_left
    intro D _
    ring

theorem sum_map_add_mul {α : Type} [Field α] (L : List Nat) (f g t : Nat → α) :
    (L.map (fun D => (f D + g D) * t D)).sum =
      (L.map (fun D => f D * t D)).sum + (L.map (fun D => g D * t D)).sum := by
  rw [← List.sum_map_add]
  congr 1
  apply List.map_congr_left
  intro D _
  ring

theorem list_mul_sum {α β : Type} [Field α] (l : List β) (c : α) (f : β → α) :
    c * (l.map f).sum = (l.map (fun x => c * f x)).sum := by
  induction l with
  | nil => simp
  | cons a l ih => simp [mul_add, ih]

/-- What a node pushes, weighted by the tangents of the receivers, is its own
accumulator times its tangent rule. -/
theorem dot_contribution {α : Type} [Field α] (ex : α → α) (heap : Nat → Node α)
    (t : Nat → α) (L : List Nat) (hnd : L.Nodup) (n : Nat)
    (hsub : ∀ d ∈ (heap n).kind.deps, d ∈ L) :
    (L.map (fun D => contribution ex heap n D * t D)).sum =
      if (heap n).kind.isLeaf = true then 0
      else (heap n).dcost * tangentFormula ex heap t n := by
  unfold contribution tangentFormula
  cases hk : (heap n).kind with
  | input => simp [NodeKind.isLeaf]
  | parameter => simp [NodeKind.isLeaf]
  | linearReducer bias terms =>
    rw [hk] at hsub
    simp only [deps_linearReducer, List.mem_cons] at hsub
    have hb : bias ∈ L := hsub bias (Or.inl rfl)
    have hts : ∀ d ∈ pairList terms, d ∈ L := fun d hd => hsub d (Or.inr hd)
    simp only [NodeKind.isLeaf, Bool.false_eq_true, if_false]
    have e := dot_terms L hnd t terms hts
      (fun tm => (heap n).dcost * (heap tm.2).value)
      (fun tm => (heap n).dcost * (heap tm.1).value)
    have e0 := sum_ite_mul L hnd bias hb (heap n).dcost t
    rw [sum_map_add_mul, e0, e, mul_add, list_mul_sum]
    congr 2
    apply List.map_congr_left
    intro tm _
    ring
  | sigmoid x =>
    rw [hk] at hsub
    simp only [deps_sigmoid, List.mem_singleton] at hsub
    simp only [NodeKind.isLeaf, Bool.false_eq_true, if_false]
    rw [sum_ite_mul L hnd x (hsub x rfl)]
    ring
  | squaredError terms =>
    rw [hk] at hsub
    simp only [deps_squaredError] at hsub
    simp only [NodeKind.isLeaf, Bool.false_eq_true, if_false]
    have e := dot_terms L hnd t terms hsub
      (fun tm => (heap n).dcost * 2 * ((heap tm.1).value - (heap tm.2).value))
      (fun tm => (heap n).dcost * 2 * ((heap tm.2).value - (heap tm.1).value))
    rw [e, list_mul_sum]
    congr 1
    apply List.map_congr_left
    intro tm _
    ring

theorem tangentFormula_congr {α : Type} [Field α] (ex : α → α) (h1 h2 : Nat → Node α)
    (t : Nat → α) (n : Nat) (hk : (h1 n).kind = (h2 n).kind)
    (hv : ∀ m, (h1 m).value = (h2 m).value) :
    tangentFormula ex h1 t n = tangentFormula ex h2 t n := by
  unfold tangentFormula
  rw [hk]
  simp only [hv]

theorem isLeaf_deps (k : NodeKind) (h : k.isLeaf = true) : k.deps = [] := by
  cases k <;> simp_all [NodeKind.isLeaf]

/-- The reverse loop keeps the pairing of accumulators with tangents: the
accumulators of the unprocessed nodes paired with their tangents, plus the
accumulator of the parameter once it is processed, stay equal to `T`. -/
theorem computePartialsLoop_dot {α : Type} [Field α] (ex : α → α) (heap0 : Nat → Node α)
    (t : Nat → α) (p : Nat) (T : α) (hp : (heap0 p).kind.isLeaf = true) (htp : t p = 1)
    (rev S : List Nat) (heap : Nat → Node α)
    (hk : ∀ m, (heap m).kind = (heap0 m).kind) (hv : ∀ m, (heap m).value = (heap0 m).value)
    (hnd : (rev.reverse ++ S).Nodup)
    (hdb : ∀ a n b, rev.reverse ++ S = a ++ n :: b → ∀ d ∈ (heap0 n).kind.deps, d ∈ a)
    (hrule : ∀ n ∈ rev.reverse ++ S, (heap0 n).kind.isLeaf = false →
      t n = tangentFormula ex heap0 t n)
    (hleaf : ∀ n ∈ rev.reverse ++ S, (heap0 n).kind.isLeaf = true → n ≠ p → t n = 0)
    (hinv : (rev.reverse.map (fun j => (heap j).dcost * t j)).sum +
      (if p ∈ S then (heap p).dcost else 0) = T) :
    (if p ∈ rev.reverse ++ S then (computePartialsLoop ex rev heap p).dcost else 0) = T := by
  induction rev generalizing S heap with
  | nil => simpa [computePartialsLoop] using hinv
  | cons n rev ih =>
    have e : (n :: rev).reverse ++ S = rev.reverse ++ n :: S := by simp
    rw [e] at hnd hdb hrule hleaf ⊢
    rw [computePartialsLoop]
    have hndp := List.nodup_append.mp hnd
    have hdn : ∀ d ∈ (heap0 n).kind.deps, d ∈ rev.reverse := hdb rev.reverse n S rfl
    have hnot : ∀ m, m ∈ n :: S → m ∉ (heap0 n).kind.deps :=
      fun m hm hmd => hndp.2.2 (hdn m hmd) hm
    have hself : n ∉ (heap n).kind.deps := by
      rw [hk]; exact hnot n (List.mem_cons_self n S)
    have hnS : n ∉ S := (List.nodup_cons.mp hndp.2.1).1
    have hnmem : n ∈ rev.reverse ++ n :: S := by simp
    apply ih (n :: S) (PushPartial ex heap n)
    · intro m; rw [(PushPartial_frame ex heap n m).1, hk]
    · intro m; rw [(PushPartial_frame ex heap n m).2, hv]
    · exact hnd
    · exact hdb
    · exact hrule
    · exact hleaf
    · have hsum : (rev.reverse.map (fun j => (PushPartial ex heap n j).dcost * t j)).sum =
          (rev.reverse.map (fun j => (heap j).dcost * t j)).sum +
          (rev.reverse.map (fun j => contribution ex heap n j * t j)).sum := by
        rw [← sum_map_add_mul]
        congr 1
        apply List.map_congr_left
        intro j _
        rw [PushPartial_dcost ex heap n hself]
      have hdot := dot_contribution ex heap t rev.reverse hndp.1 n
        (by rw [hk]; exact hdn)
      have hold : (rev.reverse.map (fun j => (heap j).dcost * t j)).sum +
          (heap n).dcost * t n + (if p ∈ S then (heap p).dcost else 0) = T := by
        rw [← hinv]
        simp [List.map_append, List.sum_append]
      have hpd : ∀ (_ : p ∈ n :: S), (PushPartial ex heap n p).dcost = (heap p).dcost := by
        intro hpm
        rw [PushPartial_dcost ex heap n hself, contribution_eq_zero, add_zero]
        rw [hk]; exact hnot p hpm
      rw [hsum, hdot, hk]
      by_cases hl : (heap0 n).kind.isLeaf = true
      · rw [if_pos hl, add_zero]
        by_cases hnp : n = p
        · subst hnp
          rw [if_pos (List.mem_cons_self n S), hpd (List.mem_cons_self n S)]
          rw [if_neg hnS, htp] at hold
          rw [← hold]; ring
        · have ht0 := hleaf n hnmem hl hnp
          rw [ht0] at hold
          by_cases hpS : p ∈ S
          · rw [if_pos (List.mem_cons_of_mem n hpS), hpd (List.mem_cons_of_mem n hpS)]
            rw [if_pos hpS] at hold
            rw [← hold]; ring
          · have : p ∉ n :: S := by
              intro h
              rcases List.mem_cons.mp h with h | h
              · exact hnp h.symm
              · exact hpS h
            rw [if_neg this]
            rw [if_neg hpS] at hold
            rw [← hold]; ring
      · have hl' : (heap0 n).kind.isLeaf = false := by
          cases h : (heap0 n).kind.isLeaf
          · rfl
          · exact absurd h hl
        rw [if_neg hl]
        have htn := hrule n hnmem hl'
        have hcong := tangentFormula_congr ex heap heap0 t n (hk n) hv
        rw [hcong, ← htn]
        have hnp : n ≠ p := by
          rintro rfl
          rw [hp] at hl'
          exact absurd hl' (by simp)
        by_cases hpS : p ∈ S
        · rw [if_pos (List.mem_cons_of_mem n hpS), hpd (List.mem_cons_of_mem n hpS)]
          rw [if_pos hpS] at hold
          rw [← hold]
        · have : p ∉ n :: S := by
            intro h
            rcases List.mem_cons.mp h with h | h
            · exact hnp h.symm
            · exact hpS h
          rw [if_neg this]
          rw [if_neg hpS] at hold
          rw [← hold]

/-- Reverse mode equals forward mode: if `t` is a tangent of the forward values
(1 at the parameter `p`, 0 at the other inputs and parameters, and the tangent
rule at every other stored node), the accumulator of `p` after both passes is
the tangent of the cost node. -/
theorem reverse_eq_forward {α : Type} [Field α] (ex : α → α) (net : Network α)
    (cost p : Nat) (t : Nat → α) (hwf : net.WF) (hov : net.OrderValid)
    (hp : p ∈ net.nodes) (hpl : (net.heap p).kind.isLeaf = true) (htp : t p = 1)
    (hrule : ∀ n ∈ net.nodes, (net.heap n).kind.isLeaf = false →
      t n = tangentFormula ex (net.ComputeValues ex).heap t n)
    (hleaf : ∀ n ∈ net.nodes, (net.heap n).kind.isLeaf = true → n ≠ p → t n = 0) :
    (((net.ComputeValues ex).ComputePartials ex cost).heap p).dcost =
      if cost ∈ net.nodes then t cost else 0 := by
  have hF := ComputeValues_inv ex net hwf hov
  have hdb := depsBefore_of_orderValid net hwf hov
  have hk0 : ∀ m, (setDcost (net.ComputeValues ex).heap cost 1 m).kind = (net.heap m).kind := by
    intro m; rw [setDcost_kind, hF.kind]
  have key := computePartialsLoop_dot ex (setDcost (net.ComputeValues ex).heap cost 1) t p
    (if cost ∈ net.nodes then t cost else 0) (by rw [hk0]; exact hpl) htp
    net.nodes.reverse [] (setDcost (net.ComputeValues ex).heap cost 1)
    (fun _ => rfl) (fun _ => rfl) (by simpa using hwf)
    (by
      intro a n b hab d hd
      rw [hk0] at hd
      exact hdb a n b (by simpa using hab) d hd)
    (by
      intro n hn hl
      rw [hk0] at hl
      have hn' : n ∈ net.nodes := by simpa using hn
      rw [hrule n hn' hl]
      apply tangentFormula_congr
      · simp
      · intro m; simp)
    (by
      intro n hn hl hnp
      rw [hk0] at hl
      exact hleaf n (by simpa using hn) hl hnp)
    (by
      simp only [List.reverse_reverse, List.not_mem_nil, if_false, add_zero]
      have hmap : net.nodes.map
          (fun j => (setDcost (net.ComputeValues ex).heap cost 1 j).dcost * t j)
          = net.nodes.map (fun j => (if cost = j then (1 : α) else 0) * t j) := by
        apply List.map_congr_left
        intro j hj
        by_cases hc : cost = j
        · subst hc; simp
        · rw [setDcost_dcost_ne _ _ (fun e => hc e.symm), (hF.done j hj).1, if_neg hc]
      rw [hmap]
      by_cases hc : cost ∈ net.nodes
      · rw [if_pos hc, sum_ite_mul net.nodes hwf cost hc 1 t, one_mul]
      · rw [if_neg hc]
        apply list_sum_eq_zero
        intro x hx
        obtain ⟨j, hj, rfl⟩ := List.mem_map.mp hx
        have : cost ≠ j := fun e => hc (e ▸ hj)
        simp [this])
  have hmem : p ∈ net.nodes.reverse.reverse ++ [] := by simpa using hp
  rw [if_pos hmem] at key
  exact key

/-! ## Derivatives of the value formulas (real scalars) -/

theorem hasDerivAt_list_sum {β : Type} (l : List β) (g : β → ℝ → ℝ) (g' : β → ℝ) (x0 : ℝ)
    (h : ∀ b ∈ l, HasDerivAt (g b) (g' b) x0) :
    HasDerivAt (fun x => (l.map (fun b => g b x)).sum) ((l.map g').sum) x0 := by
  induction l with
  | nil => simpa using hasDerivAt_const x0 (0 : ℝ)
  | cons b l ih =>
    simp only [List.map_cons, List.sum_cons]
    exact (h b (List.mem_cons_self b l)).add (ih (fun c hc => h c (List.mem_cons_of_mem b hc)))

theorem hasDerivAt_sigmoid (u : ℝ → ℝ) (u' x0 : ℝ) (h : HasDerivAt u u' x0) :
    HasDerivAt (fun x => 1 / (1 + Real.exp (-(u x))))
      (u' * (Real.exp (u x0) / (1 + Real.exp (u x0)) ^ 2)) x0 := by
  have h1 : HasDerivAt (fun x => 1 + Real.exp (-(u x))) (Real.exp (-(u x0)) * -u') x0 :=
    (h.neg.exp).const_add 1
  have hpos : 1 + Real.exp (-(u x0)) ≠ 0 := by
    have := Real.exp_pos (-(u x0))
    linarith
  have h2 := (hasDerivAt_const x0 (1 : ℝ)).div h1 hpos
  refine h2.congr_deriv ?_
  have he : Real.exp (-(u x0)) = (Real.exp (u x0))⁻¹ := Real.exp_neg _
  have hp := Real.exp_pos (u x0)
  have hne : Real.exp (u x0) ≠ 0 := ne_of_gt hp
  have hne2 : 1 + Real.exp (u x0) ≠ 0 := by linarith
  have hne3 : 1 + (Real.exp (u x0))⁻¹ ≠ 0 := by rw [← he]; exact hpos
  rw [he]
  field_simp
  ring

theorem hasDerivAt_sq_sub (a b : ℝ → ℝ) (a' b' x0 : ℝ) (ha : HasDerivAt a a' x0)
    (hb : HasDerivAt b b' x0) :
    HasDerivAt (fun x => (a x - b x) ^ 2) (2 * (a x0 - b x0) * (a' - b')) x0 := by
  have := (ha.sub hb).pow 2
  simpa using this

theorem hasDerivAt_valueFormula (H : ℝ → Nat → Node ℝ) (K : NodeKind) (n : Nat) (x0 : ℝ)
    (t : Nat → ℝ) (hk : ∀ x, (H x n).kind = K) (hnl : K.isLeaf = false)
    (hd : ∀ d ∈ K.deps, HasDerivAt (fun x => (H x d).value) (t d) x0) :
    HasDerivAt (fun x => valueFormula Real.exp (H x) n)
      (tangentFormula Real.exp (H x0) t n) x0 := by
  unfold tangentFormula
  simp only [valueFormula, hk]
  cases K with
  | input => simp [NodeKind.isLeaf] at hnl
  | parameter => simp [NodeKind.isLeaf] at hnl
  | linearReducer bias terms =>
    simp only [deps_linearReducer, List.mem_cons] at hd
    simp only
    apply (hd bias (Or.inl rfl)).add
    apply hasDerivAt_list_sum terms
      (fun tm x => (H x tm.1).value * (H x tm.2).value)
      (fun tm => t tm.1 * (H x0 tm.2).value + (H x0 tm.1).value * t tm.2)
    intro tm htm
    exact (hd tm.1 (Or.inr ((mem_pairList terms _).mpr ⟨tm, htm, Or.inl rfl⟩))).mul
      (hd tm.2 (Or.inr ((mem_pairList terms _).mpr ⟨tm, htm, Or.inr rfl⟩)))
  | sigmoid inp =>
    simp only [deps_sigmoid, List.mem_singleton] at hd
    simp only
    exact hasDerivAt_sigmoid (fun x => (H x inp).value) (t inp) x0 (hd inp rfl)
  | squaredError terms =>
    simp only [deps_squaredError] at hd
    simp only
    apply hasDerivAt_list_sum terms
      (fun tm x => ((H x tm.1).value - (H x tm.2).value) ^ 2)
      (fun tm => 2 * ((H x0 tm.1).value - (H x0 tm.2).value) * (t tm.1 - t tm.2))
    intro tm htm
    exact hasDerivAt_sq_sub _ _ _ _ x0
      (hd tm.1 ((mem_pairList terms _).mpr ⟨tm, htm, Or.inl rfl⟩))
      (hd tm.2 ((mem_pairList terms _).mpr ⟨tm, htm, Or.inr rfl⟩))

theorem withValue_inv (net : Network ℝ) (p : Nat) (hwf : net.WF) (hov : net.OrderValid)
    (x : ℝ) :
    ForwardInv Real.exp (setValue net.heap p x)
      ((net.withValue p x).ComputeValues Real.exp).heap net.nodes := by
  have hwf' : (net.withValue p x).WF := hwf
  have hov' : (net.withValue p x).OrderValid := by
    intro n hn d hd
    apply hov n hn d
    unfold Network.depsOf Network.withValue at hd
    rw [setValue_kind] at hd
    exact hd
  exact ComputeValues_inv Real.exp (net.withValue p x) hwf' hov'

/-- Forward mode: every stored value is a differentiable function of the
value given to the parameter `p`, and the derivatives obey the tangent rules. -/
theorem forward_tangent (net : Network ℝ) (p : Nat) (x0 : ℝ) (hwf : net.WF)
    (hov : net.OrderValid) (pre rest : List Nat) (hsplit : net.nodes = pre ++ rest) :
    ∀ n ∈ pre,
      HasDerivAt (fun x => (((net.withValue p x).ComputeValues Real.exp).heap n).value)
        (deriv (fun x => (((net.withValue p x).ComputeValues Real.exp).heap n).value) x0) x0 ∧
      ((net.heap n).kind.isLeaf = true →
        deriv (fun x => (((net.withValue p x).ComputeValues Real.exp).heap n).value) x0
          = if n = p then 1 else 0) ∧
      ((net.heap n).kind.isLeaf = false →
        deriv (fun x => (((net.withValue p x).ComputeValues Real.exp).heap n).value) x0
          = tangentFormula Real.exp ((net.withValue p x0).ComputeValues Real.exp).heap
            (fun m => deriv
              (fun x => (((net.withValue p x).ComputeValues Real.exp).heap m).value) x0) n) := by
  induction pre using List.reverseRecOn generalizing rest with
  | nil => simp
  | append_singleton pre n ih =>
    intro m hm
    have hsplit' : net.nodes = pre ++ n :: rest := by rw [hsplit]; simp
    rcases List.mem_append.mp hm with hm | hm
    · exact ih (n :: rest) hsplit' m hm
    · rw [List.mem_singleton.mp hm]
      have hn : n ∈ net.nodes := by rw [hsplit']; simp
      have hI := withValue_inv net p hwf hov
      have hkind : ∀ x, (((net.withValue p x).ComputeValues Real.exp).heap n).kind
          = (net.heap n).kind := by
        intro x; rw [(hI x).kind, setValue_kind]
      by_cases hl : (net.heap n).kind.isLeaf = true
      · have hfun : (fun x => (((net.withValue p x).ComputeValues Real.exp).heap n).value)
            = fun x => if n = p then x else (net.heap n).value := by
          funext x
          rw [(hI x).leaf n (by rw [setValue_kind]; exact hl)]
          by_cases hnp : n = p
          · subst hnp; simp
          · rw [setValue_value_ne _ _ hnp, if_neg hnp]
        have hder : HasDerivAt
            (fun x => (((net.withValue p x).ComputeValues Real.exp).heap n).value)
            (if n = p then 1 else 0) x0 := by
          rw [hfun]
          by_cases hnp : n = p
          · simp only [hnp, if_true]
            exact hasDerivAt_id x0
          · simp only [hnp, if_false]
            exact hasDerivAt_const x0 _
        refine ⟨?_, fun _ => hder.deriv, fun h => ?_⟩
        · rw [hder.deriv]; exact hder
        · rw [hl] at h; exact absurd h (by simp)
      · have hl' : (net.heap n).kind.isLeaf = false := by
          cases h : (net.heap n).kind.isLeaf
          · rfl
          · exact absurd h hl
        have hdeps : ∀ d ∈ (net.heap n).kind.deps, d ∈ pre :=
          depsBefore_of_orderValid net hwf hov pre n rest hsplit'
        have hfun : (fun x => (((net.withValue p x).ComputeValues Real.exp).heap n).value)
            = fun x => valueFormula Real.exp
              ((net.withValue p x).ComputeValues Real.exp).heap n := by
          funext x
          exact ((hI x).done n hn).2
        have hder := hasDerivAt_valueFormula
          (fun x => ((net.withValue p x).ComputeValues Real.exp).heap) (net.heap n).kind n x0
          (fun m => deriv
            (fun x => (((net.withValue p x).ComputeValues Real.exp).heap m).value) x0)
          hkind hl' (fun d hd => (ih (n :: rest) hsplit' d (hdeps d hd)).1)
        rw [← hfun] at hder
        refine ⟨?_, fun h => ?_, fun _ => hder.deriv⟩
        · rw [hder.deriv]; exact hder
        · rw [hl'] at h; exact absurd h (by simp)

theorem centered_difference_tendsto (f : ℝ → ℝ) (f' x0 : ℝ) (h : HasDerivAt f f' x0) :
    Filter.Tendsto (fun ε => (f (x0 + ε) - f (x0 - ε)) / (2 * ε)) (nhdsWithin 0 {0}ᶜ)
      (nhds f') := by
  have h1 := hasDerivAt_iff_tendsto_slope_zero.mp h
  have hneg : Filter.Tendsto (fun ε : ℝ => -ε) (nhdsWithin 0 {0}ᶜ) (nhdsWithin 0 {0}ᶜ) := by
    apply tendsto_nhdsWithin_of_tendsto_nhds_of_eventually_within
    · have : Filter.Tendsto (fun ε : ℝ => -ε) (nhds 0) (nhds (-0)) := (continuous_neg.tendsto 0)
      rw [neg_zero] at this
      exact this.mono_left nhdsWithin_le_nhds
    · filter_upwards [self_mem_nhdsWithin] with ε hε
      simpa using hε
  have h2 := h1.comp hneg
  have h3 := (h1.add h2).div_const 2
  have e : (f' + f') / 2 = f' := by ring
  rw [e] at h3
  refine h3.congr' ?_
  filter_upwards [self_mem_nhdsWithin] with ε hε
  have hε' : ε ≠ 0 := by simpa using hε
  simp only [Function.comp, smul_eq_mul, Pi.add_apply]
  rw [inv_neg, ← sub_eq_add_neg]
  generalize f (x0 + ε) = A
  generalize f (x0 - ε) = B
  generalize f x0 = C
  rw [div_eq_div_iff (by norm_num) (mul_ne_zero (by norm_num) hε')]
  have : ε⁻¹ * ε = 1 := inv_mul_cancel₀ hε'
  calc (ε⁻¹ * (A - C) + -ε⁻¹ * (B - C)) * (2 * ε)
      = (ε⁻¹ * ε) * (2 * (A - B)) := by ring
    _ = (A - B) * 2 := by rw [this]; ring

theorem withValue_self {α : Type} (net : Network α) (p : Nat) :
    net.withValue p (net.heap p).value = net := by
  cases net
  simp [Network.withValue, setValue_self]

theorem gradient_hasDerivAt (net : Network ℝ) (cost p : Nat) (hwf : net.WF)
    (hov : net.OrderValid) (hp : p ∈ net.nodes)
    (hpk : (net.heap p).kind = NodeKind.parameter) :
    HasDerivAt (fun x => (((net.withValue p x).ComputeValues Real.exp).heap cost).value)
      (((net.ComputeValues Real.exp).ComputePartials Real.exp cost).heap p).dcost
      (net.heap p).value := by
  have hpl : (net.heap p).kind.isLeaf = true := by rw [hpk]; rfl
  have hft := forward_tangent net p (net.heap p).value hwf hov net.nodes [] (by simp)
  have hH0 : ((net.withValue p (net.heap p).value).ComputeValues Real.exp).heap
      = (net.ComputeValues Real.exp).heap := by rw [withValue_self]
  have hacc := reverse_eq_forward Real.exp net cost p
    (fun m => deriv
      (fun x => (((net.withValue p x).ComputeValues Real.exp).heap m).value)
      (net.heap p).value) hwf hov hp hpl
    (by
      have := (hft p hp).2.1 hpl
      rw [if_pos rfl] at this
      exact this)
    (by
      intro n hn hl
      rw [← hH0]
      exact (hft n hn).2.2 hl)
    (by
      intro n hn hl hnp
      have := (hft n hn).2.1 hl
      rw [if_neg hnp] at this
      exact this)
  rw [hacc]
  by_cases hc : cost ∈ net.nodes
  · rw [if_pos hc]
    exact (hft cost hc).1
  · rw [if_neg hc]
    have hcp : cost ≠ p := fun e => hc (e ▸ hp)
    have hfun : (fun x => (((net.withValue p x).ComputeValues Real.exp).heap cost).value)
        = fun _ => (net.heap cost).value := by
      funext x
      rw [(withValue_inv net p hwf hov x).rest cost hc, setValue_value_ne _ _ hcp]
    rw [hfun]
    exact hasDerivAt_const _ _

/-! ## The claim about gradients -/

/-- C10 (gradient correctness): over the reals, on a graph whose stored order
places every dependency before its dependents, after `ComputeValues` followed
by `ComputePartials(cost)` the accumulator of every stored parameter node `p`
is the derivative of the cost node's value as a function of the value of `p`
(all other inputs and parameters fixed), and hence the limit, as `ε` tends to
0, of the centered finite-difference estimate
`(f (p + ε) - f (p - ε)) / (2 ε)`. -/
theorem ComputePartials_gradient (net : Network ℝ) (cost p : Nat) (hwf : net.WF)
    (hov : net.OrderValid) (hp : p ∈ net.nodes)
    (hpk : (net.heap p).kind = NodeKind.parameter) :
    HasDerivAt (fun x => (((net.withValue p x).ComputeValues Real.exp).heap cost).value)
      (((net.ComputeValues Real.exp).ComputePartials Real.exp cost).heap p).dcost
      (net.heap p).value ∧
    Filter.Tendsto
      (fun ε =>
        ((((net.withValue p ((net.heap p).value + ε)).ComputeValues Real.exp).heap cost).value -
          (((net.withValue p ((net.heap p).value - ε)).ComputeValues Real.exp).heap cost).value)
          / (2 * ε))
      (nhdsWithin 0 {0}ᶜ)
      (nhds (((net.ComputeValues Real.exp).ComputePartials Real.exp cost).heap p).dcost) := by
  have h := gradient_hasDerivAt net cost p hwf hov hp hpk
  exact ⟨h, centered_difference_tendsto
    (fun x => (((net.withValue p x).ComputeValues Real.exp).heap cost).value) _ _ h⟩

theorem ComputePartials_gradient_witness :
    (sigmoidNet ℝ).WF ∧ (sigmoidNet ℝ).OrderValid ∧ 1 ∈ (sigmoidNet ℝ).nodes ∧
    ((sigmoidNet ℝ).heap 1).kind = NodeKind.parameter ∧
    (HasDerivAt
      (fun x => ((((sigmoidNet ℝ).withValue 1 x).ComputeValues Real.exp).heap 4).value)
      ((((sigmoidNet ℝ).ComputeValues Real.exp).ComputePartials Real.exp 4).heap 1).dcost
      (((sigmoidNet ℝ).heap 1).value) ∧
    Filter.Tendsto
      (fun ε =>
        (((((sigmoidNet ℝ).withValue 1 ((((sigmoidNet ℝ).heap 1).value) + ε)).ComputeValues
            Real.exp).heap 4).value -
          ((((sigmoidNet ℝ).withValue 1 ((((sigmoidNet ℝ).heap 1).value) - ε)).ComputeValues
            Real.exp).heap 4).value) / (2 * ε))
      (nhdsWithin 0 {0}ᶜ)
      (nhds ((((sigmoidNet ℝ).ComputeValues Real.exp).ComputePartials Real.exp 4).heap
        1).dcost)) :=
  ⟨by decide, by decide, by decide, rfl,
    ComputePartials_gradient (sigmoidNet ℝ) 4 1 (by decide) (by decide) (by decide) rfl⟩

/-! ## The concrete scenario `y = sigmoid (w * x + b)` -/

theorem sigmoidNet_forward :
    (((sigmoidNet ℝ).ComputeValues Real.exp).heap 0).value = 1 ∧
    (((sigmoidNet ℝ).ComputeValues Real.exp).heap 3).value = 1 / 2 ∧
    (((sigmoidNet ℝ).ComputeValues Real.exp).heap 4).value = 1 / (1 + Real.exp (-(1 / 2))) := by
  have hwf : (sigmoidNet ℝ).WF := by decide
  have hov : (sigmoidNet ℝ).OrderValid := by decide
  have hI := ComputeValues_inv Real.exp (sigmoidNet ℝ) hwf hov
  have h0 : (((sigmoidNet ℝ).ComputeValues Real.exp).heap 0).value = 1 := hI.leaf 0 rfl
  have h1 : (((sigmoidNet ℝ).ComputeValues Real.exp).heap 1).value = 1 / 2 := hI.leaf 1 rfl
  have h2 : (((sigmoidNet ℝ).ComputeValues Real.exp).heap 2).value = 0 := hI.leaf 2 rfl
  have h3 := (hI.done 3 (by decide)).2
  have k3 : (((sigmoidNet ℝ).ComputeValues Real.exp).heap 3).kind = .linearReducer 2 [(0, 1)] :=
    hI.kind 3
  have h4 := (hI.done 4 (by decide)).2
  have k4 : (((sigmoidNet ℝ).ComputeValues Real.exp).heap 4).kind = .sigmoid 3 := hI.kind 4
  unfold valueFormula at h3 h4
  rw [k3] at h3
  rw [k4] at h4
  simp only [List.map_cons, List.map_nil, List.sum_cons, List.sum_nil, h0, h1, h2] at h3
  have h3' : (((sigmoidNet ℝ).ComputeValues Real.exp).heap 3).value = 1 / 2 := by
    rw [h3]; ring
  simp only [h3'] at h4
  exact ⟨h0, h3', h4⟩

theorem sigmoidNet_backward :
    ((((sigmoidNet ℝ).ComputeValues Real.exp).ComputePartials Real.exp 4).heap 4).value =
      1 / (1 + Real.exp (-(1 / 2))) ∧
    ((((sigmoidNet ℝ).ComputeValues Real.exp).ComputePartials Real.exp 4).heap 0).value = 1 ∧
    ((((sigmoidNet ℝ).ComputeValues Real.exp).ComputePartials Real.exp 4).heap 1).dcost =
      Real.exp (1 / 2) / (1 + Real.exp (1 / 2)) ^ 2 := by
  have hwf : (sigmoidNet ℝ).WF := by decide
  have hov : (sigmoidNet ℝ).OrderValid := by decide
  obtain ⟨f0, f3, f4⟩ := sigmoidNet_forward
  have hF := ComputeValues_inv Real.exp (sigmoidNet ℝ) hwf hov
  obtain ⟨hwf1, hov1⟩ := ComputeValues_orderValid Real.exp (sigmoidNet ℝ) hwf hov
  have hB := ComputePartials_inv Real.exp ((sigmoidNet ℝ).ComputeValues Real.exp) 4 hwf1 hov1
  have hk : ∀ m, ((((sigmoidNet ℝ).ComputeValues Real.exp).ComputePartials Real.exp 4).heap m).kind
      = ((sigmoidNet ℝ).heap m).kind := by
    intro m; rw [hB.kind, setDcost_kind, hF.kind]
  have hv : ∀ m, ((((sigmoidNet ℝ).ComputeValues Real.exp).ComputePartials Real.exp 4).heap m).value
      = (((sigmoidNet ℝ).ComputeValues Real.exp).heap m).value := by
    intro m; rw [hB.value, setDcost_value]
  have k0 : ((sigmoidNet ℝ).heap 0).kind = .input := rfl
  have k1 : ((sigmoidNet ℝ).heap 1).kind = .parameter := rfl
  have k2 : ((sigmoidNet ℝ).heap 2).kind = .parameter := rfl
  have k3 : ((sigmoidNet ℝ).heap 3).kind = .linearReducer 2 [(0, 1)] := rfl
  have k4 : ((sigmoidNet ℝ).heap 4).kind = .sigmoid 3 := rfl
  have hnodes : ((sigmoidNet ℝ).ComputeValues Real.exp).nodes = [1, 0, 2, 3, 4] := rfl
  have d4 := hB.acc 4
  have d3 := hB.acc 3
  have d1 := hB.acc 1
  rw [hnodes] at d4 d3 d1
  simp only [contribution, hk, k0, k1, k2, k3, k4, List.map_cons, List.map_nil, List.sum_cons,
    List.sum_nil, hv, f0, f3, setDcost_dcost_self] at d4 d3 d1
  rw [setDcost_dcost_ne _ _ (by decide), (hF.done 3 (by decide)).1] at d3
  rw [setDcost_dcost_ne _ _ (by decide), (hF.done 1 (by decide)).1] at d1
  norm_num at d4 d3 d1
  refine ⟨by rw [hv, f4], by rw [hv, f0], ?_⟩
  rw [d1, d3, d4]
  ring

theorem exp_neg_half_bounds :
    (606530659 : ℝ) / 1000000000 ≤ Real.exp (-(1 / 2)) ∧
    Real.exp (-(1 / 2)) ≤ (606530660 : ℝ) / 1000000000 := by
  have hx : |(-(1 / 2) : ℝ)| ≤ 1 := by
    rw [abs_neg, abs_of_pos (by norm_num : (0 : ℝ) < 1 / 2)]; norm_num
  have h := @Real.exp_bound (-(1 / 2 : ℝ)) hx 12 (by norm_num)
  simp only [Finset.sum_range_succ, Finset.sum_range_zero, Nat.factorial] at h
  have habs : |(-(1 / 2) : ℝ)| = 1 / 2 := by rw [abs_neg]; exact abs_of_pos (by norm_num)
  rw [habs] at h
  norm_num at h
  rw [abs_le] at h
  constructor <;> linarith [h.1, h.2]

theorem sigmoid_half_bounds :
    |1 / (1 + Real.exp (-(1 / 2))) - (6224593312 : ℝ) / 10000000000| ≤ 1 / 1000000000 ∧
    |1 * (1 / (1 + Real.exp (-(1 / 2)))) * (1 - 1 / (1 + Real.exp (-(1 / 2)))) -
      (2350037122 : ℝ) / 10000000000| ≤ 1 / 1000000000 := by
  obtain ⟨hl, hu⟩ := exp_neg_half_bounds
  have hpos : (0 : ℝ) < 1 + Real.exp (-(1 / 2)) := by linarith
  have hy1 : (62245933109 : ℝ) / 100000000000 ≤ 1 / (1 + Real.exp (-(1 / 2))) := by
    rw [le_div_iff₀ hpos]; linarith
  have hy2 : 1 / (1 + Real.exp (-(1 / 2))) ≤ (62245933148 : ℝ) / 100000000000 := by
    rw [div_le_iff₀ hpos]; linarith
  generalize 1 / (1 + Real.exp (-(1 / 2))) = y at hy1 hy2 ⊢
  constructor
  · rw [abs_le]; constructor <;> linarith
  · rw [abs_le]; constructor <;> nlinarith

theorem sigmoid_identity_half :
    Real.exp (1 / 2) / (1 + Real.exp (1 / 2)) ^ 2 =
      1 * (1 / (1 + Real.exp (-(1 / 2)))) * (1 - 1 / (1 + Real.exp (-(1 / 2)))) := by
  have he : Real.exp (-(1 / 2)) = (Real.exp (1 / 2))⁻¹ := Real.exp_neg _
  have hp := Real.exp_pos (1 / 2)
  rw [he]
  have h1 : 1 + Real.exp (1 / 2) ≠ 0 := by linarith
  have h2 : Real.exp (1 / 2) ≠ 0 := ne_of_gt hp
  have h3 : 1 + (Real.exp (1 / 2))⁻¹ ≠ 0 := by
    have : 0 < (Real.exp (1 / 2))⁻¹ := inv_pos.mpr hp
    linarith
  field_simp
  ring

/-- C11 (concrete scenario): for `x = 1`, `w = 1/2`, `b = 0`, the reducer
`b + x * w` and `y` its sigmoid, `TopoSort` installs an order and, after
`ComputeValues` and `ComputePartials(y)` over the reals, `y.value` is
`1 / (1 + exp (-1/2))`, within `1e-9` of `0.6224593312`, and the accumulator of
`w` is `x.value * y.value * (1 - y.value)`, within `1e-9` of `0.2350037122`. -/
theorem sigmoid_scenario :
    (sigmoidBuilt ℝ).TopoSort 5 = some (TopoDiag.installed, sigmoidNet ℝ) ∧
    ((((sigmoidNet ℝ).ComputeValues Real.exp).ComputePartials Real.exp 4).heap 4).value =
      1 / (1 + Real.exp (-(1 / 2))) ∧
    |((((sigmoidNet ℝ).ComputeValues Real.exp).ComputePartials Real.exp 4).heap 4).value -
      (6224593312 : ℝ) / 10000000000| ≤ 1 / 1000000000 ∧
    ((((sigmoidNet ℝ).ComputeValues Real.exp).ComputePartials Real.exp 4).heap 1).dcost =
      ((((sigmoidNet ℝ).ComputeValues Real.exp).ComputePartials Real.exp 4).heap 0).value *
      ((((sigmoidNet ℝ).ComputeValues Real.exp).ComputePartials Real.exp 4).heap 4).value *
      (1 - ((((sigmoidNet ℝ).ComputeValues Real.exp).ComputePartials Real.exp 4).heap 4).value) ∧
    |((((sigmoidNet ℝ).ComputeValues Real.exp).ComputePartials Real.exp 4).heap 1).dcost -
      (2350037122 : ℝ) / 10000000000| ≤ 1 / 1000000000 := by
  obtain ⟨b4, b0, b1⟩ := sigmoidNet_backward
  obtain ⟨n1, n2⟩ := sigmoid_half_bounds
  refine ⟨rfl, b4, ?_, ?_, ?_⟩
  · rw [b4]; exact n1
  · rw [b1, b0, b4]; exact sigmoid_identity_half
  · rw [b1, sigmoid_identity_half]; exact n2


/-! ## `UpdateParameters` -/

theorem updateLoop_frame {α : Type} [Field α] (lr : α) (ps : List Nat) (heap : Nat → Node α)
    (m : Nat) :
    (updateLoop lr ps heap m).kind = (heap m).kind ∧
    (updateLoop lr ps heap m).dcost = (heap m).dcost ∧
    (m ∉ ps → (updateLoop lr ps heap m).value = (heap m).value) := by
  induction ps generalizing heap with
  | nil => exact ⟨rfl, rfl, fun _ => rfl⟩
  | cons p ps ih =>
    rw [updateLoop]
    obtain ⟨h1, h2, h3⟩ := ih (setValue heap p ((heap p).value - lr * (heap p).dcost))
    refine ⟨by rw [h1, setValue_kind], by rw [h2, setValue_dcost], fun hm => ?_⟩
    have hmp : m ≠ p := fun e => hm (by simp [e])
    have hmps : m ∉ ps := fun e => hm (List.mem_cons_of_mem p e)
    rw [h3 hmps, setValue_value_ne _ _ hmp]

theorem updateLoop_value {α : Type} [Field α] (lr : α) (ps : List Nat) (heap : Nat → Node α)
    (hnd : ps.Nodup) (p : Nat) (hp : p ∈ ps) :
    (updateLoop lr ps heap p).value = (heap p).value - lr * (heap p).dcost := by
  induction ps generalizing heap with
  | nil => simp at hp
  | cons q ps ih =>
    have hq := List.nodup_cons.mp hnd
    rw [updateLoop]
    rcases List.mem_cons.mp hp with rfl | hp'
    · rw [(updateLoop_frame lr ps _ p).2.2 hq.1, setValue_value_self]
    · have hpq : p ≠ q := fun e => hq.1 (e ▸ hp')
      rw [ih _ hq.2 hp', setValue_value_ne _ _ hpq, setValue_dcost]

/-- C12 (gradient-descent update): with the trainable list free of duplicates
(each `ParameterNode` registers itself once), after `UpdateParameters(r)` the
value of every trainable parameter is its previous value minus `r` times its
accumulator, and the value of every other node, every accumulator and class,
the stored order and the trainable list are unchanged. -/
theorem UpdateParameters_spec {α : Type} [Field α] (net : Network α) (r : α)
    (hnd : net.parameters.Nodup) :
    (∀ p ∈ net.parameters,
      ((net.UpdateParameters r).heap p).value = (net.heap p).value - r * (net.heap p).dcost) ∧
    (∀ n, n ∉ net.parameters → ((net.UpdateParameters r).heap n).value = (net.heap n).value) ∧
    (∀ n, ((net.UpdateParameters r).heap n).dcost = (net.heap n).dcost ∧
      ((net.UpdateParameters r).heap n).kind = (net.heap n).kind) ∧
    (net.UpdateParameters r).nodes = net.nodes ∧
    (net.UpdateParameters r).parameters = net.parameters := by
  refine ⟨fun p hp => updateLoop_value r net.parameters net.heap hnd p hp,
    fun n hn => (updateLoop_frame r net.parameters net.heap n).2.2 hn,
    fun n => ⟨(updateLoop_frame r net.parameters net.heap n).2.1,
      (updateLoop_frame r net.parameters net.heap n).1⟩, rfl, rfl⟩

theorem UpdateParameters_spec_witness :
    twoLayerSorted.parameters.Nodup ∧
    ((∀ p ∈ twoLayerSorted.parameters,
      ((twoLayerSorted.UpdateParameters 2).heap p).value =
        (twoLayerSorted.heap p).value - 2 * (twoLayerSorted.heap p).dcost) ∧
    (∀ n, n ∉ twoLayerSorted.parameters →
      ((twoLayerSorted.UpdateParameters 2).heap n).value = (twoLayerSorted.heap n).value) ∧
    (∀ n, ((twoLayerSorted.UpdateParameters 2).heap n).dcost = (twoLayerSorted.heap n).dcost ∧
      ((twoLayerSorted.UpdateParameters 2).heap n).kind = (twoLayerSorted.heap n).kind) ∧
    (twoLayerSorted.UpdateParameters 2).nodes = twoLayerSorted.nodes ∧
    (twoLayerSorted.UpdateParameters 2).parameters = twoLayerSorted.parameters) :=
  ⟨by decide, UpdateParameters_spec twoLayerSorted 2 (by decide)⟩

/-! ## The sigmoid derivative -/

theorem sigmoid_identity (v : ℝ) :
    Real.exp v / (1 + Real.exp v) ^ 2 =
      (1 / (1 + Real.exp (-v))) * (1 - 1 / (1 + Real.exp (-v))) := by
  have he : Real.exp (-v) = (Real.exp v)⁻¹ := Real.exp_neg _
  have hp := Real.exp_pos v
  rw [he]
  have h1 : 1 + Real.exp v ≠ 0 := by linarith
  have h2 : Real.exp v ≠ 0 := ne_of_gt hp
  have h3 : 1 + (Real.exp v)⁻¹ ≠ 0 := by
    have : 0 < (Real.exp v)⁻¹ := inv_pos.mpr hp
    linarith
  field_simp
  ring

/-- C15 (sigmoid derivative identity): over the reals, for a `Sigmoid` node `s`
with input `x` whose value is `1 / (1 + exp (-x.value))`, what
`SigmoidNode::PushPartial` adds to the accumulator of `x`, namely
`dcost * (exp x.value / (1 + exp x.value)^2)`, equals
`dcost * value * (1 - value)`. -/
theorem sigmoid_push_identity (heap : Nat → Node ℝ) (s x : Nat)
    (hk : (heap s).kind = NodeKind.sigmoid x)
    (hv : (heap s).value = 1 / (1 + Real.exp (-(heap x).value))) :
    (PushPartial Real.exp heap s x).dcost - (heap x).dcost =
      (heap s).dcost *
        (Real.exp (heap x).value / (1 + Real.exp (heap x).value) ^ 2) ∧
    (heap s).dcost * (Real.exp (heap x).value / (1 + Real.exp (heap x).value) ^ 2) =
      (heap s).dcost * (heap s).value * (1 - (heap s).value) := by
  constructor
  · unfold PushPartial
    rw [hk]
    simp only [pushTo_dcost, if_true]
    ring
  · rw [hv, sigmoid_identity]
    ring

theorem sigmoidNet_sigmoid_evaluated :
    (((sigmoidNet ℝ).ComputeValues Real.exp).heap 4).kind = NodeKind.sigmoid 3 ∧
    (((sigmoidNet ℝ).ComputeValues Real.exp).heap 4).value =
      1 / (1 + Real.exp (-(((sigmoidNet ℝ).ComputeValues Real.exp).heap 3).value)) := by
  have hI := ComputeValues_inv Real.exp (sigmoidNet ℝ) (by decide) (by decide)
  obtain ⟨_, f3, f4⟩ := sigmoidNet_forward
  exact ⟨hI.kind 4, by rw [f4, f3]⟩

theorem sigmoid_push_identity_witness :
    (((sigmoidNet ℝ).ComputeValues Real.exp).heap 4).kind = NodeKind.sigmoid 3 ∧
    (((sigmoidNet ℝ).ComputeValues Real.exp).heap 4).value =
      1 / (1 + Real.exp (-(((sigmoidNet ℝ).ComputeValues Real.exp).heap 3).value)) ∧
    ((PushPartial Real.exp ((sigmoidNet ℝ).ComputeValues Real.exp).heap 4 3).dcost -
        (((sigmoidNet ℝ).ComputeValues Real.exp).heap 3).dcost =
      (((sigmoidNet ℝ).ComputeValues Real.exp).heap 4).dcost *
        (Real.exp (((sigmoidNet ℝ).ComputeValues Real.exp).heap 3).value /
          (1 + Real.exp (((sigmoidNet ℝ).ComputeValues Real.exp).heap 3).value) ^ 2) ∧
    (((sigmoidNet ℝ).ComputeValues Real.exp).heap 4).dcost *
        (Real.exp (((sigmoidNet ℝ).ComputeValues Real.exp).heap 3).value /
          (1 + Real.exp (((sigmoidNet ℝ).ComputeValues Real.exp).heap 3).value) ^ 2) =
      (((sigmoidNet ℝ).ComputeValues Real.exp).heap 4).dcost *
        (((sigmoidNet ℝ).ComputeValues Real.exp).heap 4).value *
        (1 - (((sigmoidNet ℝ).ComputeValues Real.exp).heap 4).value)) :=
  ⟨sigmoidNet_sigmoid_evaluated.1, sigmoidNet_sigmoid_evaluated.2,
    sigmoid_push_identity ((sigmoidNet ℝ).ComputeValues Real.exp).heap 4 3
      sigmoidNet_sigmoid_evaluated.1 sigmoidNet_sigmoid_evaluated.2⟩

/-! ## `ComputePartials` only writes accumulators -/

theorem computePartialsLoop_frame {α : Type} [Field α] (ex : α → α) (l : List Nat)
    (heap : Nat → Node α) (m : Nat) :
    (computePartialsLoop ex l heap m).kind = (heap m).kind ∧
    (computePartialsLoop ex l heap m).value = (heap m).value := by
  induction l generalizing heap with
  | nil => exact ⟨rfl, rfl⟩
  | cons n l ih =>
    rw [computePartialsLoop]
    obtain ⟨h1, h2⟩ := ih (PushPartial ex heap n)
    obtain ⟨h3, h4⟩ := PushPartial_frame ex heap n m
    exact ⟨h1.trans h3, h2.trans h4⟩

/-- C18 (the backward pass does not touch values): for every graph and every
cost node, `ComputePartials(cost)` leaves the value and the class of every
node, the stored node order and the trainable list unchanged; it writes
accumulators only. -/
theorem ComputePartials_frame {α : Type} [Field α] (ex : α → α) (net : Network α)
    (cost : Nat) :
    (∀ n, ((net.ComputePartials ex cost).heap n).value = (net.heap n).value ∧
      ((net.ComputePartials ex cost).heap n).kind = (net.heap n).kind) ∧
    (net.ComputePartials ex cost).nodes = net.nodes ∧
    (net.ComputePartials ex cost).parameters = net.parameters := by
  refine ⟨fun n => ?_, rfl, rfl⟩
  obtain ⟨h1, h2⟩ := computePartialsLoop_frame ex net.nodes.reverse
    (setDcost net.heap cost 1) n
  exact ⟨h2.trans (setDcost_value _ _ _ _), h1.trans (setDcost_kind _ _ _ _)⟩

/-! ## Evaluation in an order that is not topological -/

theorem twoLayerNet_first_pass :
    ((twoLayerNet.ComputeValues exQ).heap 0).value = 1 ∧
    ((twoLayerNet.ComputeValues exQ).heap 1).value = 0 ∧
    ((twoLayerNet.ComputeValues exQ).heap 3).value = 0 ∧
    ((twoLayerNet.ComputeValues exQ).heap 4).value = 3 := by
  simp [Network.ComputeValues, computeValuesLoop, Eval, twoLayerNet, twoLayerHeap, setValue,
    setDcost, Function.update, evalLinearTerms]

theorem twoLayerNet_second_pass :
    (((twoLayerNet.ComputeValues exQ).ComputeValues exQ).heap 3).value = 3 := by
  simp [Network.ComputeValues, computeValuesLoop, Eval, twoLayerNet, twoLayerHeap, setValue,
    setDcost, Function.update, evalLinearTerms]

/-- C16 (unsorted evaluation is silently wrong): in `twoLayerNet` the reducer
`L1` (node 3) is stored before its dependency `L2` (node 4, with bias value 3),
and the input is 1.  `ComputeValues` without a prior `TopoSort` returns a
network (it has no failure signal) in which the value of `L1` differs from
`bias.value + Σ a.value * b.value` over the values its dependencies hold after
the pass, and a second `ComputeValues` with unchanged inputs changes the value
of `L1`. -/
theorem ComputeValues_unsorted :
    twoLayerNet.nodes.indexOf 3 < twoLayerNet.nodes.indexOf 4 ∧
    4 ∈ twoLayerNet.depsOf 3 ∧
    (twoLayerNet.heap 3).kind = NodeKind.linearReducer 1 [(4, 0)] ∧
    ((twoLayerNet.ComputeValues exQ).heap 3).value ≠
      ((twoLayerNet.ComputeValues exQ).heap 1).value +
        ([((4 : Nat), (0 : Nat))].map (fun t =>
          ((twoLayerNet.ComputeValues exQ).heap t.1).value *
            ((twoLayerNet.ComputeValues exQ).heap t.2).value)).sum ∧
    (((twoLayerNet.ComputeValues exQ).ComputeValues exQ).heap 3).value ≠
      ((twoLayerNet.ComputeValues exQ).heap 3).value := by
  obtain ⟨h0, h1, h3, h4⟩ := twoLayerNet_first_pass
  refine ⟨by decide, by decide, rfl, ?_, ?_⟩
  · simp only [List.map_cons, List.map_nil, List.sum_cons, List.sum_nil, h0, h1, h3, h4]
    norm_num
  · rw [twoLayerNet_second_pass, h3]
    norm_num


/-! ## Seed isolation -/

theorem contribution_zero_of_dcost {α : Type} [Field α] (ex : α → α) (heap : Nat → Node α)
    (n d : Nat) (h : (heap n).dcost = 0) : contribution ex heap n d = 0 := by
  unfold contribution
  cases (heap n).kind with
  | input => rfl
  | parameter => rfl
  | linearReducer bias terms =>
    simp only [h, zero_mul, ite_self, add_zero, zero_add]
    apply list_sum_eq_zero
    intro x hx
    obtain ⟨t, _, rfl⟩ := List.mem_map.mp hx
    rfl
  | sigmoid x => simp only [h, zero_mul, ite_self]
  | squaredError terms =>
    simp only [h, zero_mul, ite_self, add_zero]
    apply list_sum_eq_zero
    intro x hx
    obtain ⟨t, _, rfl⟩ := List.mem_map.mp hx
    rfl

theorem reach_index {α : Type} (net : Network α) (hov : net.OrderValid) (a b : Nat)
    (ha : a ∈ net.nodes) (h : Relation.TransGen (fun x y => y ∈ net.depsOf x) a b) :
    b ∈ net.nodes ∧ net.nodes.indexOf b < net.nodes.indexOf a := by
  induction h with
  | single hs =>
    have := hov a ha _ hs
    exact ⟨List.indexOf_lt_length.mp (lt_of_lt_of_le this List.indexOf_le_length), this⟩
  | tail _ hs ih =>
    have := hov _ ih.1 _ hs
    exact ⟨List.indexOf_lt_length.mp (lt_of_lt_of_le this List.indexOf_le_length),
      lt_trans this ih.2⟩

theorem backward_acc {α : Type} [Field α] (ex : α → α) (net : Network α) (cost : Nat)
    (hwf : net.WF) (hov : net.OrderValid) :
    (∀ m, (((net.ComputeValues ex).ComputePartials ex cost).heap m).kind = (net.heap m).kind) ∧
    ∀ d ∈ net.nodes, (((net.ComputeValues ex).ComputePartials ex cost).heap d).dcost =
      (if d = cost then 1 else 0) +
      (net.nodes.map (fun n =>
        contribution ex ((net.ComputeValues ex).ComputePartials ex cost).heap n d)).sum := by
  have hF := ComputeValues_inv ex net hwf hov
  obtain ⟨hwf1, hov1⟩ := ComputeValues_orderValid ex net hwf hov
  have hB := ComputePartials_inv ex (net.ComputeValues ex) cost hwf1 hov1
  refine ⟨fun m => by rw [hB.kind, setDcost_kind, hF.kind], fun d hd => ?_⟩
  have hacc := hB.acc d
  by_cases hdc : d = cost
  · subst hdc
    rw [setDcost_dcost_self] at hacc
    rw [if_pos rfl]; exact hacc
  · rw [setDcost_dcost_ne _ _ hdc, (hF.done d hd).1] at hacc
    rw [if_neg hdc]; exact hacc

theorem unreached_zero {α : Type} [Field α] (ex : α → α) (net : Network α) (cost : Nat)
    (hwf : net.WF) (hov : net.OrderValid) (k : Nat) :
    ∀ n ∈ net.nodes, net.nodes.length - net.nodes.indexOf n ≤ k → n ≠ cost →
      ¬ Relation.TransGen (fun x y => y ∈ net.depsOf x) cost n →
      (((net.ComputeValues ex).ComputePartials ex cost).heap n).dcost = 0 := by
  obtain ⟨hk, hacc⟩ := backward_acc ex net cost hwf hov
  induction k with
  | zero =>
    intro n hn hlen
    have := List.indexOf_lt_length.mpr hn
    omega
  | succ k ih =>
    intro n hn hlen hnc hnr
    rw [hacc n hn, if_neg hnc, zero_add]
    apply list_sum_eq_zero
    intro x hx
    obtain ⟨N, hN, rfl⟩ := List.mem_map.mp hx
    by_cases hdep : n ∈ (((net.ComputeValues ex).ComputePartials ex cost).heap N).kind.deps
    · rw [hk] at hdep
      have hlt := hov N hN n hdep
      have hNlt := List.indexOf_lt_length.mpr hN
      have hNc : N ≠ cost := by
        rintro rfl
        exact hnr (Relation.TransGen.single hdep)
      have hNr : ¬ Relation.TransGen (fun x y => y ∈ net.depsOf x) cost N :=
        fun h => hnr (Relation.TransGen.tail h hdep)
      exact contribution_zero_of_dcost ex _ N n (ih N hN (by omega) hNc hNr)
    · exact contribution_eq_zero ex _ N n hdep

/-- C17 (seed isolation): on a graph whose stored order places every dependency
before its dependents and for every stored cost node, after `ComputeValues`
followed by `ComputePartials(cost)` (in a field of scalars, so in real
arithmetic) the accumulator of the cost node is exactly 1, whatever depends on
it, and every stored node that is neither the cost node nor a transitive
dependency of it has accumulator 0. -/
theorem ComputePartials_seed_isolation {α : Type} [Field α] (ex : α → α) (net : Network α)
    (cost : Nat) (hwf : net.WF) (hov : net.OrderValid) (hc : cost ∈ net.nodes) :
    (((net.ComputeValues ex).ComputePartials ex cost).heap cost).dcost = 1 ∧
    ∀ n ∈ net.nodes, n ≠ cost →
      ¬ Relation.TransGen (fun x y => y ∈ net.depsOf x) cost n →
      (((net.ComputeValues ex).ComputePartials ex cost).heap n).dcost = 0 := by
  obtain ⟨hk, hacc⟩ := backward_acc ex net cost hwf hov
  constructor
  · rw [hacc cost hc, if_pos rfl]
    have hz : (net.nodes.map (fun n =>
        contribution ex ((net.ComputeValues ex).ComputePartials ex cost).heap n cost)).sum = 0 := by
      apply list_sum_eq_zero
      intro x hx
      obtain ⟨N, hN, rfl⟩ := List.mem_map.mp hx
      by_cases hdep : cost ∈ (((net.ComputeValues ex).ComputePartials ex cost).heap N).kind.deps
      · rw [hk] at hdep
        have hlt := hov N hN cost hdep
        have hNc : N ≠ cost := by
          rintro rfl
          exact lt_irrefl _ hlt
        have hNr : ¬ Relation.TransGen (fun x y => y ∈ net.depsOf x) cost N := by
          intro h
          have := (reach_index net hov cost N hc h).2
          omega
        exact contribution_zero_of_dcost ex _ N cost
          (unreached_zero ex net cost hwf hov net.nodes.length N hN (by omega) hNc hNr)
      · exact contribution_eq_zero ex _ N cost hdep
    rw [hz, add_zero]
  · intro n hn hnc hnr
    exact unreached_zero ex net cost hwf hov net.nodes.length n hn (by omega) hnc hnr

theorem ComputePartials_seed_isolation_witness :
    twoLayerSorted.WF ∧ twoLayerSorted.OrderValid ∧ 4 ∈ twoLayerSorted.nodes ∧
    ((((twoLayerSorted.ComputeValues exQ).ComputePartials exQ 4).heap 4).dcost = 1 ∧
    ∀ n ∈ twoLayerSorted.nodes, n ≠ 4 →
      ¬ Relation.TransGen (fun x y => y ∈ twoLayerSorted.depsOf x) 4 n →
      (((twoLayerSorted.ComputeValues exQ).ComputePartials exQ 4).heap n).dcost = 0) :=
  ⟨by decide, by decide, by decide,
    ComputePartials_seed_isolation exQ twoLayerSorted 4 (by decide) (by decide) (by decide)⟩


/-! ## Public operations and the fields they write -/

theorem evalLinearTerms_kind {α : Type} [Field α] (self : Nat) (ts : List (Nat × Nat))
    (heap : Nat → Node α) (m : Nat) :
    (evalLinearTerms self ts heap m).kind = (heap m).kind := by
  induction ts generalizing heap with
  | nil => rfl
  | cons t ts ih => rw [evalLinearTerms, ih, setValue_kind]

theorem evalSquaredTerms_kind {α : Type} [Field α] (self : Nat) (ts : List (Nat × Nat))
    (heap : Nat → Node α) (m : Nat) :
    (evalSquaredTerms self ts heap m).kind = (heap m).kind := by
  induction ts generalizing heap with
  | nil => rfl
  | cons t ts ih => rw [evalSquaredTerms, ih, setValue_kind]

theorem Eval_kind {α : Type} [Field α] (ex : α → α) (heap : Nat → Node α) (self m : Nat) :
    (Eval ex heap self m).kind = (heap m).kind := by
  unfold Eval
  cases (heap self).kind with
  | input => rfl
  | parameter => rfl
  | linearReducer bias terms => simp only [evalLinearTerms_kind, setValue_kind]
  | sigmoid inp => simp only [setValue_kind]
  | squaredError terms => simp only [evalSquaredTerms_kind, setValue_kind]

theorem computeValuesLoop_kind {α : Type} [Field α] (ex : α → α) (l : List Nat)
    (heap : Nat → Node α) (m : Nat) :
    (computeValuesLoop ex l heap m).kind = (heap m).kind := by
  induction l generalizing heap with
  | nil => rfl
  | cons n l ih => rw [computeValuesLoop, ih, Eval_kind, setDcost_kind]

theorem topoFinish_frame {α : Type} (net : Network α) (ctx : topo_context) :
    (topoFinish net ctx).2.heap = net.heap ∧
    (topoFinish net ctx).2.parameters = net.parameters := by
  unfold topoFinish
  by_cases h1 : ctx.ordered_nodes.length < net.nodes.length
  · rw [if_pos h1]; exact ⟨rfl, rfl⟩
  · rw [if_neg h1]
    by_cases h2 : ctx.out_degree.size > net.nodes.length
    · rw [if_pos h2]; exact ⟨rfl, rfl⟩
    · rw [if_neg h2]
      obtain ⟨a, b⟩ := installLoop_frame ctx.ordered_nodes { net with nodes := [] }
      exact ⟨a.trans (by with_reducible rfl), b.trans (by with_reducible rfl)⟩

theorem TopoSort_frame {α : Type} (net : Network α) (fuel : Nat) (r : TopoDiag × Network α)
    (h : net.TopoSort fuel = some r) :
    r.2.heap = net.heap ∧ r.2.parameters = net.parameters := by
  obtain ⟨ctx, _, hfin⟩ := (TopoSort_eq_some net fuel r).mp h
  rw [← hfin]
  exact topoFinish_frame net ctx

theorem pairList_append (l₁ l₂ : List (Nat × Nat)) :
    pairList (l₁ ++ l₂) = pairList l₁ ++ pairList l₂ := by
  induction l₁ with
  | nil => rfl
  | cons t l ih => simp [pairList, ih]

theorem setKind_ne {α : Type} (heap : Nat → Node α) {n m : Nat} (k : NodeKind) (h : m ≠ n) :
    setKind heap n k m = heap m := by
  simp [setKind, Function.update, h]

theorem setKind_self {α : Type} (heap : Nat → Node α) (n : Nat) (k : NodeKind) :
    (setKind heap n k n).kind = k := by
  simp [setKind]

theorem construct_heap_ne {α : Type} [Field α] (net : Network α) (self n : Nat) (k : NodeKind)
    (h : n ≠ self) : (net.construct self k).heap n = net.heap n := by
  simp [Network.construct, Network.AddNode, Function.update, h]

theorem linearAddTerm_deps {α : Type} (net : Network α) (self a b n : Nat) :
    (n ≠ self → (net.linearAddTerm self a b).depsOf n = net.depsOf n) ∧
    (∀ bias terms, (net.heap self).kind = NodeKind.linearReducer bias terms →
      (net.linearAddTerm self a b).depsOf self = net.depsOf self ++ [a, b]) := by
  unfold Network.linearAddTerm Network.depsOf
  constructor
  · intro hn
    cases hk : (net.heap self).kind <;> first | rfl | (simp only []; rw [setKind_ne _ _ hn])
  · intro bias terms hk
    rw [hk]
    simp only [setKind_self, deps_linearReducer, pairList_append, pairList]
    simp

theorem squaredAddTerm_deps {α : Type} (net : Network α) (self a b n : Nat) :
    (n ≠ self → (net.squaredAddTerm self a b).depsOf n = net.depsOf n) ∧
    (∀ terms, (net.heap self).kind = NodeKind.squaredError terms →
      (net.squaredAddTerm self a b).depsOf self = net.depsOf self ++ [a, b]) := by
  unfold Network.squaredAddTerm Network.depsOf
  constructor
  · intro hn
    cases hk : (net.heap self).kind <;> first | rfl | (simp only []; rw [setKind_ne _ _ hn])
  · intro terms hk
    rw [hk]
    simp only [setKind_self, deps_squaredError, pairList_append, pairList]

/-- The dependencies of a node whose address is not given to a new object are
untouched by every operation other than an `AddTerm` on that node. -/
theorem perform_deps {α : Type} [Field α] (ex : α → α) (net net' : Network α) (op : Op α)
    (n : Nat) (h : net.perform ex op = some net') (hc : op.constructed ≠ some n)
    (ht : op.addTermTarget ≠ some n) : net'.depsOf n = net.depsOf n := by
  cases op with
  | newInput self val =>
    have hn : n ≠ self := fun e => hc (by rw [e]; rfl)
    cases h
    simp [Network.depsOf, Network.newInputNode, Network.withValue, construct_heap_ne _ _ _ _ hn]
  | newParameter self val =>
    have hn : n ≠ self := fun e => hc (by rw [e]; rfl)
    cases h
    simp [Network.depsOf, Network.newParameterNode, Network.withValue, Network.AddParameter,
      construct_heap_ne _ _ _ _ hn]
  | newLinearReducer self bias =>
    have hn : n ≠ self := fun e => hc (by rw [e]; rfl)
    cases h
    simp [Network.depsOf, Network.newLinearReducer, construct_heap_ne _ _ _ _ hn]
  | newSigmoid self inp =>
    have hn : n ≠ self := fun e => hc (by rw [e]; rfl)
    cases h
    simp [Network.depsOf, Network.newSigmoidNode, construct_heap_ne _ _ _ _ hn]
  | newSquaredError self =>
    have hn : n ≠ self := fun e => hc (by rw [e]; rfl)
    cases h
    simp [Network.depsOf, Network.newSquaredError, construct_heap_ne _ _ _ _ hn]
  | setValue self val =>
    cases h
    unfold Network.inputSetValue
    cases (net.heap self).kind <;> simp [Network.depsOf, Network.withValue]
  | linearAddTerm self a b =>
    have hn : n ≠ self := fun e => ht (by rw [e]; rfl)
    cases h
    exact (linearAddTerm_deps net self a b n).1 hn
  | squaredAddTerm self a b =>
    have hn : n ≠ self := fun e => ht (by rw [e]; rfl)
    cases h
    exact (squaredAddTerm_deps net self a b n).1 hn
  | topoSort fuel =>
    simp only [Network.perform, Option.map_eq_some'] at h
    obtain ⟨r, hr, rfl⟩ := h
    unfold Network.depsOf
    rw [(TopoSort_frame net fuel r hr).1]
  | computeValues =>
    cases h
    unfold Network.depsOf Network.ComputeValues
    simp only [computeValuesLoop_kind]
  | computePartials cost =>
    cases h
    unfold Network.depsOf
    unfold Network.ComputePartials
    simp only [(computePartialsLoop_frame ex _ _ n).1, setDcost_kind]
  | updateParameters lr =>
    cases h
    unfold Network.depsOf Network.UpdateParameters
    simp only [(updateLoop_frame lr net.parameters net.heap n).1]

/-- C13, as stated, fails: after the constructor of the `LinearReducer` at
address 3 has returned it enumerates `[2]`; the public `AddTerm(0, 1)` then
makes it enumerate `[2, 0, 1]`. -/
theorem AddTerm_changes_deps :
    reducerBuilt.depsOf 3 = [2] ∧
    reducerBuilt.perform exQ (Op.linearAddTerm 3 0 1) = some (reducerBuilt.linearAddTerm 3 0 1) ∧
    (reducerBuilt.linearAddTerm 3 0 1).depsOf 3 = [2, 0, 1] ∧
    (reducerBuilt.linearAddTerm 3 0 1).depsOf 3 ≠ reducerBuilt.depsOf 3 := by
  refine ⟨by decide, rfl, by decide, by decide⟩

/-- C13 (amended): for a node `n` whose constructor has returned (no later
constructor is given its address), every public operation other than an
`AddTerm` on `n` itself leaves unchanged the sequence of dependencies that `n`
enumerates, and an `AddTerm(a, b)` on `n` appends `a, b` after the
dependencies enumerated so far. -/
theorem deps_after_operation {α : Type} [Field α] (ex : α → α) (net net' : Network α)
    (op : Op α) (n : Nat) (h : net.perform ex op = some net')
    (hc : op.constructed ≠ some n) :
    (op.addTermTarget ≠ some n → net'.depsOf n = net.depsOf n) ∧
    (∀ a b bias terms, op = Op.linearAddTerm n a b →
      (net.heap n).kind = NodeKind.linearReducer bias terms →
      net'.depsOf n = net.depsOf n ++ [a, b]) ∧
    (∀ a b terms, op = Op.squaredAddTerm n a b →
      (net.heap n).kind = NodeKind.squaredError terms →
      net'.depsOf n = net.depsOf n ++ [a, b]) := by
  refine ⟨fun ht => perform_deps ex net net' op n h hc ht, ?_, ?_⟩
  · intro a b bias terms hop hk
    subst hop
    cases h
    exact (linearAddTerm_deps net n a b n).2 bias terms hk
  · intro a b terms hop hk
    subst hop
    cases h
    exact (squaredAddTerm_deps net n a b n).2 terms hk

theorem deps_after_operation_witness :
    reducerBuilt.perform exQ (Op.linearAddTerm 3 0 1) = some (reducerBuilt.linearAddTerm 3 0 1) ∧
    (Op.linearAddTerm 3 0 1 : Op ℚ).constructed ≠ some 3 ∧
    (((Op.linearAddTerm 3 0 1 : Op ℚ).addTermTarget ≠ some 3 →
      (reducerBuilt.linearAddTerm 3 0 1).depsOf 3 = reducerBuilt.depsOf 3) ∧
    (∀ a b bias terms, (Op.linearAddTerm 3 0 1 : Op ℚ) = Op.linearAddTerm 3 a b →
      (reducerBuilt.heap 3).kind = NodeKind.linearReducer bias terms →
      (reducerBuilt.linearAddTerm 3 0 1).depsOf 3 = reducerBuilt.depsOf 3 ++ [a, b]) ∧
    (∀ a b terms, (Op.linearAddTerm 3 0 1 : Op ℚ) = Op.squaredAddTerm 3 a b →
      (reducerBuilt.heap 3).kind = NodeKind.squaredError terms →
      (reducerBuilt.linearAddTerm 3 0 1).depsOf 3 = reducerBuilt.depsOf 3 ++ [a, b])) :=
  ⟨rfl, by simp [Op.constructed],
    deps_after_operation exQ reducerBuilt (reducerBuilt.linearAddTerm 3 0 1)
      (Op.linearAddTerm 3 0 1) 3 rfl (by simp [Op.constructed])⟩

/-! ## The trainable list -/

theorem perform_parameters {α : Type} [Field α] (ex : α → α) (net net' : Network α)
    (op : Op α) (h : net.perform ex op = some net') :
    net'.parameters = net.parameters ++ op.constructedParameter.toList := by
  cases op with
  | topoSort fuel =>
    simp only [Network.perform, Option.map_eq_some'] at h
    obtain ⟨r, hr, rfl⟩ := h
    rw [(TopoSort_frame net fuel r hr).2]
    simp [Op.constructedParameter]
  | setValue self val =>
    cases h
    unfold Network.inputSetValue
    cases (net.heap self).kind <;> simp [Op.constructedParameter, Network.withValue]
  | linearAddTerm self a b =>
    cases h
    unfold Network.linearAddTerm
    cases (net.heap self).kind <;> simp [Op.constructedParameter]
  | squaredAddTerm self a b =>
    cases h
    unfold Network.squaredAddTerm
    cases (net.heap self).kind <;> simp [Op.constructedParameter]
  | newInput self val =>
    cases h
    simp [Op.constructedParameter, Network.newInputNode, Network.withValue, Network.construct,
      Network.AddNode]
  | newParameter self val =>
    cases h
    simp [Op.constructedParameter, Network.newParameterNode, Network.withValue,
      Network.construct, Network.AddNode, Network.AddParameter]
  | newLinearReducer self bias =>
    cases h
    simp [Op.constructedParameter, Network.newLinearReducer, Network.construct, Network.AddNode]
  | newSigmoid self inp =>
    cases h
    simp [Op.constructedParameter, Network.newSigmoidNode, Network.construct, Network.AddNode]
  | newSquaredError self =>
    cases h
    simp [Op.constructedParameter, Network.newSquaredError, Network.construct, Network.AddNode]
  | computeValues =>
    cases h
    simp [Op.constructedParameter, Network.ComputeValues]
  | computePartials cost =>
    cases h
    simp [Op.constructedParameter, Network.ComputePartials]
  | updateParameters lr =>
    cases h
    simp [Op.constructedParameter, Network.UpdateParameters]

theorem run_parameters {α : Type} [Field α] (ex : α → α) (ops : List (Op α))
    (net net' : Network α) (h : Network.run ex net ops = some net') :
    net'.parameters = net.parameters ++ ops.filterMap Op.constructedParameter := by
  induction ops generalizing net with
  | nil =>
    simp only [Network.run, Option.some.injEq] at h
    subst h
    simp
  | cons op ops ih =>
    rw [Network.run] at h
    cases hp : net.perform ex op with
    | none => rw [hp] at h; exact absurd h (by simp)
    | some net1 =>
      rw [hp] at h
      rw [ih net1 h, perform_parameters ex net net1 op hp, List.append_assoc]
      congr 1
      cases hc : op.constructedParameter <;> simp [List.filterMap_cons, hc]

/-- C14 (the trainable list is registration-ordered and sort-stable): after any
sequence of public operations on a fresh network, in which fewer than `2^32`
`ParameterNode` objects are constructed, `NumParameters` is the number of
`ParameterNode` constructions, `GetParameter(i)` is the `i`-th `ParameterNode`
constructed (0-based), and a `TopoSort`, whatever it reports, leaves the
trainable list unchanged in content and order. -/
theorem parameters_registration {α : Type} [Field α] (ex : α → α) (heap : Nat → Node α)
    (ops : List (Op α)) (net : Network α)
    (hrun : Network.run ex (Network.fresh heap) ops = some net)
    (hlt : (ops.filterMap Op.constructedParameter).length < U32) :
    net.NumParameters = (ops.filterMap Op.constructedParameter).length ∧
    (∀ i, net.GetParameter i = (ops.filterMap Op.constructedParameter).get? i) ∧
    (∀ fuel diag net', net.TopoSort fuel = some (diag, net') →
      net'.parameters = net.parameters) := by
  have hp : net.parameters = ops.filterMap Op.constructedParameter := by
    rw [run_parameters ex ops (Network.fresh heap) net hrun]
    rfl
  refine ⟨?_, fun i => ?_, fun fuel diag net' h => ?_⟩
  · unfold Network.NumParameters
    rw [hp]
    exact Nat.mod_eq_of_lt hlt
  · unfold Network.GetParameter
    rw [hp]
  · exact (TopoSort_frame net fuel (diag, net') h).2

theorem parameters_registration_witness :
    Network.run exQ (Network.fresh blankHeap) buildOps = some sigmoidConstructed ∧
    (buildOps.filterMap Op.constructedParameter).length < U32 ∧
    (sigmoidConstructed.NumParameters = (buildOps.filterMap Op.constructedParameter).length ∧
    (∀ i, sigmoidConstructed.GetParameter i =
      (buildOps.filterMap Op.constructedParameter).get? i) ∧
    (∀ fuel diag net', sigmoidConstructed.TopoSort fuel = some (diag, net') →
      net'.parameters = sigmoidConstructed.parameters)) :=
  ⟨rfl, by decide,
    parameters_registration exQ blankHeap buildOps sigmoidConstructed rfl (by decide)⟩


/-! ## No counter is decremented below zero -/

theorem releaseDepChecked_some {α : Type} (heap : Nat → Node α) (nodes : List Nat)
    (init : Nat → Nat) (P D : List Nat) (ctx : topo_context) (d : Nat)
    (hI : ReleaseInv heap nodes init P D ctx)
    (hsub : D ++ [d] <+: allDeps heap P)
    (hcnt : (allDeps heap P).count d ≤ init d) (hinit : init d < U32) :
    releaseDepChecked d (some ctx) = some (releaseDep d ctx) := by
  have hle : (D ++ [d]).count d ≤ (allDeps heap P).count d := hsub.sublist.count_le d
  have hc : (D ++ [d]).count d = D.count d + 1 := by
    rw [List.count_append, List.count_singleton]; simp
  have hv := hI.vals d
  have hvlt := hI.wf.2.2 d
  have hne : (ctx.out_degree.touch d).val d ≠ 0 := by
    rw [CountMap.touch_val _ hI.wf]
    intro h0
    rw [h0, Nat.zero_add] at hv
    simp only [U32] at hv hinit
    omega
  simp only [releaseDepChecked, if_neg hne]

theorem foldl_releaseDepChecked {α : Type} (heap : Nat → Node α) (nodes : List Nat)
    (init : Nat → Nat) (P : List Nat) (hlen : (allDeps heap P).length < U32)
    (hcnt : ∀ d, (allDeps heap P).count d ≤ init d) (hinit : ∀ d, init d < U32)
    (ds D : List Nat) (ctx : topo_context)
    (hI : ReleaseInv heap nodes init P D ctx) (hsub : D ++ ds <+: allDeps heap P) :
    ds.foldl (fun r d => releaseDepChecked d r) (some ctx) =
      some (ds.foldl (fun c d => releaseDep d c) ctx) := by
  induction ds generalizing D ctx with
  | nil => rfl
  | cons d ds ih =>
    have e : D ++ d :: ds = (D ++ [d]) ++ ds := by simp
    have hs1 : D ++ [d] <+: allDeps heap P :=
      (List.prefix_append (D ++ [d]) ds).trans (e ▸ hsub)
    obtain ⟨h1, _⟩ := releaseDep_inv heap nodes init P D ctx d hI hs1 hlen
    rw [List.foldl_cons, List.foldl_cons,
      releaseDepChecked_some heap nodes init P D ctx d hI hs1 (hcnt d) (hinit d)]
    exact ih (D ++ [d]) (releaseDep d ctx) h1 (e ▸ hsub)

theorem workLoopChecked_done {α : Type} (heap : Nat → Node α) (nodes : List Nat)
    (init : Nat → Nat)
    (hV : ∀ d, d ∈ nodes ∨ 1 ≤ init d → d ∈ nodes)
    (hVdeps : (allDeps heap nodes).length < U32) (hVlen : nodes.length < U32)
    (hinit : ∀ d, init d = (allDeps heap nodes).count d)
    (fuel i : Nat) (ctx ctx' : topo_context)
    (hI : ReleaseInv heap nodes init (ctx.ordered_nodes.take i)
      (allDeps heap (ctx.ordered_nodes.take i)) ctx)
    (hrun : workLoop heap fuel i ctx = some ctx') :
    workLoopChecked heap fuel i ctx = LoopResult.done ctx' := by
  induction fuel generalizing i ctx with
  | zero =>
    simp only [workLoop] at hrun
    simp only [workLoopChecked]
    split at hrun
    · exact absurd hrun (by simp)
    · next hi =>
      cases hrun
      rw [if_neg hi]
  | succ fuel ih =>
    simp only [workLoop] at hrun
    simp only [workLoopChecked]
    split at hrun
    · next hi =>
      rw [if_pos hi]
      have hle := hI.length_le nodes hV
      have hmod : (i + 1) % U32 = i + 1 := Nat.mod_eq_of_lt (by omega)
      rw [hmod] at hrun ⊢
      have htake := take_succ_getD ctx.ordered_nodes i hi
      have hpre : ctx.ordered_nodes.take (i + 1) <+: ctx.ordered_nodes := List.take_prefix _ _
      have hI' : ReleaseInv heap nodes init (ctx.ordered_nodes.take (i + 1))
          (allDeps heap (ctx.ordered_nodes.take i)) ctx :=
        ⟨hI.wf, hI.vals, hI.mem, hI.nodup, hI.before, hpre⟩
      have hsubV : ctx.ordered_nodes.take (i + 1) ⊆ nodes := by
        intro d hd
        have hd' : d ∈ ctx.ordered_nodes := hpre.subset hd
        rcases (hI.mem d).mp hd' with h | h
        · exact hV d (Or.inl h.1)
        · exact hV d (Or.inr h.1)
      have hndP : (ctx.ordered_nodes.take (i + 1)).Nodup := hI.nodup.sublist hpre.sublist
      have hsp := allDeps_subperm heap (List.subperm_of_subset hndP hsubV)
      have hlen : (allDeps heap (ctx.ordered_nodes.take (i + 1))).length < U32 :=
        lt_of_le_of_lt hsp.length_le hVdeps
      have hcnt : ∀ d, (allDeps heap (ctx.ordered_nodes.take (i + 1))).count d ≤ init d := by
        intro d
        rw [hinit d]
        exact hsp.count_le d
      have hinit' : ∀ d, init d < U32 := by
        intro d
        rw [hinit d]
        exact lt_of_le_of_lt (List.count_le_length _ _) hVdeps
      have hD : allDeps heap (ctx.ordered_nodes.take i) ++
          (heap (ctx.ordered_nodes.getD i 0)).kind.deps
          = allDeps heap (ctx.ordered_nodes.take (i + 1)) := by
        rw [htake, allDeps_append]
        simp [allDeps]
      have hfold := foldl_releaseDepChecked heap nodes init _ hlen hcnt hinit'
        (heap (ctx.ordered_nodes.getD i 0)).kind.deps _ ctx hI' (by rw [hD])
      rw [EnumDeps_eq_foldl, hfold]
      simp only
      rw [← EnumDeps_eq_foldl]
      exact ih (i + 1) _ (workLoop_step heap nodes init nodes hV hVdeps i ctx hI hi) hrun
    · next hi =>
      cases hrun
      rw [if_neg hi]

/-- C19 (the sort terminates and emits each node at most once): on a graph with
distinct addresses that fits the 32-bit counters and in which every enumerated
dependency is owned, the worklist loop of `TopoSort` ends within as many
iterations as there are owned nodes, no counter holding 0 is ever decremented,
and the emitted sequence has no node twice and is at most as long as the list
of owned nodes. -/
theorem worklist_terminates {α : Type} (net : Network α) (hwf : net.WF) (hfit : net.Fits32)
    (hown : net.AllOwned) (fuel : Nat) (hfuel : net.nodes.length ≤ fuel) :
    ∃ ctx,
      workLoopChecked net.heap fuel 0
        (seedLoop net.nodes (countLoop net.heap net.nodes ⟨CountMap.empty, []⟩))
        = LoopResult.done ctx ∧
      topoRun fuel net = some ctx ∧
      ctx.ordered_nodes.Nodup ∧
      ctx.ordered_nodes.length ≤ net.nodes.length := by
  obtain ⟨ctx, hrun⟩ := topoRun_isSome_owned net hwf hfit hown fuel hfuel
  have hI := topoRun_inv_owned net hwf hfit hown fuel ctx hrun
  have hV : ∀ d, d ∈ net.nodes ∨ 1 ≤ initCount net d → d ∈ net.nodes := by
    rintro d (h | h)
    · exact h
    · exact (allOwned_iff_subset net).mp hown (initCount_pos_mem net d h)
  refine ⟨ctx, ?_, hrun, hI.nodup, hI.length_le net.nodes hV⟩
  refine workLoopChecked_done net.heap net.nodes (initCount net) hV hfit.2
    (lt_of_le_of_lt hfit.1 (by decide)) (initCount_eq net hfit) fuel 0 _ ctx ?_ hrun
  simpa [allDeps] using seed_inv net hwf

theorem worklist_terminates_witness :
    twoLayerNet.WF ∧ twoLayerNet.Fits32 ∧ twoLayerNet.AllOwned ∧
    twoLayerNet.nodes.length ≤ 5 ∧
    ∃ ctx,
      workLoopChecked twoLayerNet.heap 5 0
        (seedLoop twoLayerNet.nodes
          (countLoop twoLayerNet.heap twoLayerNet.nodes ⟨CountMap.empty, []⟩))
        = LoopResult.done ctx ∧
      topoRun 5 twoLayerNet = some ctx ∧
      ctx.ordered_nodes.Nodup ∧
      ctx.ordered_nodes.length ≤ twoLayerNet.nodes.length :=
  ⟨by decide, by decide, by decide, by decide,
    worklist_terminates twoLayerNet (by decide) (by decide) (by decide) 5 (by decide)⟩

/-! ## Fan-in superposition -/

theorem computePartialsLoop_append {α : Type} [Field α] (ex : α → α) (A B : List Nat)
    (heap : Nat → Node α) :
    computePartialsLoop ex (A ++ B) heap =
      computePartialsLoop ex B (computePartialsLoop ex A heap) := by
  induction A generalizing heap with
  | nil => rfl
  | cons a A ih => exact ih _

theorem computePartialsLoop_dcost_of_not_dep {α : Type} [Field α] (ex : α → α) (L : List Nat)
    (heap : Nat → Node α) (m : Nat)
    (hL : ∀ n ∈ L, n ∉ (heap n).kind.deps ∧ m ∉ (heap n).kind.deps) :
    (computePartialsLoop ex L heap m).dcost = (heap m).dcost := by
  induction L generalizing heap with
  | nil => rfl
  | cons n L ih =>
    rw [computePartialsLoop, ih]
    · rw [PushPartial_dcost ex heap n (hL n (List.mem_cons_self n L)).1,
        contribution_eq_zero ex heap n m (hL n (List.mem_cons_self n L)).2, add_zero]
    · intro k hk
      rw [(PushPartial_frame ex heap n k).1]
      exact hL k (List.mem_cons_of_mem n hk)

theorem linearReducer_pair_push {α : Type} [Field α] (ex : α → α) (h : Nat → Node α)
    (N D bias : Nat) (hk : (h N).kind = NodeKind.linearReducer bias [(D, D)])
    (hb : bias ≠ D) (hNb : N ≠ bias) (hND : N ≠ D) :
    (PushPartial ex h N D).dcost = (h D).dcost + 2 * (h N).dcost * (h D).value := by
  have hs : N ∉ (h N).kind.deps := by
    rw [hk]
    simp only [deps_linearReducer, pairList, List.mem_cons, List.not_mem_nil, or_false, not_or]
    exact ⟨hNb, hND, hND⟩
  rw [PushPartial_dcost ex h N hs]
  unfold contribution
  rw [hk]
  simp only [if_neg hb, List.map_cons, List.map_nil, List.sum_cons, List.sum_nil, if_true]
  ring

/-- The call `N->PushPartial()` inside `ComputePartials(cost)`: the store it
runs on, the store the pass ends with, and what the call adds. -/
theorem ComputePartials_push_step {α : Type} [Field α] (ex : α → α) (net : Network α)
    (cost : Nat) (hwf : net.WF) (hov : net.OrderValid) (pre : List Nat) (N : Nat)
    (post : List Nat) (hsplit : net.nodes = pre ++ N :: post) :
    (net.ComputePartials ex cost).heap =
      computePartialsLoop ex pre.reverse
        (PushPartial ex (computePartialsLoop ex post.reverse (setDcost net.heap cost 1)) N) ∧
    ∀ D, (PushPartial ex
        (computePartialsLoop ex post.reverse (setDcost net.heap cost 1)) N D).dcost =
      (computePartialsLoop ex post.reverse (setDcost net.heap cost 1) D).dcost +
        contribution ex (net.ComputePartials ex cost).heap N D := by
  have hfin : (net.ComputePartials ex cost).heap =
      computePartialsLoop ex pre.reverse
        (PushPartial ex (computePartialsLoop ex post.reverse (setDcost net.heap cost 1)) N) := by
    unfold Network.ComputePartials
    simp only [hsplit, List.reverse_append, List.reverse_cons, List.append_assoc,
      List.singleton_append, computePartialsLoop_append, computePartialsLoop]
  refine ⟨hfin, fun D => ?_⟩
  have hdb := depsBefore_of_orderValid net hwf hov
  have hnd : (pre ++ N :: post).Nodup := hsplit ▸ hwf
  have hNpre : N ∉ pre := fun h =>
    (List.nodup_append.mp hnd).2.2 h (List.mem_cons_self N post)
  have hkB : ∀ m, (computePartialsLoop ex post.reverse (setDcost net.heap cost 1) m).kind =
      (net.heap m).kind := fun m => by
    rw [(computePartialsLoop_frame ex _ _ m).1, setDcost_kind]
  have hsN : N ∉ (net.heap N).kind.deps := fun h => hNpre (hdb pre N post hsplit N h)
  have hsB : N ∉ (computePartialsLoop ex post.reverse (setDcost net.heap cost 1) N).kind.deps := by
    rw [hkB]; exact hsN
  rw [PushPartial_dcost ex _ N hsB]
  have hc : contribution ex (computePartialsLoop ex post.reverse (setDcost net.heap cost 1)) N D =
      contribution ex (net.ComputePartials ex cost).heap N D := by
    refine contribution_congr ex (computePartialsLoop ex post.reverse (setDcost net.heap cost 1))
      (net.ComputePartials ex cost).heap N D ?_ ?_ ?_
    · rw [hfin, (computePartialsLoop_frame ex pre.reverse _ N).1, (PushPartial_frame ex _ N N).1]
    · rw [hfin, computePartialsLoop_dcost_of_not_dep ex pre.reverse, PushPartial_dcost ex _ N hsB,
        contribution_eq_zero ex _ N N hsB, add_zero]
      intro n hn
      rw [(PushPartial_frame ex _ N n).1, hkB]
      have hn' : n ∈ pre := List.mem_reverse.mp hn
      obtain ⟨a, b, rfl⟩ := List.append_of_mem hn'
      have hsp : net.nodes = a ++ n :: (b ++ N :: post) := by rw [hsplit]; simp
      have hnd2 : (a ++ n :: (b ++ N :: post)).Nodup := hsp ▸ hwf
      have hdis := (List.nodup_append.mp hnd2).2.2
      constructor
      · intro h
        exact hdis (hdb a n _ hsp n h) (List.mem_cons_self n _)
      · intro h
        exact hdis (hdb a n _ hsp N h) (by simp)
    · intro m
      rw [hfin, (computePartialsLoop_frame ex pre.reverse _ m).2, (PushPartial_frame ex _ N m).2]
  rw [hc]

theorem fanInNet_backward :
    (((fanInNet.ComputeValues exQ).ComputePartials exQ 6).heap 6).dcost = 1 ∧
    (((fanInNet.ComputeValues exQ).ComputePartials exQ 6).heap 3).dcost = 8 ∧
    (((fanInNet.ComputeValues exQ).ComputePartials exQ 6).heap 4).dcost = 10 ∧
    (((fanInNet.ComputeValues exQ).ComputePartials exQ 6).heap 0).dcost = 52 ∧
    (((fanInNet.ComputeValues exQ).ComputePartials exQ 6).heap 1).dcost = 18 ∧
    (((fanInNet.ComputeValues exQ).ComputePartials exQ 6).heap 0).value = 2 ∧
    (((fanInNet.ComputeValues exQ).ComputePartials exQ 6).heap 2).value = 3 ∧
    (((fanInNet.ComputeValues exQ).ComputePartials exQ 6).heap 4).value = 7 := by
  simp [Network.ComputeValues, computeValuesLoop, Eval, fanInNet, fanInHeap, setValue,
    setDcost, Function.update, evalLinearTerms, evalSquaredTerms, Network.ComputePartials,
    computePartialsLoop, PushPartial, pushTo, pushLinearTerms, pushSquaredTerms]
  norm_num

theorem passes_kind {α : Type} [Field α] (ex : α → α) (net : Network α) (cost m : Nat) :
    (((net.ComputeValues ex).ComputePartials ex cost).heap m).kind = (net.heap m).kind := by
  unfold Network.ComputePartials Network.ComputeValues
  simp only [(computePartialsLoop_frame ex _ _ m).1, setDcost_kind, computeValuesLoop_kind]

theorem fanInNet_contributions :
    contribution exQ ((fanInNet.ComputeValues exQ).ComputePartials exQ 6).heap 3 0 = 32 ∧
    contribution exQ ((fanInNet.ComputeValues exQ).ComputePartials exQ 6).heap 4 0 = 30 ∧
    contribution exQ ((fanInNet.ComputeValues exQ).ComputePartials exQ 6).heap 6 0 = -10 := by
  obtain ⟨h6, h3, h4, -, -, v0, v2, v4⟩ := fanInNet_backward
  have k3 : (((fanInNet.ComputeValues exQ).ComputePartials exQ 6).heap 3).kind =
      NodeKind.linearReducer 1 [(0, 0)] := passes_kind exQ fanInNet 6 3
  have k4 : (((fanInNet.ComputeValues exQ).ComputePartials exQ 6).heap 4).kind =
      NodeKind.linearReducer 1 [(2, 0)] := passes_kind exQ fanInNet 6 4
  have k6 : (((fanInNet.ComputeValues exQ).ComputePartials exQ 6).heap 6).kind =
      NodeKind.squaredError [(3, 5), (4, 0)] := passes_kind exQ fanInNet 6 6
  refine ⟨?_, ?_, ?_⟩
  · unfold contribution
    rw [k3]
    simp [h3, v0]
    norm_num
  · unfold contribution
    rw [k4]
    simp [h4, v2]
    norm_num
  · unfold contribution
    rw [k6]
    simp [h6, v0, v4]
    norm_num

theorem fanInNet_push_step :
    (computePartialsLoop exQ [6, 5, 4] (setDcost (fanInNet.ComputeValues exQ).heap 6 1) 0).dcost
      = 20 ∧
    (PushPartial exQ
      (computePartialsLoop exQ [6, 5, 4] (setDcost (fanInNet.ComputeValues exQ).heap 6 1))
      3 0).dcost = 52 := by
  simp [Network.ComputeValues, computeValuesLoop, Eval, fanInNet, fanInHeap, setValue,
    setDcost, Function.update, evalLinearTerms, evalSquaredTerms,
    computePartialsLoop, PushPartial, pushTo, pushLinearTerms, pushSquaredTerms]
  norm_num

/-- C9 (fan-in superposition): on a graph whose stored order places every
dependency before its dependents, after `ComputeValues` followed by
`ComputePartials(cost)`:
the accumulator of every stored node `D` other than `cost` is the sum, over
the stored nodes `N`, of the contributions `N` pushes for the dependency slots
that hold `D` (each slot counted), computed from the accumulators and values
held after the pass, and the accumulator of `cost` is the seed 1 plus that sum;
for every stored node `N`, the call `N->PushPartial()` made inside the pass
raises the accumulator of every `D` by exactly that contribution of `N` to
`D`; and for a stored `LinearReducer` `N` with the single term `(D, D)` (and
another bias), `PushPartial` run on any store raises the accumulator of `D` by
`2 * N.dcost * D.value`, which is also the contribution of `N` to `D` after
the pass. -/
theorem ComputePartials_superposition {α : Type} [Field α] (ex : α → α) (net : Network α)
    (cost : Nat) (hwf : net.WF) (hov : net.OrderValid) :
    (∀ D ∈ net.nodes, D ≠ cost →
      (((net.ComputeValues ex).ComputePartials ex cost).heap D).dcost =
        (net.nodes.map (fun N =>
          contribution ex ((net.ComputeValues ex).ComputePartials ex cost).heap N D)).sum) ∧
    ((((net.ComputeValues ex).ComputePartials ex cost).heap cost).dcost =
      1 + (net.nodes.map (fun N =>
          contribution ex ((net.ComputeValues ex).ComputePartials ex cost).heap N cost)).sum) ∧
    (∀ pre N post, net.nodes = pre ++ N :: post →
      ((net.ComputeValues ex).ComputePartials ex cost).heap =
        computePartialsLoop ex pre.reverse
          (PushPartial ex (computePartialsLoop ex post.reverse
            (setDcost (net.ComputeValues ex).heap cost 1)) N) ∧
      ∀ D, (PushPartial ex (computePartialsLoop ex post.reverse
            (setDcost (net.ComputeValues ex).heap cost 1)) N D).dcost =
        (computePartialsLoop ex post.reverse
            (setDcost (net.ComputeValues ex).heap cost 1) D).dcost +
          contribution ex ((net.ComputeValues ex).ComputePartials ex cost).heap N D) ∧
    (∀ N ∈ net.nodes, ∀ D bias,
      (net.heap N).kind = NodeKind.linearReducer bias [(D, D)] → bias ≠ D →
      (∀ h : Nat → Node α, (h N).kind = (net.heap N).kind →
        (PushPartial ex h N D).dcost = (h D).dcost + 2 * (h N).dcost * (h D).value) ∧
      contribution ex ((net.ComputeValues ex).ComputePartials ex cost).heap N D =
        2 * (((net.ComputeValues ex).ComputePartials ex cost).heap N).dcost *
          (((net.ComputeValues ex).ComputePartials ex cost).heap D).value) := by
  obtain ⟨hwf1, hov1⟩ := ComputeValues_orderValid ex net hwf hov
  have hI := ComputePartials_inv ex (net.ComputeValues ex) cost hwf1 hov1
  refine ⟨fun D hD hDc => ?_, ?_, fun pre N post hsplit => ?_, fun N hN D bias hk hb => ?_⟩
  · have hacc := hI.acc D
    rw [setDcost_dcost_ne _ _ hDc, ((ComputeValues_inv ex net hwf hov).done D hD).1,
      zero_add] at hacc
    exact hacc
  · have hacc := hI.acc cost
    rw [setDcost_dcost_self] at hacc
    exact hacc
  · exact ComputePartials_push_step ex (net.ComputeValues ex) cost hwf1 hov1 pre N post hsplit
  · have hNb : N ≠ bias := fun e => by
      have := hov N hN bias (by unfold Network.depsOf; rw [hk]; simp [deps_linearReducer])
      rw [← e] at this
      exact lt_irrefl _ this
    have hND : N ≠ D := fun e => by
      have := hov N hN D (by
        unfold Network.depsOf; rw [hk]; simp [deps_linearReducer, pairList])
      rw [← e] at this
      exact lt_irrefl _ this
    refine ⟨fun h hh => linearReducer_pair_push ex h N D bias (hh.trans hk) hb hNb hND, ?_⟩
    have hkf : (((net.ComputeValues ex).ComputePartials ex cost).heap N).kind =
        NodeKind.linearReducer bias [(D, D)] := by
      rw [hI.kind, setDcost_kind, (ComputeValues_inv ex net hwf hov).kind, hk]
    unfold contribution
    rw [hkf]
    simp only [if_neg hb, List.map_cons, List.map_nil, List.sum_cons, List.sum_nil, if_true]
    ring

theorem ComputePartials_superposition_witness :
    fanInNet.WF ∧ fanInNet.OrderValid ∧
    (3 ∈ fanInNet.nodes ∧ (fanInNet.heap 3).kind = NodeKind.linearReducer 1 [(0, 0)]) ∧
    ((((fanInNet.ComputeValues exQ).ComputePartials exQ 6).heap 0).dcost = 52 ∧
      contribution exQ ((fanInNet.ComputeValues exQ).ComputePartials exQ 6).heap 3 0 = 32 ∧
      contribution exQ ((fanInNet.ComputeValues exQ).ComputePartials exQ 6).heap 4 0 = 30 ∧
      contribution exQ ((fanInNet.ComputeValues exQ).ComputePartials exQ 6).heap 6 0 = -10) ∧
    ((((fanInNet.ComputeValues exQ).ComputePartials exQ 6).heap 3).dcost = 8 ∧
      (((fanInNet.ComputeValues exQ).ComputePartials exQ 6).heap 0).value = 2) ∧
    ((computePartialsLoop exQ [6, 5, 4]
        (setDcost (fanInNet.ComputeValues exQ).heap 6 1) 0).dcost = 20 ∧
      (PushPartial exQ (computePartialsLoop exQ [6, 5, 4]
        (setDcost (fanInNet.ComputeValues exQ).heap 6 1)) 3 0).dcost = 52) ∧
    ((∀ D ∈ fanInNet.nodes, D ≠ 6 →
      (((fanInNet.ComputeValues exQ).ComputePartials exQ 6).heap D).dcost =
        (fanInNet.nodes.map (fun N =>
          contribution exQ ((fanInNet.ComputeValues exQ).ComputePartials exQ 6).heap N D)).sum) ∧
    ((((fanInNet.ComputeValues exQ).ComputePartials exQ 6).heap 6).dcost =
      1 + (fanInNet.nodes.map (fun N =>
          contribution exQ ((fanInNet.ComputeValues exQ).ComputePartials exQ 6).heap N 6)).sum) ∧
    (∀ pre N post, fanInNet.nodes = pre ++ N :: post →
      ((fanInNet.ComputeValues exQ).ComputePartials exQ 6).heap =
        computePartialsLoop exQ pre.reverse
          (PushPartial exQ (computePartialsLoop exQ post.reverse
            (setDcost (fanInNet.ComputeValues exQ).heap 6 1)) N) ∧
      ∀ D, (PushPartial exQ (computePartialsLoop exQ post.reverse
            (setDcost (fanInNet.ComputeValues exQ).heap 6 1)) N D).dcost =
        (computePartialsLoop exQ post.reverse
            (setDcost (fanInNet.ComputeValues exQ).heap 6 1) D).dcost +
          contribution exQ ((fanInNet.ComputeValues exQ).ComputePartials exQ 6).heap N D) ∧
    (∀ N ∈ fanInNet.nodes, ∀ D bias,
      (fanInNet.heap N).kind = NodeKind.linearReducer bias [(D, D)] → bias ≠ D →
      (∀ h : Nat → Node ℚ, (h N).kind = (fanInNet.heap N).kind →
        (PushPartial exQ h N D).dcost = (h D).dcost + 2 * (h N).dcost * (h D).value) ∧
      contribution exQ ((fanInNet.ComputeValues exQ).ComputePartials exQ 6).heap N D =
        2 * (((fanInNet.ComputeValues exQ).ComputePartials exQ 6).heap N).dcost *
          (((fanInNet.ComputeValues exQ).ComputePartials exQ 6).heap D).value)) :=
  ⟨by decide, by decide, ⟨by decide, rfl⟩,
    ⟨fanInNet_backward.2.2.2.1, fanInNet_contributions⟩,
    ⟨fanInNet_backward.2.1, fanInNet_backward.2.2.2.2.2.1⟩,
    fanInNet_push_step,
    ComputePartials_superposition exQ fanInNet 6 (by decide) (by decide)⟩

end GradDesc
